import Mathlib

/-!
# fiber/bitstream: a bit-granular writer and reader

A shallow embedding of `writer.go` and `reader.go`.

* Bytes are natural numbers below 256; every Go operation that truncates to
  `byte`, `uint16`, `uint32` or `uint64` is written with an explicit `%`.
* The underlying `io.Writer` / `io.ByteWriter` is a `Sink` that logs every call
  it receives and answers from a script of results.
* The underlying `io.Reader` is a `Source`: the bytes it still holds and a
  script that says how each upcoming `Read` call behaves.
* A method that mutates its receiver becomes a function returning the new
  state; the Go return value `w.err` is the `err` field of that new state.
-/

namespace Bitstream

/-- A Go `error` value: `io.EOF`, or any other error identified by a code. -/
inductive GoError
  | EOF
  | other (code : Nat)
deriving DecidableEq, Repr

/-- Go's `x << k` on an unsigned type of `w` bits: the bits shifted out are
lost, and a count of `w` or more gives 0. -/
def shl (w x k : Nat) : Nat := if k < w then (x <<< k) % 2 ^ w else 0

/-! ## The byte sink -/

/-- The collaborator behind `w.w` (`io.Writer`) or `w.bw` (`io.ByteWriter`).
`calls` logs the argument of every call received so far, oldest first (a
`WriteByte(b)` call is logged as `[b]`); `script` holds the results of the
upcoming calls, and a call made after the script has run out succeeds. -/
structure Sink where
  calls : List (List Nat)
  script : List (Option GoError)
deriving DecidableEq, Repr

namespace Sink

/-- A sink that has received nothing and never fails. -/
def fresh : Sink := { calls := [], script := [] }

/-- One call of `Write(bs)` (or `WriteByte(b)` with `bs = [b]`): the call is
logged and answered by the head of the script. -/
def Write (s : Sink) (bs : List Nat) : Sink × Option GoError :=
  ({ calls := s.calls ++ [bs], script := s.script.tail }, s.script.head?.join)

/-- All bytes handed to the sink so far, in order. -/
def bytes (s : Sink) : List Nat := s.calls.flatten

end Sink

/-! ## The writer (`writer.go`) -/

/-- The sink side of a `Writer`. The constructors set exactly one of `bw` and
`w`, and no method assigns either field, so a writer is in one of two shapes:
`direct` (`bw` set, `w` and `buf` nil) or `buffered` (`w` set, `bw` nil, `buf`
with its length and capacity). -/
inductive Out
  | direct (bw : Sink)
  | buffered (w : Sink) (buf : List Nat) (cap : Nat)
deriving DecidableEq, Repr

/-- The Go struct `Writer`: `b` is the byte under assembly, `p` (a `uint16`)
the number of free low bits in it, `err` the recorded error. -/
structure Writer where
  out : Out
  b : Nat
  p : Nat
  err : Option GoError
deriving DecidableEq, Repr

def defaultBufferSize : Nat := 128

/-- `NewByteWriter(w)`: `&Writer{bw: w, p: 8}`. -/
def NewByteWriter (bw : Sink) : Writer :=
  { out := .direct bw, b := 0, p := 8, err := none }

/-- `NewWriterBuffer(w, b)`: `&Writer{w: w, p: 8, buf: b}`; the slice `b` is
given by its contents and its capacity. -/
def NewWriterBuffer (w : Sink) (buf : List Nat) (cap : Nat) : Writer :=
  { out := .buffered w buf cap, b := 0, p := 8, err := none }

/-- `NewWriterSize(w, n)`: a buffer `make([]byte, 0, n)`. -/
def NewWriterSize (w : Sink) (n : Nat) : Writer :=
  NewWriterBuffer w [] n

/-- `NewWriter(w)`: the default buffer size. -/
def NewWriter (w : Sink) : Writer :=
  NewWriterSize w defaultBufferSize

namespace Writer

/-- The bytes the writer has handed to its sink so far. -/
def delivered (w : Writer) : List Nat :=
  match w.out with
  | .direct bw => bw.bytes
  | .buffered s _ _ => s.bytes

/-- The calls the writer's sink has received so far. -/
def sinkCalls (w : Writer) : List (List Nat) :=
  match w.out with
  | .direct bw => bw.calls
  | .buffered s _ _ => s.calls

/-- The results the writer's sink will give to the upcoming calls. -/
def sinkScript (w : Writer) : List (Option GoError) :=
  match w.out with
  | .direct bw => bw.script
  | .buffered s _ _ => s.script

/-- The unexported `push`. `grow c` is the capacity Go's `append` gives a full
slice of capacity `c`; it belongs to the Go runtime and is a parameter here. -/
def push (grow : Nat → Nat) (w : Writer) (b : Nat) : Writer :=
  match w.out with
  | .direct bw =>
    let r := bw.Write [b]
    { w with out := .direct r.1, err := r.2 <|> w.err }
  | .buffered s buf cap =>
    let buf1 := buf ++ [b]
    let cap1 := if buf.length < cap then cap else grow cap
    if buf1.length < cap1 then
      { w with out := .buffered s buf1 cap1 }
    else
      let r := s.Write buf1
      { w with out := .buffered r.1 [] cap1, err := r.2 <|> w.err }

/-- `WriteZero`. -/
def WriteZero (grow : Nat → Nat) (w : Writer) : Writer :=
  if w.p > 1 then
    { w with p := w.p - 1 }
  else
    { push grow w w.b with b := 0, p := 8 }

/-- `WriteOne`. -/
def WriteOne (grow : Nat → Nat) (w : Writer) : Writer :=
  if w.p > 1 then
    let c := w.p - 1
    { w with b := w.b ||| shl 8 1 c, p := c }
  else
    { push grow w (w.b ||| 1) with b := 0, p := 8 }

/-- `WriteBit`. -/
def WriteBit (grow : Nat → Nat) (w : Writer) (bit : Bool) : Writer :=
  if bit then WriteOne grow w else WriteZero grow w

/-- `WriteByte`: `8 - w.p` is computed in `uint16`, `b << w.p` in `byte`. -/
def WriteByte (grow : Nat → Nat) (w : Writer) (b : Nat) : Writer :=
  let w1 := push grow w (w.b ||| (b >>> ((8 + 65536 - w.p) % 65536)))
  { w1 with b := shl 8 b w.p }

/-- The loop of the unaligned branch of `Write`: the state and the carried
local `wb`. -/
def writeLoop (grow : Nat → Nat) (wp wp8 : Nat) : Writer → Nat → List Nat → Writer × Nat
  | w, wb, [] => (w, wb)
  | w, wb, n :: rest =>
    writeLoop grow wp wp8 (push grow w (wb ||| (n >>> wp8))) (shl 8 n wp) rest

/-- `Write`. In the aligned branch of a direct writer the bytes go to `w.bw`
one by one and then `w.w.Write(b)` is called on the nil `w.w`: the call panics,
which is `Except.error` carrying the state reached at that point. -/
def Write (grow : Nat → Nat) (w : Writer) (bs : List Nat) : Except Writer Writer :=
  if w.p = 8 then
    match w.out with
    | .direct bw =>
      let r := bs.foldl
        (fun (acc : Sink × Option GoError) n =>
          let r := acc.1.Write [n]
          (r.1, r.2 <|> acc.2)) (bw, w.err)
      .error { w with out := .direct r.1, err := r.2 }
    | .buffered s buf cap =>
      let r1 := if buf.length > 0 then s.Write buf else (s, none)
      let r2 := r1.1.Write bs
      .ok { w with out := .buffered r2.1 buf cap, err := r2.2 <|> (r1.2 <|> w.err) }
  else
    let r := writeLoop grow w.p ((8 + 65536 - w.p) % 65536) w w.b bs
    .ok { r.1 with b := r.2 }

/-- The first loop of `WriteBits` (`for n >= 8`), on the state, the word `u`
and the counter `n`. -/
def writeBitsBytes (grow : Nat → Nat) : Nat → Writer → Nat → Nat → Writer × Nat × Nat
  | 0, w, u, n => (w, u, n)
  | fuel + 1, w, u, n =>
    if n ≥ 8 then
      writeBitsBytes grow fuel (WriteByte grow w ((u >>> 56) % 256)) (shl 64 u 8) (n - 8)
    else (w, u, n)

/-- The second loop of `WriteBits` (`for n > 0`). -/
def writeBitsTail (grow : Nat → Nat) : Nat → Writer → Nat → Nat → Writer × Nat × Nat
  | 0, w, u, n => (w, u, n)
  | fuel + 1, w, u, n =>
    if n > 0 then
      writeBitsTail grow fuel
        (if u >>> 63 = 0 then WriteZero grow w else WriteOne grow w)
        (shl 64 u 1) (n - 1)
    else (w, u, n)

/-- `WriteBits(u, n)`: `64 - n` is computed in `uint` (64 bits), the shifts in
`uint64`. Each loop gets `n` as fuel, which it cannot use up. -/
def WriteBits (grow : Nat → Nat) (w : Writer) (u n : Nat) : Writer :=
  let u1 := shl 64 u ((2 ^ 64 + 64 - n) % 2 ^ 64)
  let r1 := writeBitsBytes grow n w u1 n
  let r2 := writeBitsTail grow r1.2.2 r1.1 r1.2.1 r1.2.2
  r2.1

/-- The unexported `flush`: a non-empty buffer is written out; the buffer
itself is left as it is. -/
def flush (w : Writer) : Writer :=
  match w.out with
  | .direct _ => w
  | .buffered s buf cap =>
    if buf.length > 0 then
      let r := s.Write buf
      { w with out := .buffered r.1 buf cap, err := r.2 <|> w.err }
    else w

/-- The loop `for w.p != 8 { w.WriteZero() }` (or `WriteOne` when `ones`). -/
def padLoop (grow : Nat → Nat) (ones : Bool) : Nat → Writer → Writer
  | 0, w => w
  | fuel + 1, w =>
    if w.p ≠ 8 then padLoop grow ones fuel (WriteBit grow w ones) else w

/-- `Flush`. The loop gets `w.p + 1` as fuel, which it cannot use up. -/
def Flush (grow : Nat → Nat) (w : Writer) : Writer :=
  flush (padLoop grow false (w.p + 1) w)

/-- `FlushOnes`. -/
def FlushOnes (grow : Nat → Nat) (w : Writer) : Writer :=
  flush (padLoop grow true (w.p + 1) w)

end Writer

/-! ## The byte source -/

/-- How a source answers one `Read` call: `chunk k` hands out at most `k`
bytes without error, `fail e` hands out nothing and reports `e`. -/
inductive Resp
  | chunk (k : Nat)
  | fail (e : GoError)
deriving DecidableEq, Repr

/-- The collaborator behind `r.r` (`io.Reader`): the bytes it still holds and
the answers to the upcoming `Read` calls. Once the script has run out the
source behaves like `bytes.Reader`: it hands out as many bytes as asked for
and available. A source that holds no byte reports `io.EOF`. -/
structure Source where
  data : List Nat
  script : List Resp
deriving DecidableEq, Repr

namespace Source

/-- A source over `data` that never hands out less than it can, as
`bytes.NewReader(data)` or `strings.NewReader`. -/
def ofBytes (data : List Nat) : Source := { data := data, script := [] }

/-- One call `Read(p)` with `len(p) = len`: the new source, the bytes stored
into the front of `p`, and the error. -/
def Read (s : Source) (len : Nat) : Source × List Nat × Option GoError :=
  match s.script with
  | .fail e :: rest => ({ s with script := rest }, [], some e)
  | .chunk k :: rest =>
    if s.data = [] then ({ s with script := rest }, [], some .EOF)
    else ({ data := s.data.drop (min len k), script := rest }, s.data.take (min len k), none)
  | [] =>
    if s.data = [] then (s, [], some .EOF)
    else ({ s with data := s.data.drop len }, s.data.take len, none)

end Source

/-! ## The reader (`reader.go`) -/

/-- The Go struct `Reader`: `b` is the pending byte, `p` (a `uint32`) the
number of unread bits in it. The field `br` is set by `NewReader` and read by no
method, so it is left out. -/
structure Reader where
  r : Source
  b : Nat
  p : Nat
deriving DecidableEq, Repr

/-- `NewReader(r)`. -/
def NewReader (r : Source) : Reader := { r := r, b := 0, p := 0 }

namespace Reader

/-- `ReadBit`: the new state, the bit and the error. -/
def ReadBit (r : Reader) : Reader × Bool × Option GoError :=
  if r.p > 0 then
    let d := r.b &&& 0x80
    ({ r with p := r.p - 1, b := shl 8 r.b 1 }, decide (d ≠ 0), none)
  else
    let x := r.r.Read 1
    if x.2.1.length ≠ 1 ∨ x.2.2 ≠ none then
      ({ r with r := x.1 }, false, x.2.2)
    else
      let b0 := x.2.1.headD 0
      ({ r := x.1, p := 7, b := shl 8 b0 1 }, decide (b0 &&& 0x80 ≠ 0), none)

/-- `ReadByte`: `8 - p` is computed in `uint32`. -/
def ReadByte (r : Reader) : Reader × Nat × Option GoError :=
  let x := r.r.Read 1
  if x.2.1.length ≠ 1 ∨ x.2.2 ≠ none then
    ({ r with r := x.1 }, 0, x.2.2)
  else
    let b0 := x.2.1.headD 0
    if r.p = 0 then
      ({ r with r := x.1 }, b0, none)
    else
      ({ r with r := x.1, b := shl 8 b0 ((2 ^ 32 + 8 - r.p) % 2 ^ 32) },
        r.b ||| (b0 >>> r.p), none)

/-- The loop `for n < len(b)` of `ReadBytes`: the source, the buffer, the
count `n` and the error that ended the loop, if any. -/
def readLoop : Nat → Source → List Nat → Nat → Source × List Nat × Nat × Option GoError
  | 0, s, b, n => (s, b, n, none)
  | fuel + 1, s, b, n =>
    if n < b.length then
      let x := s.Read (b.length - n)
      let b1 := b.take n ++ x.2.1 ++ b.drop (n + x.2.1.length)
      if x.2.2 ≠ none then (x.1, b1, n, x.2.2)
      else readLoop fuel x.1 b1 (n + x.2.1.length)
    else (s, b, n, none)

/-- The loop `for i, c := range b` of `ReadBytes`: the rewritten buffer and
the final carry `by`. -/
def mergeLoop (p p8 : Nat) : Nat → List Nat → List Nat × Nat
  | carry, [] => ([], carry)
  | carry, c :: rest =>
    let x := mergeLoop p p8 (shl 8 c p8) rest
    ((carry ||| (c >>> p)) :: x.1, x.2)

/-- `ReadBytes(b)`: the new state, the final contents of `b` and the error.
The loop gets the script length plus two as fuel, which it cannot use up. -/
def ReadBytes (r : Reader) (b : List Nat) : Reader × List Nat × Option GoError :=
  let x := r.r.Read b.length
  let b1 := x.2.1 ++ b.drop x.2.1.length
  if x.2.2 ≠ none then ({ r with r := x.1 }, b1, x.2.2)
  else
    let y := if x.2.1.length < b.length
      then readLoop (r.r.script.length + 2) x.1 b1 x.2.1.length
      else (x.1, b1, x.2.1.length, none)
    if y.2.2.2 ≠ none then ({ r with r := y.1 }, y.2.1, y.2.2.2)
    else if r.p = 0 then ({ r with r := y.1 }, y.2.1, none)
    else
      let z := mergeLoop r.p ((2 ^ 32 + 8 - r.p) % 2 ^ 32) r.b y.2.1
      ({ r with r := y.1, b := z.2 }, z.1, none)

/-- The loop `for ; n > 0; n--` of `ReadBits`. -/
def readBitsTail : Nat → Reader → Nat → Reader × Nat × Option GoError
  | 0, r, u => (r, u, none)
  | n + 1, r, u =>
    let x := ReadBit r
    if x.2.2 ≠ none then (x.1, 0, x.2.2)
    else readBitsTail n x.1 (if x.2.1 then shl 64 u 1 ||| 1 else shl 64 u 1)

/-- `ReadBits(n)`: the new state, the value and the error. The scratch array
has 8 bytes, so slicing it to `n / 8 > 8` panics, which is `none`. -/
def ReadBits (r : Reader) (n : Nat) : Option (Reader × Nat × Option GoError) :=
  let l := n / 8
  if l > 0 then
    if l > 8 then none
    else
      let x := ReadBytes r (List.replicate l 0)
      if x.2.2 ≠ none then some (x.1, 0, x.2.2)
      else
        let u := x.2.1.foldl (fun u c => shl 64 u 8 ||| c) 0
        some (readBitsTail (n - l * 8) x.1 u)
  else some (readBitsTail n r 0)

end Reader

/-! ## Vocabulary of the properties -/

/-- The `n` low bits of `x`, most significant first. -/
def msbBits (x : Nat) : Nat → List Bool
  | 0 => []
  | n + 1 => x.testBit n :: msbBits x n

/-- The 8 bits of a byte, most significant first. -/
def byteBits (x : Nat) : List Bool := msbBits x 8

/-- The number a list of bits denotes, most significant bit first. -/
def bitsVal (s : List Bool) : Nat := s.foldl (fun a b => 2 * a + b.toNat) 0

/-- The bits of `s` packed into bytes, most significant bit first: bit `j`
(counted from the top) of byte `i` is `s[8 * i + j]`, or `pad` past the end of
`s`. There are `⌈len(s) / 8⌉` bytes. -/
def pack (pad : Bool) (s : List Bool) : List Nat :=
  (List.range ((s.length + 7) / 8)).map
    (fun i => bitsVal ((List.range 8).map (fun j => s.getD (8 * i + j) pad)))

namespace Writer

/-- The completed bytes in write order: those handed to the sink followed by
those still in the buffer. -/
def held (w : Writer) : List Nat :=
  match w.out with
  | .direct bw => bw.bytes
  | .buffered s buf _ => s.bytes ++ buf

/-- The bits written so far: the completed bytes and the filled high bits of
the byte under assembly. -/
def stream (w : Writer) : List Bool :=
  w.held.flatMap byteBits ++ (byteBits w.b).take (8 - w.p)

/-- The state invariant: between 1 and 8 free bits, and the free low bits of
the pending byte are zero. -/
def Inv (w : Writer) : Prop :=
  1 ≤ w.p ∧ w.p ≤ 8 ∧ w.b < 256 ∧ w.b % 2 ^ w.p = 0

/-- Every completed byte is a byte. -/
def HeldBytes (w : Writer) : Prop := ∀ x ∈ w.held, x < 256

/-- The state `w1` continues `w` by the bits `s`: the invariant holds in `w1`,
its stream is that of `w` followed by `s`, and its completed bytes are those of
`w` followed by further bytes. -/
def Extends (w w1 : Writer) (s : List Bool) : Prop :=
  w1.Inv ∧ w1.stream = w.stream ++ s ∧ ∃ ys, w1.held = w.held ++ ys ∧ ∀ y ∈ ys, y < 256

end Writer

/-- A call of one of the exported methods of `Writer`. -/
inductive WOp
  | WriteZero
  | WriteOne
  | WriteBit (bit : Bool)
  | WriteByte (b : Nat)
  | Write (bs : List Nat)
  | WriteBits (u n : Nat)
  | Flush
  | FlushOnes
deriving DecidableEq, Repr

namespace WOp

/-- The arguments fit their Go types: `byte`, `[]byte`, `uint64`, `uint`. -/
def WellTyped : WOp → Prop
  | WriteByte b => b < 256
  | Write bs => ∀ x ∈ bs, x < 256
  | WriteBits u n => u < 2 ^ 64 ∧ n < 2 ^ 64
  | _ => True

end WOp

namespace Writer

/-- One method call; `Except.error` is a panic. -/
def step (grow : Nat → Nat) (w : Writer) : WOp → Except Writer Writer
  | .WriteZero => .ok (WriteZero grow w)
  | .WriteOne => .ok (WriteOne grow w)
  | .WriteBit bit => .ok (WriteBit grow w bit)
  | .WriteByte b => .ok (WriteByte grow w b)
  | .Write bs => Write grow w bs
  | .WriteBits u n => .ok (WriteBits grow w u n)
  | .Flush => .ok (Flush grow w)
  | .FlushOnes => .ok (FlushOnes grow w)

/-- A sequence of method calls, stopping at the first panic. -/
def run (grow : Nat → Nat) : Writer → List WOp → Except Writer Writer
  | w, [] => .ok w
  | w, op :: ops =>
    match step grow w op with
    | .ok w1 => run grow w1 ops
    | .error w1 => .error w1

/-- A writer as one of the four constructors returns it: `NewWriterSize` and
`NewWriter` are `NewWriterBuffer` with an empty buffer. -/
def Fresh (w0 : Writer) : Prop :=
  (∃ bw, w0 = NewByteWriter bw) ∨ ∃ s buf cap, w0 = NewWriterBuffer s buf cap

/-- The recorded error is `v`, and the sink will report no error other than
`v`. With `v = none` the sink never fails. -/
def ErrorIs (v : Option GoError) (w : Writer) : Prop :=
  w.err = v ∧ ∀ x ∈ w.sinkScript, x = none ∨ x = v

/-- A state some sequence of well-typed calls reaches from `w0`. -/
def Reachable (grow : Nat → Nat) (w0 w : Writer) : Prop :=
  ∃ ops : List WOp, (∀ op ∈ ops, op.WellTyped) ∧ run grow w0 ops = .ok w

end Writer

namespace Source

/-- The source never reports an error of its own: every scripted answer hands
out a chunk (possibly a partial one), and only the empty source reports
`io.EOF`. -/
def NoFail (s : Source) : Prop := ∀ x ∈ s.script, ∃ k, x = Resp.chunk k

/-- The source never reports an error of its own and hands out at least one
byte per call while it holds one. -/
def Steady (s : Source) : Prop := ∀ x ∈ s.script, ∃ k, 1 ≤ k ∧ x = Resp.chunk k

/-- Every byte the source holds is a byte. -/
def Bytes (s : Source) : Prop := ∀ x ∈ s.data, x < 256

/-- The source `t` is `s` after some `Read` calls: it holds a rear part of the
bytes and of the script of `s`. -/
def Later (s t : Source) : Prop :=
  (∃ i, t.data = s.data.drop i) ∧ ∃ j, t.script = s.script.drop j

end Source

namespace Reader

/-- The state invariant: at most 7 pending bits, and the low bits of the
pending byte below them are zero. -/
def Inv (r : Reader) : Prop :=
  r.p ≤ 7 ∧ r.b < 256 ∧ r.b % 2 ^ (8 - r.p) = 0

/-- The bits still to be read: the pending bits, then the bits of the bytes
the source holds. -/
def stream (r : Reader) : List Bool :=
  (byteBits r.b).take r.p ++ r.r.data.flatMap byteBits

/-- `ReadByte` called `n` times in a row: the final state and, in order, the
byte and the error each call returned. -/
def readByteN : Reader → Nat → Reader × List (Nat × Option GoError)
  | r, 0 => (r, [])
  | r, n + 1 =>
    let x := ReadByte r
    let y := readByteN x.1 n
    (y.1, x.2 :: y.2)

/-- `ReadBit` called `n` times in a row: the final state and, in order, the
bit and the error each call returned. -/
def readBitN : Reader → Nat → Reader × List (Bool × Option GoError)
  | r, 0 => (r, [])
  | r, n + 1 =>
    let x := ReadBit r
    let y := readBitN x.1 n
    (y.1, x.2 :: y.2)

/-- `ReadBits(n)` for each width of `ns` in turn, collecting the value and the
error of every call; a panic (`none`) ends the sequence. -/
def readFields : Reader → List Nat → List (Option (Nat × Option GoError))
  | _, [] => []
  | r, n :: ns =>
    match ReadBits r n with
    | none => [none]
    | some x => some x.2 :: readFields x.1 ns

end Reader

/-- A call of one of the exported methods of `Reader`; `ReadBytes` carries the
buffer it is given. -/
inductive ROp
  | ReadBit
  | ReadByte
  | ReadBytes (buf : List Nat)
  | ReadBits (n : Nat)
deriving DecidableEq, Repr

namespace Reader

/-- One method call, keeping the new state only; `none` is a panic. -/
def step (r : Reader) : ROp → Option Reader
  | .ReadBit => some (ReadBit r).1
  | .ReadByte => some (ReadByte r).1
  | .ReadBytes buf => some (ReadBytes r buf).1
  | .ReadBits n => (ReadBits r n).map (fun x => x.1)

/-- A sequence of method calls, stopping at the first panic. -/
def run : Reader → List ROp → Option Reader
  | r, [] => some r
  | r, op :: ops =>
    match step r op with
    | some r1 => run r1 ops
    | none => none

/-- A state some sequence of calls reaches from `r0`. -/
def Reachable (r0 r : Reader) : Prop := ∃ ops : List ROp, run r0 ops = some r

end Reader

end Bitstream


namespace Bitstream

/-! ## Shifts and bit lists -/

theorem shl_eq (w x k : Nat) : shl w x k = (x <<< k) % 2 ^ w := by
  unfold shl
  split
  · rfl
  · rename_i h
    rw [Nat.shiftLeft_eq]
    have h2 : 2 ^ k = 2 ^ w * 2 ^ (k - w) := by rw [← pow_add]; congr 1; omega
    rw [h2, ← Nat.mul_assoc, Nat.mul_comm x, Nat.mul_assoc, Nat.mul_mod_right]

theorem shl_lt (w x k : Nat) : shl w x k < 2 ^ w := by
  rw [shl_eq]
  exact Nat.mod_lt _ (Nat.two_pow_pos w)

theorem testBit_shl (w x k i : Nat) :
    (shl w x k).testBit i = (decide (i < w) && (decide (k ≤ i) && x.testBit (i - k))) := by
  rw [shl_eq, Nat.testBit_mod_two_pow, Nat.testBit_shiftLeft]

theorem testBit_low_zero {b p : Nat} (h : b % 2 ^ p = 0) (i : Nat) (hi : i < p) :
    b.testBit i = false := by
  have h2 := Nat.testBit_mod_two_pow b p i
  rw [h] at h2
  simpa [hi] using h2.symm

theorem low_zero_of_testBit {b p : Nat} (h : ∀ i, i < p → b.testBit i = false) :
    b % 2 ^ p = 0 := by
  apply Nat.eq_of_testBit_eq
  intro i
  rw [Nat.testBit_mod_two_pow]
  by_cases hi : i < p
  · simp [hi, h i hi]
  · simp [hi]

theorem testBit_high_zero {x n : Nat} (h : x < 2 ^ n) (i : Nat) (hi : n ≤ i) :
    x.testBit i = false :=
  Nat.testBit_lt_two_pow (lt_of_lt_of_le h (Nat.pow_le_pow_right (by decide) hi))

theorem lt_two_pow_of_testBit {x n : Nat} (h : ∀ i, n ≤ i → x.testBit i = false) :
    x < 2 ^ n := by
  by_contra hx
  obtain ⟨i, hi, hti⟩ := Nat.ge_two_pow_implies_high_bit_true (Nat.le_of_not_lt hx)
  rw [h i hi] at hti
  exact Bool.noConfusion hti

@[simp] theorem msbBits_length (x n : Nat) : (msbBits x n).length = n := by
  induction n with
  | zero => rfl
  | succ n ih => simp [msbBits, ih]

@[simp] theorem byteBits_length (x : Nat) : (byteBits x).length = 8 := msbBits_length x 8

theorem bitsVal_nil : bitsVal [] = 0 := rfl

theorem bitsVal_snoc (s : List Bool) (b : Bool) :
    bitsVal (s ++ [b]) = 2 * bitsVal s + b.toNat := by
  simp [bitsVal, List.foldl_append]

theorem bitsVal_append (s t : List Bool) :
    bitsVal (s ++ t) = bitsVal s * 2 ^ t.length + bitsVal t := by
  induction t using List.reverseRecOn with
  | nil => simp [bitsVal_nil]
  | append_singleton t b ih =>
    rw [← List.append_assoc, bitsVal_snoc, bitsVal_snoc, ih]
    simp [pow_succ]
    ring

theorem bitsVal_cons (b : Bool) (s : List Bool) :
    bitsVal (b :: s) = b.toNat * 2 ^ s.length + bitsVal s := by
  have h := bitsVal_append [b] s
  simpa [bitsVal] using h

theorem bitsVal_lt (s : List Bool) : bitsVal s < 2 ^ s.length := by
  induction s using List.reverseRecOn with
  | nil => simp [bitsVal_nil]
  | append_singleton s b ih =>
    rw [bitsVal_snoc]
    simp only [List.length_append, List.length_singleton, pow_succ]
    have hb : b.toNat ≤ 1 := Bool.toNat_le b
    omega

theorem bitsVal_msbBits (x n : Nat) : bitsVal (msbBits x n) = x % 2 ^ n := by
  induction n with
  | zero => simp [msbBits, bitsVal_nil, Nat.mod_one]
  | succ n ih =>
    rw [msbBits, bitsVal_cons, ih, msbBits_length, Nat.mod_pow_succ, Nat.toNat_testBit]
    rw [Nat.mul_comm, Nat.add_comm]

theorem bitsVal_byteBits {x : Nat} (hx : x < 256) : bitsVal (byteBits x) = x := by
  rw [byteBits, bitsVal_msbBits]
  exact Nat.mod_eq_of_lt hx

theorem byteBits_inj {x y : Nat} (hx : x < 256) (hy : y < 256)
    (h : byteBits x = byteBits y) : x = y := by
  rw [← bitsVal_byteBits hx, ← bitsVal_byteBits hy, h]

theorem getElem_msbBits (x n i : Nat) (hi : i < (msbBits x n).length) :
    (msbBits x n)[i] = x.testBit (n - 1 - i) := by
  induction n generalizing i with
  | zero => simp at hi
  | succ n ih =>
    cases i with
    | zero => simp [msbBits]
    | succ i =>
      simp only [msbBits, List.getElem_cons_succ]
      rw [ih]
      congr 1
      simp at hi
      omega

theorem msbBits_congr {x y n : Nat} (h : ∀ i, i < n → x.testBit i = y.testBit i) :
    msbBits x n = msbBits y n := by
  induction n with
  | zero => rfl
  | succ n ih =>
    simp only [msbBits]
    rw [h n (Nat.lt_succ_self n), ih (fun i hi => h i (Nat.lt_succ_of_lt hi))]

theorem msbBits_add (x n m : Nat) :
    msbBits x (n + m) = msbBits (x >>> m) n ++ msbBits x m := by
  induction n with
  | zero => simp [msbBits]
  | succ n ih =>
    rw [Nat.add_right_comm, msbBits, ih, msbBits, Nat.testBit_shiftRight, Nat.add_comm m n]
    rfl

theorem take_msbBits (x n k : Nat) (hk : k ≤ n) :
    (msbBits x n).take k = msbBits (x >>> (n - k)) k := by
  have h := msbBits_add x k (n - k)
  rw [Nat.add_sub_cancel' hk] at h
  rw [h, List.take_left']
  simp

theorem drop_msbBits (x n k : Nat) (hk : k ≤ n) :
    (msbBits x n).drop k = msbBits x (n - k) := by
  have h := msbBits_add x k (n - k)
  rw [Nat.add_sub_cancel' hk] at h
  rw [h, List.drop_left']
  simp

end Bitstream


namespace Bitstream

/-! ## Byte-level facts used by the writer and the reader -/

theorem lor_byte_lt {a b : Nat} (ha : a < 256) (hb : b < 256) : a ||| b < 256 :=
  Nat.or_lt_two_pow (n := 8) ha hb

theorem testBit_one (k : Nat) : Nat.testBit 1 k = decide (k = 0) := by
  have h := Nat.testBit_two_pow (n := 0) (m := k)
  simp only [pow_zero] at h
  rw [h]
  simp [eq_comm]

/-- Setting the next free bit of the pending byte appends a 1 to its filled bits. -/
theorem byteBits_setOne {b p : Nat} (hp1 : 1 < p) (hp8 : p ≤ 8) (hb : b % 2 ^ p = 0) :
    (byteBits (b ||| shl 8 1 (p - 1))).take (8 - (p - 1)) = (byteBits b).take (8 - p) ++ [true] := by
  have h0 := testBit_low_zero hb
  interval_cases p <;>
    simp [byteBits, msbBits, Nat.testBit_lor, testBit_shl, testBit_one, h0, -Nat.testBit_zero]

theorem byteBits_skipZero {b p : Nat} (hp1 : 1 < p) (hp8 : p ≤ 8) (hb : b % 2 ^ p = 0) :
    (byteBits b).take (8 - (p - 1)) = (byteBits b).take (8 - p) ++ [false] := by
  have h0 := testBit_low_zero hb
  interval_cases p <;> simp [byteBits, msbBits, h0, -Nat.testBit_zero]

theorem setOne_low_zero {b p : Nat} (hb : b % 2 ^ p = 0) :
    (b ||| shl 8 1 (p - 1)) % 2 ^ (p - 1) = 0 := by
  have h0 := testBit_low_zero hb
  apply low_zero_of_testBit
  intro i hi
  rw [Nat.testBit_lor, testBit_shl, h0 i (by omega)]
  have : ¬ (p - 1 ≤ i) := by omega
  simp [this]

theorem low_zero_pred {b p : Nat} (hb : b % 2 ^ p = 0) : b % 2 ^ (p - 1) = 0 :=
  low_zero_of_testBit (fun i hi => testBit_low_zero hb i (by omega))

theorem byteBits_lastOne {b : Nat} (hb : b % 2 ^ 1 = 0) :
    byteBits (b ||| 1) = (byteBits b).take 7 ++ [true] := by
  have h0 := testBit_low_zero hb
  simp [byteBits, msbBits, Nat.testBit_lor, testBit_one, h0, -Nat.testBit_zero]

theorem byteBits_lastZero {b : Nat} (hb : b % 2 ^ 1 = 0) :
    byteBits b = (byteBits b).take 7 ++ [false] := by
  have h0 := testBit_low_zero hb
  simp [byteBits, msbBits, h0, -Nat.testBit_zero]

/-- The merge of `WriteByte` and `ReadByte`: with `p` free low bits in `b`,
`b | x >> (8 - p)` holds the filled bits of `b` followed by the top `p` bits
of `x`. -/
theorem byteBits_merge {b x p : Nat} (hp8 : p ≤ 8) (hx : x < 256) (hb : b % 2 ^ p = 0) :
    byteBits (b ||| (x >>> (8 - p))) = (byteBits b).take (8 - p) ++ (byteBits x).take p := by
  have h0 := testBit_low_zero hb
  have h8 := testBit_high_zero (n := 8) hx
  interval_cases p <;>
    simp [byteBits, msbBits, Nat.testBit_lor, Nat.testBit_shiftRight, h0, h8, -Nat.testBit_zero]

/-- The remainder of the merge: `x << p` holds the low `8 - p` bits of `x` in
its high positions. -/
theorem byteBits_rest {x p : Nat} (hp8 : p ≤ 8) :
    (byteBits (shl 8 x p)).take (8 - p) = (byteBits x).drop p := by
  interval_cases p <;> simp [byteBits, msbBits, testBit_shl, -Nat.testBit_zero]

theorem shl_low_zero (x p : Nat) : shl 8 x p % 2 ^ p = 0 := by
  apply low_zero_of_testBit
  intro i hi
  rw [testBit_shl]
  have : ¬ (p ≤ i) := by omega
  simp [this]

end Bitstream


namespace Bitstream

namespace Sink

@[simp] theorem bytes_Write (s : Sink) (bs : List Nat) : (s.Write bs).1.bytes = s.bytes ++ bs := by
  simp [Sink.Write, Sink.bytes]

@[simp] theorem calls_Write (s : Sink) (bs : List Nat) : (s.Write bs).1.calls = s.calls ++ [bs] := rfl

end Sink

namespace Writer

/-! ## What one `push` and one written bit do -/

@[simp] theorem push_b (g : Nat → Nat) (w : Writer) (x : Nat) : (push g w x).b = w.b := by
  unfold push
  split
  · rfl
  · dsimp only
    split_ifs <;> rfl

@[simp] theorem push_p (g : Nat → Nat) (w : Writer) (x : Nat) : (push g w x).p = w.p := by
  unfold push
  split
  · rfl
  · dsimp only
    split_ifs <;> rfl

theorem held_push (g : Nat → Nat) (w : Writer) (x : Nat) : (push g w x).held = w.held ++ [x] := by
  unfold push
  split
  · rename_i bw h
    simp [held, h]
  · rename_i s buf cap h
    dsimp only
    split_ifs <;> simp [held, h]

theorem stream_eq (w : Writer) :
    w.stream = w.held.flatMap byteBits ++ (byteBits w.b).take (8 - w.p) := rfl

theorem Extends.refl {w : Writer} (h : w.Inv) : Extends w w [] :=
  ⟨h, by simp, [], by simp, by simp⟩

theorem Extends.trans {w w1 w2 : Writer} {s t : List Bool}
    (h1 : Extends w w1 s) (h2 : Extends w1 w2 t) : Extends w w2 (s ++ t) := by
  obtain ⟨_, hs1, ys1, hy1, hb1⟩ := h1
  obtain ⟨i2, hs2, ys2, hy2, hb2⟩ := h2
  refine ⟨i2, by rw [hs2, hs1, List.append_assoc], ys1 ++ ys2, by rw [hy2, hy1, List.append_assoc], ?_⟩
  intro y hy
  rcases List.mem_append.1 hy with h | h
  · exact hb1 y h
  · exact hb2 y h

theorem Extends.isInv {w w1 : Writer} {s : List Bool} (h : Extends w w1 s) : w1.Inv := h.1

theorem Extends.heldBytes {w w1 : Writer} {s : List Bool} (h : Extends w w1 s)
    (hw : w.HeldBytes) : w1.HeldBytes := by
  obtain ⟨_, _, ys, hy, hb⟩ := h
  intro x hx
  rw [hy] at hx
  rcases List.mem_append.1 hx with h | h
  · exact hw x h
  · exact hb x h

theorem WriteZero_extends (g : Nat → Nat) (w : Writer) (h : w.Inv) :
    Extends w (WriteZero g w) [false] := by
  obtain ⟨h1, h8, hb, hz⟩ := h
  unfold WriteZero
  split
  · rename_i hp
    refine ⟨⟨by simp; omega, by simp; omega, hb, low_zero_pred hz⟩, ?_, [], by simp [held], by simp⟩
    simp only [stream_eq, held, List.append_assoc]
    rw [byteBits_skipZero hp h8 hz]
  · rename_i hp
    have hp1 : w.p = 1 := by omega
    rw [hp1] at hz
    have hh : ({ push g w w.b with b := 0, p := 8 } : Writer).held = w.held ++ [w.b] := by
      rw [← held_push g w w.b]; rfl
    refine ⟨⟨by simp, by simp, by simp, by simp⟩, ?_, [w.b], hh, by simpa using hb⟩
    simp only [stream_eq, hp1]
    rw [hh]
    simp only [List.flatMap_append, List.flatMap_singleton, List.append_assoc, Nat.sub_self,
      List.take_zero, List.append_nil, List.flatMap_nil]
    conv_lhs => rw [byteBits_lastZero hz]

theorem WriteOne_extends (g : Nat → Nat) (w : Writer) (h : w.Inv) :
    Extends w (WriteOne g w) [true] := by
  obtain ⟨h1, h8, hb, hz⟩ := h
  unfold WriteOne
  split
  · rename_i hp
    refine ⟨⟨by simp; omega, by simp; omega, lor_byte_lt hb (shl_lt 8 1 _), setOne_low_zero hz⟩,
      ?_, [], by simp [held], by simp⟩
    simp only [stream_eq, held, List.append_assoc]
    rw [byteBits_setOne hp h8 hz]
  · rename_i hp
    have hp1 : w.p = 1 := by omega
    rw [hp1] at hz
    have hh : ({ push g w (w.b ||| 1) with b := 0, p := 8 } : Writer).held
        = w.held ++ [w.b ||| 1] := by
      rw [← held_push g w (w.b ||| 1)]; rfl
    refine ⟨⟨by simp, by simp, by simp, by simp⟩, ?_, [w.b ||| 1], hh,
      by simpa using lor_byte_lt hb (by decide)⟩
    simp only [stream_eq, hp1]
    rw [hh]
    simp only [List.flatMap_append, List.flatMap_singleton, List.append_assoc, Nat.sub_self,
      List.take_zero, List.append_nil, List.flatMap_nil]
    rw [byteBits_lastOne hz]

theorem WriteBit_extends (g : Nat → Nat) (w : Writer) (bit : Bool) (h : w.Inv) :
    Extends w (WriteBit g w bit) [bit] := by
  unfold WriteBit
  cases bit
  · simpa using WriteZero_extends g w h
  · simpa using WriteOne_extends g w h

@[simp] theorem WriteByte_p (g : Nat → Nat) (w : Writer) (x : Nat) : (WriteByte g w x).p = w.p := by
  simp [WriteByte]

theorem WriteByte_extends (g : Nat → Nat) (w : Writer) (x : Nat) (h : w.Inv) (hx : x < 256) :
    Extends w (WriteByte g w x) (byteBits x) := by
  obtain ⟨h1, h8, hb, hz⟩ := h
  have hsub : (8 + 65536 - w.p) % 65536 = 8 - w.p := by omega
  have hxs : x >>> (8 - w.p) < 256 :=
    lt_of_le_of_lt (by rw [Nat.shiftRight_eq_div_pow]; exact Nat.div_le_self _ _) hx
  unfold WriteByte
  rw [hsub]
  have hh : ({ push g w (w.b ||| x >>> (8 - w.p)) with b := shl 8 x w.p } : Writer).held
      = w.held ++ [w.b ||| x >>> (8 - w.p)] := by
    rw [← held_push g w]; rfl
  refine ⟨⟨by simpa using h1, by simpa using h8, by simpa using shl_lt 8 x w.p,
    by simpa using shl_low_zero x w.p⟩, ?_, [w.b ||| x >>> (8 - w.p)], hh,
    by simpa using lor_byte_lt hb hxs⟩
  simp only [stream_eq]
  rw [hh]
  simp only [List.flatMap_append, List.flatMap_singleton, List.append_assoc, push_p,
    List.flatMap_nil, List.append_nil]
  rw [byteBits_merge h8 hx hz, byteBits_rest h8, List.append_assoc, List.take_append_drop]

theorem foldl_WriteBit_extends (g : Nat → Nat) (s : List Bool) (w : Writer) (h : w.Inv) :
    Extends w (s.foldl (WriteBit g) w) s := by
  induction s generalizing w with
  | nil => exact Extends.refl h
  | cons bit s ih =>
    have h1 := WriteBit_extends g w bit h
    exact Extends.trans h1 (ih _ h1.isInv)

end Writer

end Bitstream


namespace Bitstream

theorem pending_inj {a b p : Nat} (ha : a < 256) (hb : b < 256) (hp : p ≤ 8)
    (haz : a % 2 ^ p = 0) (hbz : b % 2 ^ p = 0)
    (h : (byteBits a).take (8 - p) = (byteBits b).take (8 - p)) : a = b := by
  apply byteBits_inj ha hb
  rw [← List.take_append_drop (8 - p) (byteBits a), ← List.take_append_drop (8 - p) (byteBits b), h]
  congr 1
  unfold byteBits
  rw [drop_msbBits _ _ _ (by omega), drop_msbBits _ _ _ (by omega)]
  apply msbBits_congr
  intro i hi
  rw [testBit_low_zero haz i (by omega), testBit_low_zero hbz i (by omega)]

namespace Writer

/-! ## `WriteByte` against eight `WriteBit` calls -/

theorem push_with (g : Nat → Nat) (w : Writer) (b1 p1 y : Nat) :
    push g { w with b := b1, p := p1 } y = { push g w y with b := b1, p := p1 } := by
  unfold push
  cases h : w.out with
  | direct bw => simp
  | buffered s buf cap =>
    simp only []
    split_ifs <;> rfl

theorem WriteBit_inside (g : Nat → Nat) (w : Writer) (bit : Bool) (hp : 1 < w.p) :
    ∃ c, WriteBit g w bit = { w with b := c, p := w.p - 1 } := by
  cases bit
  · exact ⟨w.b, by simp [WriteBit, WriteZero, hp]⟩
  · exact ⟨w.b ||| shl 8 1 (w.p - 1), by simp [WriteBit, WriteOne, hp]⟩

theorem WriteBit_fill (g : Nat → Nat) (w : Writer) (bit : Bool) (hp : ¬ 1 < w.p) :
    ∃ y, WriteBit g w bit = { push g w y with b := 0, p := 8 } := by
  cases bit
  · exact ⟨w.b, by simp [WriteBit, WriteZero, hp]⟩
  · exact ⟨w.b ||| 1, by simp [WriteBit, WriteOne, hp]⟩

theorem foldl_WriteBit_inside (g : Nat → Nat) (s : List Bool) (w : Writer)
    (hs : s.length < w.p) :
    ∃ b1, s.foldl (WriteBit g) w = { w with b := b1, p := w.p - s.length } := by
  induction s generalizing w with
  | nil => exact ⟨w.b, rfl⟩
  | cons bit s ih =>
    simp only [List.length_cons] at hs
    obtain ⟨c, hc⟩ := WriteBit_inside g w bit (by omega)
    simp only [List.foldl_cons, hc]
    obtain ⟨b1, hb1⟩ := ih { w with b := c, p := w.p - 1 } (by simp; omega)
    refine ⟨b1, ?_⟩
    rw [hb1]
    simp only [List.length_cons, Nat.sub_sub, Nat.add_comm]

theorem foldl_WriteBit_fill (g : Nat → Nat) (s : List Bool) (w : Writer)
    (hp : 1 ≤ w.p) (hs : s.length = w.p) :
    ∃ y, s.foldl (WriteBit g) w = { push g w y with b := 0, p := 8 } := by
  rcases List.eq_nil_or_concat' s with h | ⟨s1, bit, h⟩
  · subst h
    simp at hs
    omega
  · subst h
    simp only [List.length_append, List.length_singleton] at hs
    obtain ⟨b1, hb1⟩ := foldl_WriteBit_inside g s1 w (by omega)
    rw [List.foldl_append, hb1]
    simp only [List.foldl_cons, List.foldl_nil]
    obtain ⟨y, hy⟩ := WriteBit_fill g { w with b := b1, p := w.p - s1.length } bit (by simp; omega)
    refine ⟨y, ?_⟩
    rw [hy, push_with]

/-- On a state that satisfies the invariant, `WriteByte(x)` and the eight calls
`WriteBit(bit 7 of x)`, ..., `WriteBit(bit 0 of x)` end in the same state. -/
theorem WriteByte_eq_foldl (g : Nat → Nat) (w : Writer) (x : Nat) (h : w.Inv) (hx : x < 256) :
    WriteByte g w x = (byteBits x).foldl (WriteBit g) w := by
  have hL := WriteByte_extends g w x h hx
  have hR := foldl_WriteBit_extends g (byteBits x) w h
  obtain ⟨h1, h8, hb, hz⟩ := h
  -- the shape of the right-hand side
  have hsplit : byteBits x = (byteBits x).take w.p ++ (byteBits x).drop w.p :=
    (List.take_append_drop _ _).symm
  obtain ⟨y, hy⟩ := foldl_WriteBit_fill g ((byteBits x).take w.p) w h1
    (by simp [List.length_take]; omega)
  obtain ⟨b1, hb1⟩ := foldl_WriteBit_inside g ((byteBits x).drop w.p)
    { push g w y with b := 0, p := 8 } (by simp; omega)
  have hshape : (byteBits x).foldl (WriteBit g) w = { push g w y with b := b1, p := w.p } := by
    conv_lhs => rw [hsplit]
    rw [List.foldl_append, hy, hb1]
    simp only [List.length_drop, byteBits_length]
    have : 8 - (8 - w.p) = w.p := by omega
    rw [this]
  rw [hshape] at hR ⊢
  -- both sides completed exactly one byte
  have hheldL : (WriteByte g w x).held
      = w.held ++ [w.b ||| x >>> ((8 + 65536 - w.p) % 65536)] := by
    rw [← held_push g w]; rfl
  have hheldR : ({ push g w y with b := b1, p := w.p } : Writer).held = w.held ++ [y] := by
    rw [← held_push g w]; rfl
  have hstr := hL.2.1.trans hR.2.1.symm
  simp only [stream_eq, hheldL, hheldR, List.flatMap_append, List.flatMap_singleton,
    List.flatMap_nil, List.append_nil, List.append_assoc, WriteByte_p] at hstr
  have hstr2 := List.append_cancel_left hstr
  obtain ⟨hy1, hy2⟩ := List.append_inj hstr2 (by simp)
  have hyL : w.b ||| x >>> ((8 + 65536 - w.p) % 65536) < 256 := by
    obtain ⟨ys, hys, hlt⟩ := hL.2.2
    rw [hheldL] at hys
    have := List.append_cancel_left hys
    exact hlt _ (by rw [← this]; simp)
  have hyR : y < 256 := by
    obtain ⟨ys, hys, hlt⟩ := hR.2.2
    rw [hheldR] at hys
    have := List.append_cancel_left hys
    exact hlt _ (by rw [← this]; simp)
  have e1 := byteBits_inj hyL hyR hy1
  have hbL := hL.1
  have hbR := hR.1
  have e2 : (WriteByte g w x).b = b1 :=
    pending_inj hbL.2.2.1 hbR.2.2.1 h8 (by simpa using hbL.2.2.2) hbR.2.2.2 hy2
  have hW : WriteByte g w x
      = { push g w (w.b ||| x >>> ((8 + 65536 - w.p) % 65536)) with
          b := (WriteByte g w x).b, p := w.p } := by
    simp [WriteByte]
  rw [hW, e1, e2]

end Writer

end Bitstream


namespace Bitstream

/-! ## The 64-bit word of `WriteBits` -/

theorem shl_zero_of_lt {w x : Nat} (hx : x < 2 ^ w) : shl w x 0 = x := by
  rw [shl_eq, Nat.shiftLeft_zero, Nat.mod_eq_of_lt hx]

theorem shl_shl (w x j k : Nat) : shl w (shl w x j) k = shl w x (j + k) := by
  apply Nat.eq_of_testBit_eq
  intro i
  simp only [testBit_shl]
  by_cases h1 : i < w
  · by_cases h2 : k ≤ i
    · by_cases h3 : j ≤ i - k
      · have h4 : j + k ≤ i := by omega
        have h5 : i - k < w := by omega
        simp [h1, h2, h3, h4, h5, Nat.sub_sub, Nat.add_comm]
      · have h4 : ¬ (j + k ≤ i) := by omega
        simp [h1, h2, h3, h4]
    · have h4 : ¬ (j + k ≤ i) := by omega
      simp [h1, h2, h4]
  · simp [h1]

/-- Shifting the word left by `k` drops its first `k` bits. -/
theorem take_msbBits_shl (u k m : Nat) (h : m + k ≤ 64) :
    (msbBits (shl 64 u k) 64).take m = ((msbBits u 64).drop k).take m := by
  rw [take_msbBits _ _ _ (by omega), drop_msbBits _ _ _ (by omega),
    take_msbBits _ _ _ (by omega)]
  apply msbBits_congr
  intro i hi
  rw [Nat.testBit_shiftRight, Nat.testBit_shiftRight, testBit_shl]
  have h1 : 64 - m + i < 64 := by omega
  have h2 : k ≤ 64 - m + i := by omega
  simp only [h1, h2, decide_True, Bool.true_and]
  congr 1
  omega

/-- The word `u << (64 - n)` starts with the `n` low bits of `u`. -/
theorem take_msbBits_align (v n : Nat) (h : n ≤ 64) :
    (msbBits (shl 64 v (64 - n)) 64).take n = msbBits v n := by
  rw [take_msbBits _ _ _ h]
  apply msbBits_congr
  intro i hi
  rw [Nat.testBit_shiftRight, testBit_shl]
  have h1 : 64 - n + i < 64 := by omega
  have h2 : 64 - n ≤ 64 - n + i := by omega
  simp only [h1, h2, decide_True, Bool.true_and]
  congr 1
  omega

theorem top_byte_bits (u : Nat) : byteBits ((u >>> 56) % 256) = (msbBits u 64).take 8 := by
  rw [take_msbBits _ _ _ (by omega), byteBits]
  apply msbBits_congr
  intro i hi
  have : (256 : Nat) = 2 ^ 8 := by norm_num
  rw [this, Nat.testBit_mod_two_pow]
  simp [hi]

theorem top_bit (u : Nat) (hu : u < 2 ^ 64) : (u >>> 63 = 0) ↔ u.testBit 63 = false := by
  rw [Nat.shiftRight_eq_div_pow, Nat.testBit_to_div_mod]
  simp
  omega

end Bitstream


namespace Bitstream

namespace Writer

/-! ## The loops of `WriteBits` -/

theorem msbBits_succ (x n : Nat) : msbBits x (n + 1) = x.testBit n :: msbBits x n := rfl

theorem take_succ_word (u m : Nat) :
    (msbBits u 64).take (m + 1) = u.testBit 63 :: ((msbBits u 64).drop 1).take m := by
  have h : msbBits u 64 = u.testBit 63 :: msbBits u 63 := msbBits_succ u 63
  rw [h]
  rfl

theorem top_bit_step (g : Nat → Nat) (w : Writer) (u : Nat) (hu : u < 2 ^ 64) :
    (if u >>> 63 = 0 then WriteZero g w else WriteOne g w) = WriteBit g w (u.testBit 63) := by
  unfold WriteBit
  by_cases h : u.testBit 63 = false
  · rw [if_pos ((top_bit u hu).2 h), h]
    simp
  · have h2 : u.testBit 63 = true := by simpa using h
    rw [if_neg (fun hc => h ((top_bit u hu).1 hc)), h2]
    simp

theorem writeBitsBytes_eq (g : Nat → Nat) (fuel : Nat) (w : Writer) (u n : Nat)
    (hw : w.Inv) (hu : u < 2 ^ 64) (hn : n ≤ 64) (hf : n / 8 ≤ fuel) :
    writeBitsBytes g fuel w u n =
      (((msbBits u 64).take (8 * (n / 8))).foldl (WriteBit g) w, shl 64 u (8 * (n / 8)), n % 8) := by
  induction fuel generalizing w u n with
  | zero =>
    have h0 : n / 8 = 0 := by omega
    have h1 : n % 8 = n := by omega
    simp [writeBitsBytes, h0, h1, shl_zero_of_lt hu]
  | succ fuel ih =>
    unfold writeBitsBytes
    split
    · rename_i h8
      have hb : (u >>> 56) % 256 < 256 := Nat.mod_lt _ (by decide)
      rw [ih _ _ _ (WriteByte_extends g w _ hw hb).isInv (shl_lt 64 u 8) (by omega) (by omega)]
      have hk : (n - 8) / 8 = n / 8 - 1 := by omega
      have hm : (n - 8) % 8 = n % 8 := by omega
      have hk8 : 8 * (n / 8) = 8 + 8 * (n / 8 - 1) := by omega
      rw [WriteByte_eq_foldl g w _ hw hb, top_byte_bits, ← List.foldl_append, hk, hm, shl_shl,
        take_msbBits_shl _ _ _ (by omega), ← hk8]
      congr 2
      rw [hk8, List.take_add]
    · rename_i h8
      have h0 : n / 8 = 0 := by omega
      have h1 : n % 8 = n := by omega
      simp [h0, h1, shl_zero_of_lt hu]

theorem writeBitsTail_eq (g : Nat → Nat) (fuel : Nat) (w : Writer) (u n : Nat)
    (hu : u < 2 ^ 64) (hn : n ≤ 64) (hf : n ≤ fuel) :
    (writeBitsTail g fuel w u n).1 = ((msbBits u 64).take n).foldl (WriteBit g) w ∧
      (writeBitsTail g fuel w u n).2.2 = 0 := by
  induction fuel generalizing w u n with
  | zero =>
    have h0 : n = 0 := by omega
    simp [writeBitsTail, h0]
  | succ fuel ih =>
    unfold writeBitsTail
    split
    · rename_i h0
      rw [top_bit_step g w u hu]
      obtain ⟨e1, e2⟩ := ih (WriteBit g w (u.testBit 63)) (shl 64 u 1) (n - 1) (shl_lt 64 u 1)
        (by omega) (by omega)
      refine ⟨?_, e2⟩
      rw [e1, take_msbBits_shl _ _ _ (by omega)]
      obtain ⟨m, rfl⟩ : ∃ m, n = m + 1 := ⟨n - 1, by omega⟩
      rw [take_succ_word, Nat.add_sub_cancel]
      rfl
    · rename_i h0
      have h0 : n = 0 := by omega
      simp [h0]

/-- `WriteBits(v, n)` with `n ≤ 64` ends in the state reached by `WriteBit` on
bit `n - 1` of `v`, ..., bit 0 of `v`. -/
theorem WriteBits_eq_foldl (g : Nat → Nat) (w : Writer) (v n : Nat) (hw : w.Inv) (hn : n ≤ 64) :
    WriteBits g w v n = (msbBits v n).foldl (WriteBit g) w := by
  have hsh : (2 ^ 64 + 64 - n) % 2 ^ 64 = 64 - n := by omega
  unfold WriteBits
  simp only [hsh]
  rw [writeBitsBytes_eq g n w _ n hw (shl_lt 64 _ _) hn (by omega)]
  have ht := (writeBitsTail_eq g (n % 8)
    (((msbBits (shl 64 v (64 - n)) 64).take (8 * (n / 8))).foldl (WriteBit g) w)
    (shl 64 (shl 64 v (64 - n)) (8 * (n / 8))) (n % 8) (shl_lt 64 _ _) (by omega) (le_refl _)).1
  rw [ht, take_msbBits_shl (shl 64 v (64 - n)) (8 * (n / 8)) (n % 8) (by omega),
    ← List.foldl_append, ← List.take_add]
  have hsum : 8 * (n / 8) + n % 8 = n := by omega
  rw [hsum, take_msbBits_align v n hn]

end Writer

end Bitstream


namespace Bitstream

namespace Writer

/-! ## Padding and `flush` -/

theorem WriteBit_p (g : Nat → Nat) (w : Writer) (bit : Bool) :
    (WriteBit g w bit).p = if 1 < w.p then w.p - 1 else 8 := by
  by_cases hp : 1 < w.p
  · obtain ⟨c, hc⟩ := WriteBit_inside g w bit hp
    rw [hc, if_pos hp]
  · obtain ⟨y, hy⟩ := WriteBit_fill g w bit hp
    rw [hy, if_neg hp]

/-- The padding loop writes `p mod 8` pad bits and stops byte-aligned; the fuel
`p + 1` of `Flush` is enough. -/
theorem padLoop_eq (g : Nat → Nat) (ones : Bool) (fuel : Nat) (w : Writer) (hw : w.Inv)
    (hf : w.p % 8 ≤ fuel) :
    padLoop g ones fuel w = (List.replicate (w.p % 8) ones).foldl (WriteBit g) w ∧
      (padLoop g ones fuel w).p = 8 := by
  induction fuel generalizing w with
  | zero =>
    have h8 : w.p = 8 := by
      have := hw.1
      have := hw.2.1
      omega
    simp [padLoop, h8]
  | succ fuel ih =>
    unfold padLoop
    split
    · rename_i hp
      have h1 := hw.1
      have h8 := hw.2.1
      have hi := (WriteBit_extends g w ones hw).isInv
      have hp1 : (WriteBit g w ones).p % 8 = w.p % 8 - 1 := by
        rw [WriteBit_p]
        split <;> omega
      obtain ⟨e1, e2⟩ := ih (WriteBit g w ones) hi (by omega)
      refine ⟨?_, e2⟩
      rw [e1, hp1]
      obtain ⟨m, hm⟩ : ∃ m, w.p % 8 = m + 1 := ⟨w.p % 8 - 1, by omega⟩
      rw [hm, List.replicate_succ, List.foldl_cons, Nat.add_sub_cancel]
    · rename_i hp
      have h8 : w.p = 8 := by simpa using hp
      simp [h8]

@[simp] theorem flush_b (w : Writer) : (flush w).b = w.b := by
  unfold flush
  split
  · rfl
  · split_ifs <;> rfl

@[simp] theorem flush_p (w : Writer) : (flush w).p = w.p := by
  unfold flush
  split
  · rfl
  · split_ifs <;> rfl

/-- After `flush` the sink has received every completed byte. -/
theorem delivered_flush (w : Writer) : (flush w).delivered = w.held := by
  unfold flush
  split
  · rename_i bw h
    simp [delivered, held, h]
  · rename_i s buf cap h
    split_ifs with hb
    · simp [delivered, held, h]
    · have : buf = [] := by
        cases buf with
        | nil => rfl
        | cons a l => simp at hb
      simp [delivered, held, h, this]

theorem mem_held_flush {w : Writer} {x : Nat} (hx : x ∈ (flush w).held) : x ∈ w.held := by
  unfold flush at hx
  split at hx
  · exact hx
  · rename_i s buf cap h
    split_ifs at hx with hb
    · simp only [held, Sink.bytes_Write, List.mem_append] at hx
      simp only [held, h, List.mem_append]
      tauto
    · exact hx

/-! ## The unaligned branch of `Write` -/

theorem writeLoop_eq (g : Nat → Nat) (bs : List Nat) (w : Writer) (wb : Nat) :
    ({ (writeLoop g w.p ((8 + 65536 - w.p) % 65536) w wb bs).1 with
        b := (writeLoop g w.p ((8 + 65536 - w.p) % 65536) w wb bs).2 } : Writer)
      = bs.foldl (WriteByte g) { w with b := wb } := by
  induction bs generalizing w wb with
  | nil => rfl
  | cons n rest ih =>
    have h := ih (push g w (wb ||| n >>> ((8 + 65536 - w.p) % 65536))) (shl 8 n w.p)
    rw [push_p] at h
    simp only [writeLoop, List.foldl_cons]
    rw [h]
    congr 1
    simp only [WriteByte]
    rw [push_with g w wb w.p]

/-- When the writer is not byte-aligned, `Write(bs)` is `WriteByte` on each
element of `bs` in order. -/
theorem Write_unaligned (g : Nat → Nat) (w : Writer) (bs : List Nat) (hp : w.p ≠ 8) :
    Write g w bs = .ok (bs.foldl (WriteByte g) w) := by
  unfold Write
  rw [if_neg hp]
  simp only []
  rw [writeLoop_eq g bs w w.b]

theorem foldl_WriteByte_extends (g : Nat → Nat) (bs : List Nat) (w : Writer) (hw : w.Inv)
    (hbs : ∀ x ∈ bs, x < 256) :
    Extends w (bs.foldl (WriteByte g) w) (bs.flatMap byteBits) := by
  induction bs generalizing w with
  | nil => exact Extends.refl hw
  | cons x rest ih =>
    have h1 := WriteByte_extends g w x hw (hbs x (by simp))
    have h2 := ih (WriteByte g w x) h1.isInv (fun y hy => hbs y (by simp [hy]))
    simpa using Extends.trans h1 h2

theorem foldl_WriteByte_p (g : Nat → Nat) (bs : List Nat) (w : Writer) :
    (bs.foldl (WriteByte g) w).p = w.p := by
  induction bs generalizing w with
  | nil => rfl
  | cons x rest ih => rw [List.foldl_cons, ih, WriteByte_p]

end Writer

end Bitstream


namespace Bitstream

/-! ## The packed form of a bit list -/

theorem map_getD_range (l : List Bool) (n : Nat) (d : Bool) (h : l.length ≤ n) :
    (List.range n).map (fun j => l.getD j d) = l ++ List.replicate (n - l.length) d := by
  apply List.ext_getElem
  · simp; omega
  · intro i h1 h2
    simp only [List.getElem_map, List.getElem_range]
    by_cases hi : i < l.length
    · rw [List.getElem_append_left hi, List.getD_eq_getElem l d hi]
    · rw [List.getElem_append_right (by omega), List.getD_eq_default l d (by omega)]
      simp

theorem pack_nil (pad : Bool) : pack pad [] = [] := rfl

theorem pack_short (pad : Bool) (s : List Bool) (h0 : 0 < s.length) (h8 : s.length ≤ 8) :
    pack pad s = [bitsVal (s ++ List.replicate (8 - s.length) pad)] := by
  have hn : (s.length + 7) / 8 = 1 := by omega
  have hr : List.range 1 = [0] := rfl
  unfold pack
  rw [hn, hr]
  simp only [List.map_cons, List.map_nil, Nat.mul_zero, Nat.zero_add]
  rw [map_getD_range s 8 pad h8]

theorem pack_append (pad : Bool) (c rest : List Bool) (hc : c.length = 8) :
    pack pad (c ++ rest) = bitsVal c :: pack pad rest := by
  have hn : ((c ++ rest).length + 7) / 8 = (rest.length + 7) / 8 + 1 := by
    simp only [List.length_append, hc]; omega
  have hr : List.range ((rest.length + 7) / 8 + 1)
      = 0 :: (List.range ((rest.length + 7) / 8)).map Nat.succ := List.range_succ_eq_map _
  unfold pack
  rw [hn, hr, List.map_cons, List.map_map]
  congr 1
  · simp only [Nat.mul_zero, Nat.zero_add]
    congr 1
    apply List.ext_getElem
    · simp [hc]
    · intro i h1 h2
      simp only [List.getElem_map, List.getElem_range]
      rw [List.getD_append _ _ _ _ h2, List.getD_eq_getElem _ _ h2]
  · apply List.map_congr_left
    intro i _
    simp only [Function.comp]
    congr 1
    apply List.map_congr_left
    intro j _
    rw [List.getD_append_right _ _ _ _ (by omega)]
    congr 1
    omega

theorem length_pack (pad : Bool) (s : List Bool) : (pack pad s).length = (s.length + 7) / 8 := by
  simp [pack]

/-- A list of bytes whose bits are `s` followed by fewer than 8 pad bits is the
packed form of `s`. -/
theorem eq_pack_of_bits (pad : Bool) (bytes : List Nat) (s : List Bool) (k : Nat)
    (hb : ∀ x ∈ bytes, x < 256) (hk : k < 8)
    (h : bytes.flatMap byteBits = s ++ List.replicate k pad) : bytes = pack pad s := by
  induction bytes generalizing s with
  | nil =>
    have hs : s = [] := by
      have := congrArg List.length h
      simp at this
      exact List.length_eq_zero.1 (by omega)
    rw [hs, pack_nil]
  | cons x rest ih =>
    have hx : x < 256 := hb x (by simp)
    rw [List.flatMap_cons] at h
    have hlen := congrArg List.length h
    simp only [List.length_append, byteBits_length, List.length_replicate] at hlen
    by_cases h8 : 8 ≤ s.length
    · have hs : s = s.take 8 ++ s.drop 8 := (List.take_append_drop 8 s).symm
      rw [hs, List.append_assoc] at h
      obtain ⟨e1, e2⟩ := List.append_inj h (by simp [List.length_take]; omega)
      rw [hs, pack_append pad _ _ (by simp [List.length_take]; omega), ← e1,
        bitsVal_byteBits hx, ← ih (s.drop 8) (fun y hy => hb y (by simp [hy])) e2]
    · have hr : rest = [] := by
        cases rest with
        | nil => rfl
        | cons y r =>
          simp only [List.flatMap_cons, List.length_append, byteBits_length] at hlen
          omega
      subst hr
      simp only [List.flatMap_nil, List.length_nil, Nat.add_zero] at hlen
      simp only [List.flatMap_nil, List.append_nil] at h
      have hk8 : k = 8 - s.length := by omega
      rw [pack_short pad s (by omega) (by omega), ← hk8, ← h, bitsVal_byteBits hx]

end Bitstream


namespace Bitstream

namespace Writer

/-! ## The invariant holds in every reachable state -/

theorem writeBitsBytes_extends (g : Nat → Nat) (fuel : Nat) (w : Writer) (u n : Nat)
    (hw : w.Inv) : ∃ s, Extends w (writeBitsBytes g fuel w u n).1 s := by
  induction fuel generalizing w u n with
  | zero => exact ⟨[], Extends.refl hw⟩
  | succ fuel ih =>
    unfold writeBitsBytes
    split
    · have h1 := WriteByte_extends g w ((u >>> 56) % 256) hw (Nat.mod_lt _ (by decide))
      obtain ⟨s, hs⟩ := ih (WriteByte g w ((u >>> 56) % 256)) (shl 64 u 8) (n - 8) h1.isInv
      exact ⟨_, Extends.trans h1 hs⟩
    · exact ⟨[], Extends.refl hw⟩

theorem writeBitsTail_extends (g : Nat → Nat) (fuel : Nat) (w : Writer) (u n : Nat)
    (hw : w.Inv) : ∃ s, Extends w (writeBitsTail g fuel w u n).1 s := by
  induction fuel generalizing w u n with
  | zero => exact ⟨[], Extends.refl hw⟩
  | succ fuel ih =>
    unfold writeBitsTail
    split
    · have h1 : ∃ bit, Extends w (if u >>> 63 = 0 then WriteZero g w else WriteOne g w) [bit] := by
        split
        · exact ⟨false, WriteZero_extends g w hw⟩
        · exact ⟨true, WriteOne_extends g w hw⟩
      obtain ⟨bit, hbit⟩ := h1
      obtain ⟨s, hs⟩ := ih _ (shl 64 u 1) (n - 1) hbit.isInv
      exact ⟨_, Extends.trans hbit hs⟩
    · exact ⟨[], Extends.refl hw⟩

theorem WriteBits_extends (g : Nat → Nat) (w : Writer) (u n : Nat) (hw : w.Inv) :
    ∃ s, Extends w (WriteBits g w u n) s := by
  unfold WriteBits
  obtain ⟨s1, h1⟩ := writeBitsBytes_extends g n w (shl 64 u ((2 ^ 64 + 64 - n) % 2 ^ 64)) n hw
  obtain ⟨s2, h2⟩ := writeBitsTail_extends g
    (writeBitsBytes g n w (shl 64 u ((2 ^ 64 + 64 - n) % 2 ^ 64)) n).2.2
    (writeBitsBytes g n w (shl 64 u ((2 ^ 64 + 64 - n) % 2 ^ 64)) n).1
    (writeBitsBytes g n w (shl 64 u ((2 ^ 64 + 64 - n) % 2 ^ 64)) n).2.1
    (writeBitsBytes g n w (shl 64 u ((2 ^ 64 + 64 - n) % 2 ^ 64)) n).2.2 h1.isInv
  exact ⟨_, Extends.trans h1 h2⟩

theorem padLoop_extends (g : Nat → Nat) (ones : Bool) (w : Writer) (hw : w.Inv) :
    Extends w (padLoop g ones (w.p + 1) w) (List.replicate (w.p % 8) ones) ∧
      (padLoop g ones (w.p + 1) w).p = 8 := by
  have hlt : w.p % 8 ≤ w.p + 1 := le_trans (Nat.mod_le _ _) (Nat.le_succ _)
  obtain ⟨e1, e2⟩ := padLoop_eq g ones (w.p + 1) w hw hlt
  refine ⟨?_, e2⟩
  rw [e1]
  exact foldl_WriteBit_extends g _ w hw

theorem inv_flush {w : Writer} (hw : w.Inv) : (flush w).Inv := by
  unfold Inv
  simpa using hw

theorem heldBytes_flush {w : Writer} (hw : w.HeldBytes) : (flush w).HeldBytes :=
  fun x hx => hw x (mem_held_flush hx)

/-- The invariant and the byte range of the completed bytes together. -/
theorem Write_good (g : Nat → Nat) (w w1 : Writer) (bs : List Nat) (hw : w.Inv)
    (hh : w.HeldBytes) (hbs : ∀ x ∈ bs, x < 256) (h : Write g w bs = .ok w1) :
    w1.Inv ∧ w1.HeldBytes := by
  by_cases hp : w.p = 8
  · unfold Write at h
    rw [if_pos hp] at h
    split at h
    · exact Except.noConfusion h
    · rename_i s buf cap ho
      injection h with h
      subst h
      refine ⟨hw, ?_⟩
      intro x hx
      have hbuf : ∀ y ∈ buf, y < 256 := fun y hy => hh y (by simp [held, ho, hy])
      have hsb : ∀ y ∈ s.bytes, y < 256 := fun y hy => hh y (by simp [held, ho, hy])
      simp only [held, Sink.bytes_Write, List.mem_append] at hx
      rcases hx with (hx | hx) | hx
      · split_ifs at hx
        · simp only [Sink.bytes_Write, List.mem_append] at hx
          rcases hx with hx | hx
          · exact hsb x hx
          · exact hbuf x hx
        · exact hsb x hx
      · exact hbs x hx
      · exact hbuf x hx
  · rw [Write_unaligned g w bs hp] at h
    injection h with h
    subst h
    have he := foldl_WriteByte_extends g bs w hw hbs
    exact ⟨he.isInv, he.heldBytes hh⟩

theorem step_good (g : Nat → Nat) (w w1 : Writer) (op : WOp) (hw : w.Inv) (hh : w.HeldBytes)
    (hop : op.WellTyped) (h : step g w op = .ok w1) : w1.Inv ∧ w1.HeldBytes := by
  cases op with
  | WriteZero =>
    injection h with h; subst h
    exact ⟨(WriteZero_extends g w hw).isInv, (WriteZero_extends g w hw).heldBytes hh⟩
  | WriteOne =>
    injection h with h; subst h
    exact ⟨(WriteOne_extends g w hw).isInv, (WriteOne_extends g w hw).heldBytes hh⟩
  | WriteBit bit =>
    injection h with h; subst h
    exact ⟨(WriteBit_extends g w bit hw).isInv, (WriteBit_extends g w bit hw).heldBytes hh⟩
  | WriteByte b =>
    injection h with h; subst h
    exact ⟨(WriteByte_extends g w b hw hop).isInv, (WriteByte_extends g w b hw hop).heldBytes hh⟩
  | Write bs => exact Write_good g w w1 bs hw hh hop h
  | WriteBits u n =>
    injection h with h; subst h
    obtain ⟨s, hs⟩ := WriteBits_extends g w u n hw
    exact ⟨hs.isInv, hs.heldBytes hh⟩
  | Flush =>
    injection h with h; subst h
    have he := (padLoop_extends g false w hw).1
    exact ⟨inv_flush he.isInv, heldBytes_flush (he.heldBytes hh)⟩
  | FlushOnes =>
    injection h with h; subst h
    have he := (padLoop_extends g true w hw).1
    exact ⟨inv_flush he.isInv, heldBytes_flush (he.heldBytes hh)⟩

theorem run_good (g : Nat → Nat) (ops : List WOp) (w w1 : Writer) (hw : w.Inv)
    (hh : w.HeldBytes) (hops : ∀ op ∈ ops, op.WellTyped) (h : run g w ops = .ok w1) :
    w1.Inv ∧ w1.HeldBytes := by
  induction ops generalizing w with
  | nil =>
    injection h with h; subst h
    exact ⟨hw, hh⟩
  | cons op ops ih =>
    unfold run at h
    split at h
    · rename_i w2 hs
      obtain ⟨i2, h2⟩ := step_good g w w2 op hw hh (hops op (by simp)) hs
      exact ih w2 i2 h2 (fun o ho => hops o (by simp [ho])) h
    · exact Except.noConfusion h

theorem Write_inv (g : Nat → Nat) (w w1 : Writer) (bs : List Nat) (hw : w.Inv)
    (hbs : ∀ x ∈ bs, x < 256) (h : Write g w bs = .ok w1) : w1.Inv := by
  by_cases hp : w.p = 8
  · unfold Write at h
    rw [if_pos hp] at h
    split at h
    · exact Except.noConfusion h
    · injection h with h
      subst h
      exact hw
  · rw [Write_unaligned g w bs hp] at h
    injection h with h
    subst h
    exact (foldl_WriteByte_extends g bs w hw hbs).isInv

theorem step_inv (g : Nat → Nat) (w w1 : Writer) (op : WOp) (hw : w.Inv)
    (hop : op.WellTyped) (h : step g w op = .ok w1) : w1.Inv := by
  cases op with
  | WriteZero => injection h with h; subst h; exact (WriteZero_extends g w hw).isInv
  | WriteOne => injection h with h; subst h; exact (WriteOne_extends g w hw).isInv
  | WriteBit bit => injection h with h; subst h; exact (WriteBit_extends g w bit hw).isInv
  | WriteByte b => injection h with h; subst h; exact (WriteByte_extends g w b hw hop).isInv
  | Write bs => exact Write_inv g w w1 bs hw hop h
  | WriteBits u n =>
    injection h with h; subst h
    obtain ⟨s, hs⟩ := WriteBits_extends g w u n hw
    exact hs.isInv
  | Flush => injection h with h; subst h; exact inv_flush (padLoop_extends g false w hw).1.isInv
  | FlushOnes => injection h with h; subst h; exact inv_flush (padLoop_extends g true w hw).1.isInv

theorem run_inv (g : Nat → Nat) (ops : List WOp) (w w1 : Writer) (hw : w.Inv)
    (hops : ∀ op ∈ ops, op.WellTyped) (h : run g w ops = .ok w1) : w1.Inv := by
  induction ops generalizing w with
  | nil =>
    injection h with h; subst h
    exact hw
  | cons op ops ih =>
    unfold run at h
    split at h
    · rename_i w2 hs
      exact ih w2 (step_inv g w w2 op hw (hops op (by simp)) hs)
        (fun o ho => hops o (by simp [ho])) h
    · exact Except.noConfusion h

theorem Fresh.startInv {w0 : Writer} (h : Fresh w0) : w0.Inv := by
  rcases h with ⟨bw, rfl⟩ | ⟨s, buf, cap, rfl⟩ <;>
    exact ⟨by simp [NewByteWriter, NewWriterBuffer], by simp [NewByteWriter, NewWriterBuffer],
      by simp [NewByteWriter, NewWriterBuffer], by simp [NewByteWriter, NewWriterBuffer]⟩

/-- Every state reachable from a constructed writer satisfies the invariant. -/
theorem Reachable.stateInv {g : Nat → Nat} {w0 w : Writer} (h0 : Fresh w0) (h : Reachable g w0 w) :
    w.Inv := by
  obtain ⟨ops, hops, hrun⟩ := h
  exact run_inv g ops w0 w h0.startInv hops hrun

end Writer

end Bitstream


namespace Bitstream

namespace Writer

/-! ## Flushing a stream of bits -/

/-- Padding and flushing hands the sink the packed form of the stream. -/
theorem delivered_flush_padLoop (g : Nat → Nat) (pad : Bool) (w : Writer) (s : List Bool)
    (hw : w.Inv) (hh : w.HeldBytes) (hs : w.stream = s) :
    (flush (padLoop g pad (w.p + 1) w)).delivered = pack pad s := by
  obtain ⟨he, hp⟩ := padLoop_extends g pad w hw
  rw [delivered_flush]
  have hk : w.p % 8 < 8 := Nat.mod_lt _ (by decide)
  apply eq_pack_of_bits pad _ s (w.p % 8) (he.heldBytes hh) hk
  have h2 := he.2.1
  rw [stream_eq, hp, hs] at h2
  simpa using h2

theorem inv_NewByteWriter (bw : Sink) : (NewByteWriter bw).Inv :=
  Fresh.startInv (Or.inl ⟨bw, rfl⟩)

theorem inv_NewWriterBuffer (s : Sink) (buf : List Nat) (cap : Nat) :
    (NewWriterBuffer s buf cap).Inv :=
  Fresh.startInv (Or.inr ⟨s, buf, cap, rfl⟩)

theorem stream_NewByteWriter : (NewByteWriter Sink.fresh).stream = [] := rfl

theorem stream_NewWriterSize (n : Nat) : (NewWriterSize Sink.fresh n).stream = [] := rfl

theorem heldBytes_NewByteWriter : (NewByteWriter Sink.fresh).HeldBytes := by
  intro x hx
  simp [NewByteWriter, held, Sink.fresh, Sink.bytes] at hx

theorem heldBytes_NewWriterSize (n : Nat) : (NewWriterSize Sink.fresh n).HeldBytes := by
  intro x hx
  simp [NewWriterSize, NewWriterBuffer, held, Sink.fresh, Sink.bytes] at hx

/-- Bits written one by one to a writer whose stream is empty, then padded and
flushed, reach the sink in packed form. -/
theorem delivered_bits (g : Nat → Nat) (pad : Bool) (w0 : Writer) (s : List Bool)
    (hw : w0.Inv) (hh : w0.HeldBytes) (hs : w0.stream = []) :
    (flush (padLoop g pad ((s.foldl (WriteBit g) w0).p + 1) (s.foldl (WriteBit g) w0))).delivered
      = pack pad s := by
  have he := foldl_WriteBit_extends g s w0 hw
  exact delivered_flush_padLoop g pad _ s he.isInv (he.heldBytes hh) (by rw [he.2.1, hs]; rfl)

end Writer

open Writer

/-- C2 (wire format): on a fresh writer over a sink that never fails, direct or
buffered with any capacity, writing the bits of `s` with `WriteBit` and then
calling `Flush` (resp. `FlushOnes`) hands the sink exactly the bytes of
`pack false s` (resp. `pack true s`): the bits of `s` most significant first,
the free low bits of the last byte 0 (resp. 1), `⌈len(s) / 8⌉` bytes in all,
so no pad byte when `len(s)` is a multiple of 8. -/
theorem wire_format (g : Nat → Nat) (s : List Bool) (n : Nat) :
    (Flush g (s.foldl (WriteBit g) (NewByteWriter Sink.fresh))).delivered = pack false s ∧
    (FlushOnes g (s.foldl (WriteBit g) (NewByteWriter Sink.fresh))).delivered = pack true s ∧
    (Flush g (s.foldl (WriteBit g) (NewWriterSize Sink.fresh n))).delivered = pack false s ∧
    (FlushOnes g (s.foldl (WriteBit g) (NewWriterSize Sink.fresh n))).delivered = pack true s ∧
    (pack false s).length = (s.length + 7) / 8 ∧ (pack true s).length = (s.length + 7) / 8 ∧
    (s.length % 8 = 0 → (pack false s).length = s.length / 8 ∧
      (pack true s).length = s.length / 8) := by
  refine ⟨?_, ?_, ?_, ?_, length_pack _ _, length_pack _ _, ?_⟩
  · exact delivered_bits g false _ s (inv_NewByteWriter _) heldBytes_NewByteWriter
      stream_NewByteWriter
  · exact delivered_bits g true _ s (inv_NewByteWriter _) heldBytes_NewByteWriter
      stream_NewByteWriter
  · exact delivered_bits g false _ s (inv_NewWriterBuffer _ _ _) (heldBytes_NewWriterSize n)
      (stream_NewWriterSize n)
  · exact delivered_bits g true _ s (inv_NewWriterBuffer _ _ _) (heldBytes_NewWriterSize n)
      (stream_NewWriterSize n)
  · intro h
    rw [length_pack, length_pack]
    omega

/-- C3 (byte/bit equivalence): in every state `w` reachable from a constructed
writer by well-typed calls, over any sink, `WriteByte(b)` ends in the same
state (pending byte, free-bit count, buffer, sink log and recorded error) as
the eight calls `WriteBit(bit 7 of b)`, ..., `WriteBit(bit 0 of b)`. -/
theorem WriteByte_eq_eight_WriteBit (g : Nat → Nat) (w0 w : Writer) (b : Nat)
    (h0 : Fresh w0) (hr : Reachable g w0 w) (hb : b < 256) :
    WriteByte g w b =
      [b.testBit 7, b.testBit 6, b.testBit 5, b.testBit 4,
        b.testBit 3, b.testBit 2, b.testBit 1, b.testBit 0].foldl (WriteBit g) w :=
  WriteByte_eq_foldl g w b (Reachable.stateInv h0 hr) hb

/-- C4 (`WriteBits` writes the `n` low bits, most significant first): in every
state `w` reachable from a constructed writer, for `n ≤ 64`, `WriteBits(v, n)`
ends in the same state as `WriteBit` on bit `n - 1` of `v`, ..., bit 0 of `v`;
`WriteBits(v, 0)` changes nothing and `WriteBits(v, 64)` writes the 64 bits of
`v`. -/
theorem WriteBits_eq_WriteBit_seq (g : Nat → Nat) (w0 w : Writer) (v n : Nat)
    (h0 : Fresh w0) (hr : Reachable g w0 w) (hn : n ≤ 64) :
    WriteBits g w v n = (msbBits v n).foldl (WriteBit g) w ∧
    WriteBits g w v 0 = w ∧
    WriteBits g w v 64 = (msbBits v 64).foldl (WriteBit g) w := by
  have hw := Reachable.stateInv h0 hr
  exact ⟨WriteBits_eq_foldl g w v n hw hn, WriteBits_eq_foldl g w v 0 hw (by decide),
    WriteBits_eq_foldl g w v 64 hw (le_refl _)⟩

end Bitstream


namespace Bitstream

open Writer

theorem WriteByte_eq_eight_WriteBit_witness :
    Fresh (NewWriter Sink.fresh) ∧
    Reachable (fun c => 2 * c) (NewWriter Sink.fresh)
      (WriteZero (fun c => 2 * c) (WriteOne (fun c => 2 * c) (NewWriter Sink.fresh))) ∧
    165 < 256 ∧
    WriteByte (fun c => 2 * c)
        (WriteZero (fun c => 2 * c) (WriteOne (fun c => 2 * c) (NewWriter Sink.fresh))) 165 =
      [Nat.testBit 165 7, Nat.testBit 165 6, Nat.testBit 165 5, Nat.testBit 165 4,
        Nat.testBit 165 3, Nat.testBit 165 2, Nat.testBit 165 1, Nat.testBit 165 0].foldl
        (WriteBit (fun c => 2 * c))
        (WriteZero (fun c => 2 * c) (WriteOne (fun c => 2 * c) (NewWriter Sink.fresh))) :=
  ⟨Or.inr ⟨_, _, _, rfl⟩,
   ⟨[.WriteOne, .WriteZero], by simp [WOp.WellTyped], rfl⟩,
   by decide,
   WriteByte_eq_eight_WriteBit _ _ _ 165 (Or.inr ⟨_, _, _, rfl⟩)
     ⟨[.WriteOne, .WriteZero], by simp [WOp.WellTyped], rfl⟩ (by decide)⟩

theorem WriteBits_eq_WriteBit_seq_witness :
    Fresh (NewByteWriter Sink.fresh) ∧
    Reachable (fun c => 2 * c) (NewByteWriter Sink.fresh)
      (WriteOne (fun c => 2 * c) (NewByteWriter Sink.fresh)) ∧
    11 ≤ 64 ∧
    WriteBits (fun c => 2 * c) (WriteOne (fun c => 2 * c) (NewByteWriter Sink.fresh)) 1701 11 =
      (msbBits 1701 11).foldl (WriteBit (fun c => 2 * c))
        (WriteOne (fun c => 2 * c) (NewByteWriter Sink.fresh)) :=
  ⟨Or.inl ⟨_, rfl⟩,
   ⟨[.WriteOne], by simp [WOp.WellTyped], rfl⟩,
   by decide,
   (WriteBits_eq_WriteBit_seq _ _ _ 1701 11 (Or.inl ⟨_, rfl⟩)
     ⟨[.WriteOne], by simp [WOp.WellTyped], rfl⟩ (by decide)).1⟩

end Bitstream


namespace Bitstream

/-! ## The source -/

namespace Source

theorem take_min_length (l : List Nat) (k : Nat) : l.take (min k l.length) = l.take k := by
  by_cases hk : k ≤ l.length
  · rw [Nat.min_eq_left hk]
  · rw [Nat.min_eq_right (by omega), List.take_of_length_le (le_refl _),
      List.take_of_length_le (by omega)]

theorem drop_min_length (l : List Nat) (k : Nat) : l.drop (min k l.length) = l.drop k := by
  by_cases hk : k ≤ l.length
  · rw [Nat.min_eq_left hk]
  · rw [Nat.min_eq_right (by omega), List.drop_eq_nil_of_le (le_refl _),
      List.drop_eq_nil_of_le (by omega)]

theorem script_Read (s : Source) (len : Nat) : (s.Read len).1.script = s.script.tail := by
  unfold Read
  split
  · rename_i h
    simp [h]
  · rename_i h
    split_ifs <;> simp [h]
  · rename_i h
    split_ifs <;> simp [h]

theorem noFail_Read {s : Source} (h : s.NoFail) (len : Nat) : (s.Read len).1.NoFail := by
  intro x hx
  rw [script_Read] at hx
  exact h x (List.mem_of_mem_tail hx)

theorem steady_Read {s : Source} (h : s.Steady) (len : Nat) : (s.Read len).1.Steady := by
  intro x hx
  rw [script_Read] at hx
  exact h x (List.mem_of_mem_tail hx)

theorem Steady.toNoFail {s : Source} (h : s.Steady) : s.NoFail := by
  intro x hx
  obtain ⟨k, _, hk⟩ := h x hx
  exact ⟨k, hk⟩

/-- An empty source that never fails on its own reports `io.EOF`. -/
theorem Read_empty {s : Source} (h : s.NoFail) (hd : s.data = []) (len : Nat) :
    (s.Read len).2 = ([], some .EOF) ∧ (s.Read len).1.data = [] := by
  unfold Read
  split
  · rename_i e rest hs
    obtain ⟨k, hk⟩ := h (.fail e) (by simp [hs])
    exact Resp.noConfusion hk
  · simp [hd]
  · simp [hd]

/-- A non-empty source that never fails on its own hands out a front part of
its bytes, no longer than asked for. -/
theorem Read_chunk {s : Source} (h : s.NoFail) (hd : s.data ≠ []) (len : Nat) :
    ∃ k, k ≤ len ∧ k ≤ s.data.length ∧ (s.script = [] → k = min len s.data.length) ∧
      (s.Read len).2 = (s.data.take k, none) ∧ (s.Read len).1.data = s.data.drop k := by
  unfold Read
  split
  · rename_i e rest hs
    obtain ⟨k, hk⟩ := h (.fail e) (by simp [hs])
    exact Resp.noConfusion hk
  · rename_i k rest hs
    rw [if_neg hd]
    refine ⟨min (min len k) s.data.length, by omega, by omega, by simp [hs], ?_, ?_⟩
    · rw [take_min_length]
    · rw [drop_min_length]
  · rename_i hs
    rw [if_neg hd]
    refine ⟨min len s.data.length, by omega, by omega, fun _ => rfl, ?_, ?_⟩
    · rw [take_min_length]
    · rw [drop_min_length]

/-- A steady source asked for one byte hands out its first byte. -/
theorem Read_one {s : Source} (h : s.Steady) {x : Nat} {rest : List Nat}
    (hd : s.data = x :: rest) :
    (s.Read 1).2 = ([x], none) ∧ (s.Read 1).1.data = rest := by
  unfold Read
  split
  · rename_i e rest hs
    obtain ⟨k, _, hk⟩ := h (.fail e) (by simp [hs])
    exact Resp.noConfusion hk
  · rename_i k rest hs
    obtain ⟨k1, hk1, hk⟩ := h (.chunk k) (by simp [hs])
    injection hk with hk
    subst hk
    have hm : min 1 k = 1 := by omega
    simp [hd, hm]
  · simp [hd]

end Source

end Bitstream


namespace Bitstream

namespace Source

theorem later_refl (s : Source) : Later s s := ⟨⟨0, rfl⟩, ⟨0, rfl⟩⟩

theorem later_trans {s t u : Source} (h1 : Later s t) (h2 : Later t u) : Later s u := by
  obtain ⟨⟨i1, hi1⟩, ⟨j1, hj1⟩⟩ := h1
  obtain ⟨⟨i2, hi2⟩, ⟨j2, hj2⟩⟩ := h2
  exact ⟨⟨i1 + i2, by rw [hi2, hi1, List.drop_drop]⟩, ⟨j1 + j2, by rw [hj2, hj1, List.drop_drop]⟩⟩

theorem later_Read (s : Source) (len : Nat) : Later s (s.Read len).1 := by
  refine ⟨?_, ⟨1, by rw [script_Read]; simp⟩⟩
  unfold Read
  split
  · exact ⟨0, rfl⟩
  · split_ifs
    · exact ⟨0, rfl⟩
    · exact ⟨_, rfl⟩
  · split_ifs
    · exact ⟨0, rfl⟩
    · exact ⟨_, rfl⟩

theorem Later.keepsSteady {s t : Source} (h : Later s t) (hs : s.Steady) : t.Steady := by
  obtain ⟨_, ⟨j, hj⟩⟩ := h
  intro x hx
  rw [hj] at hx
  exact hs x (List.mem_of_mem_drop hx)

theorem Later.keepsNoFail {s t : Source} (h : Later s t) (hs : s.NoFail) : t.NoFail := by
  obtain ⟨_, ⟨j, hj⟩⟩ := h
  intro x hx
  rw [hj] at hx
  exact hs x (List.mem_of_mem_drop hx)

theorem Later.keepsBytes {s t : Source} (h : Later s t) (hs : s.Bytes) : t.Bytes := by
  obtain ⟨⟨i, hi⟩, _⟩ := h
  intro x hx
  rw [hi] at hx
  exact hs x (List.mem_of_mem_drop hx)

end Source

/-! ## Byte-level facts of the reader -/

theorem and_0x80 (b : Nat) : decide (b &&& 0x80 ≠ 0) = b.testBit 7 := by
  have h128 : (0x80 : Nat) = 2 ^ 7 := by norm_num
  by_cases h : b.testBit 7 = true
  · rw [h]
    simp only [decide_eq_true_eq]
    intro hz
    have h2 : (b &&& 0x80).testBit 7 = true := by
      rw [Nat.testBit_land, h, h128, Nat.testBit_two_pow_self]
      rfl
    rw [hz] at h2
    simp at h2
  · have hf : b.testBit 7 = false := by simpa using h
    rw [hf]
    simp only [decide_eq_false_iff_not, not_not]
    apply Nat.eq_of_testBit_eq
    intro i
    rw [Nat.testBit_land, h128, Nat.testBit_two_pow, Nat.zero_testBit]
    by_cases hi : 7 = i
    · subst hi
      simp [hf]
    · simp [hi]

theorem shl8_lt (x k : Nat) : shl 8 x k < 256 := shl_lt 8 x k

/-- Shifting the pending byte left by one drops its first pending bit. -/
theorem byteBits_shift {b p : Nat} (hp1 : 1 ≤ p) (hp8 : p ≤ 8) :
    (byteBits b).take p = b.testBit 7 :: (byteBits (shl 8 b 1)).take (p - 1) := by
  interval_cases p <;> simp [byteBits, msbBits, testBit_shl, -Nat.testBit_zero]

theorem shift_low_zero {b p : Nat} (hp1 : 1 ≤ p) (hb : b % 2 ^ (8 - p) = 0) :
    shl 8 b 1 % 2 ^ (8 - (p - 1)) = 0 := by
  have h0 := testBit_low_zero hb
  apply low_zero_of_testBit
  intro i hi
  rw [testBit_shl]
  by_cases h1 : 1 ≤ i
  · rw [h0 (i - 1) (by omega)]
    simp
  · simp [h1]

/-- The merge of `ReadByte`: with `p` pending bits in `b`, `b | x >> p` holds
those bits followed by the top `8 - p` bits of `x`. -/
theorem byteBits_rmerge {b x p : Nat} (hp8 : p ≤ 8) (hx : x < 256) (hb : b % 2 ^ (8 - p) = 0) :
    byteBits (b ||| (x >>> p)) = (byteBits b).take p ++ (byteBits x).take (8 - p) := by
  have h := byteBits_merge (b := b) (x := x) (p := 8 - p) (by omega) hx hb
  have hpp : 8 - (8 - p) = p := by omega
  rw [hpp] at h
  exact h

theorem byteBits_rrest {x p : Nat} (hp8 : p ≤ 8) :
    (byteBits (shl 8 x (8 - p))).take p = (byteBits x).drop (8 - p) := by
  have h := byteBits_rest (x := x) (p := 8 - p) (by omega)
  have hpp : 8 - (8 - p) = p := by omega
  rw [hpp] at h
  exact h

namespace Reader

theorem rstream_eq (r : Reader) :
    r.stream = (byteBits r.b).take r.p ++ r.r.data.flatMap byteBits := rfl

theorem length_rstream {r : Reader} (h : r.Inv) :
    r.stream.length = r.p + 8 * r.r.data.length := by
  have hp := h.1
  rw [rstream_eq, List.length_append, List.length_take, byteBits_length, List.length_flatMap]
  have : (List.map (List.length ∘ byteBits) r.r.data).sum = 8 * r.r.data.length := by
    induction r.r.data with
    | nil => rfl
    | cons a l ih => simp [ih]; omega
  rw [this]
  omega

/-! ## `ReadBit` -/

theorem ReadBit_inv {r : Reader} (h : r.Inv) : (ReadBit r).1.Inv := by
  obtain ⟨hp, hb, hz⟩ := h
  unfold ReadBit
  split
  · rename_i hp0
    exact ⟨by simp; omega, shl8_lt r.b 1, shift_low_zero (by omega) hz⟩
  · simp only []
    split
    · exact ⟨hp, hb, hz⟩
    · exact ⟨le_refl _, shl8_lt ((r.r.Read 1).2.1.headD 0) 1,
        by simpa using shl_low_zero ((r.r.Read 1).2.1.headD 0) 1⟩

theorem ReadBit_later (r : Reader) : Source.Later r.r (ReadBit r).1.r := by
  unfold ReadBit
  split
  · exact Source.later_refl _
  · simp only []
    split
    · exact Source.later_Read _ _
    · exact Source.later_Read _ _

/-- With a bit left in the stream, `ReadBit` returns it without error. -/
theorem ReadBit_cons {r : Reader} (hi : r.Inv) (hs : r.r.Steady) {bit : Bool} {t : List Bool}
    (h : r.stream = bit :: t) :
    (ReadBit r).2 = (bit, none) ∧ (ReadBit r).1.stream = t := by
  obtain ⟨hp, hb, hz⟩ := hi
  unfold ReadBit
  split
  · rename_i hp0
    rw [rstream_eq, byteBits_shift (by omega) (by omega), List.cons_append] at h
    injection h with h1 h2
    simp only []
    refine ⟨by rw [and_0x80, h1], ?_⟩
    rw [rstream_eq]
    exact h2
  · rename_i hp0
    have hp0 : r.p = 0 := by omega
    rw [rstream_eq, hp0, List.take_zero, List.nil_append] at h
    cases hd : r.r.data with
    | nil => rw [hd] at h; simp at h
    | cons x rest =>
      obtain ⟨e1, e2⟩ := Source.Read_one hs hd
      have e3 : (r.r.Read 1).2.1 = [x] := by rw [e1]
      have e4 : (r.r.Read 1).2.2 = none := by rw [e1]
      simp only [e3, e4, List.length_singleton, ne_eq, not_true_eq_false, or_self, ↓reduceIte,
        List.headD_cons]
      rw [hd, List.flatMap_cons] at h
      have hx : byteBits x = x.testBit 7 :: (byteBits (shl 8 x 1)).take 7 := by
        have := byteBits_shift (b := x) (p := 8) (by omega) (by omega)
        rw [List.take_of_length_le (by simp)] at this
        exact this
      rw [hx, List.cons_append] at h
      injection h with h1 h2
      refine ⟨by rw [and_0x80, h1], ?_⟩
      rw [rstream_eq]
      simp only [e2]
      exact h2

/-- With nothing left in the stream, `ReadBit` reports `io.EOF` and changes
neither the pending byte nor the pending-bit count. -/
theorem ReadBit_nil {r : Reader} (hi : r.Inv) (hs : r.r.Steady) (h : r.stream = []) :
    (ReadBit r).2 = (false, some .EOF) ∧ (ReadBit r).1.stream = [] := by
  have hlen := length_rstream hi
  rw [h] at hlen
  simp only [List.length_nil] at hlen
  have hp0 : r.p = 0 := by omega
  have hd : r.r.data = [] := List.length_eq_zero.1 (by omega)
  obtain ⟨e1, e2⟩ := Source.Read_empty hs.toNoFail hd 1
  have e3 : (r.r.Read 1).2.1 = [] := by rw [e1]
  have e4 : (r.r.Read 1).2.2 = some .EOF := by rw [e1]
  unfold ReadBit
  rw [if_neg (by omega)]
  simp only [e3, e4]
  refine ⟨by simp, ?_⟩
  simp [rstream_eq, hp0, e2]

end Reader

end Bitstream


namespace Bitstream

namespace Reader

/-! ## The fetch loop of `ReadBytes` -/

theorem readLoop_done (fuel : Nat) (s : Source) (b : List Nat) (n : Nat) (h : ¬ n < b.length) :
    readLoop fuel s b n = (s, b, n, none) := by
  cases fuel with
  | zero => rfl
  | succ fuel => rw [readLoop, if_neg h]

theorem readLoop_later (fuel : Nat) (s : Source) (b : List Nat) (n : Nat) :
    Source.Later s (readLoop fuel s b n).1 := by
  induction fuel generalizing s b n with
  | zero => exact Source.later_refl s
  | succ fuel ih =>
    unfold readLoop
    split
    · simp only []
      split
      · exact Source.later_Read _ _
      · exact Source.later_trans (Source.later_Read _ _) (ih _ _ _)
    · exact Source.later_refl s

/-- The loop ends with the buffer filled from the source when the source
holds enough bytes, and with `io.EOF` when it does not. The fuel is enough as
soon as it exceeds the script length by two. -/
theorem readLoop_spec (fuel : Nat) (s : Source) (b : List Nat) (n : Nat) (hs : s.NoFail)
    (hn : n ≤ b.length)
    (hfuel : n = b.length ∨ (s.data = [] ∧ 1 ≤ fuel) ∨ s.script.length + 2 ≤ fuel) :
    (b.length - n ≤ s.data.length →
      (readLoop fuel s b n).2 = (b.take n ++ s.data.take (b.length - n), b.length, none) ∧
        (readLoop fuel s b n).1.data = s.data.drop (b.length - n)) ∧
    (s.data.length < b.length - n → (readLoop fuel s b n).2.2.2 = some .EOF) := by
  induction fuel generalizing s b n with
  | zero =>
    have hnm : n = b.length := by omega
    subst hnm
    simp [readLoop]
  | succ fuel ih =>
    by_cases hlt : n < b.length
    · rw [readLoop, if_pos hlt]
      simp only []
      by_cases hde : s.data = []
      · obtain ⟨e1, e2⟩ := Source.Read_empty hs hde (b.length - n)
        have e4 : (s.Read (b.length - n)).2.2 = some .EOF := by rw [e1]
        rw [if_pos (by rw [e4]; simp)]
        refine ⟨fun h => ?_, fun _ => e4⟩
        rw [hde] at h
        simp at h
        omega
      · obtain ⟨k, hk1, hk2, hk3, e1, e2⟩ := Source.Read_chunk hs hde (b.length - n)
        have e3 : (s.Read (b.length - n)).2.1 = s.data.take k := by rw [e1]
        have e4 : (s.Read (b.length - n)).2.2 = none := by rw [e1]
        rw [if_neg (by rw [e4]; simp), e3]
        have hlk : (s.data.take k).length = k := by rw [List.length_take]; omega
        rw [hlk]
        have hb1 : (b.take n ++ s.data.take k ++ b.drop (n + k)).length = b.length := by
          simp only [List.length_append, List.length_take, List.length_drop]
          omega
        have hfuel1 : n + k = (b.take n ++ s.data.take k ++ b.drop (n + k)).length ∨
            ((s.Read (b.length - n)).1.data = [] ∧ 1 ≤ fuel) ∨
            (s.Read (b.length - n)).1.script.length + 2 ≤ fuel := by
          rw [hb1, e2, Source.script_Read]
          rcases hfuel with h | h | h
          · omega
          · exact absurd h.1 hde
          · cases hsc : s.script with
            | nil =>
              rw [hsc] at h
              simp only [List.length_nil] at h
              have hk := hk3 hsc
              by_cases hle : b.length - n ≤ s.data.length
              · left; omega
              · right; left
                refine ⟨List.drop_eq_nil_of_le (by omega), by omega⟩
            | cons x rest =>
              rw [hsc] at h
              simp only [List.length_cons] at h
              right; right
              simp only [List.tail_cons]
              omega
        obtain ⟨ihA, ihB⟩ := ih (s.Read (b.length - n)).1
          (b.take n ++ s.data.take k ++ b.drop (n + k)) (n + k)
          (Source.noFail_Read hs _) (by rw [hb1]; omega) hfuel1
        rw [hb1, e2, List.length_drop] at ihA ihB
        refine ⟨fun h => ?_, fun h => ihB (by omega)⟩
        obtain ⟨a1, a2⟩ := ihA (by omega)
        refine ⟨?_, ?_⟩
        · rw [a1]
          have ht : (b.take n ++ s.data.take k ++ b.drop (n + k)).take (n + k)
              = b.take n ++ s.data.take k := by
            rw [List.take_left']
            simp only [List.length_append, List.length_take]
            omega
          have hsum : b.length - n = k + (b.length - (n + k)) := by omega
          rw [ht, List.append_assoc]
          conv_rhs => rw [hsum, List.take_add]
        · rw [a2, List.drop_drop]
          congr 1
          omega
    · have hnm : n = b.length := by omega
      rw [readLoop_done _ _ _ _ hlt]
      subst hnm
      simp

end Reader

end Bitstream


namespace Bitstream

namespace Reader

/-! ## The merge loop of `ReadBytes` -/

theorem mergeLoop_carry (p q : Nat) (carry : Nat) (cs : List Nat) (hc : carry < 256)
    (hz : carry % 2 ^ q = 0) :
    (mergeLoop p q carry cs).2 < 256 ∧ (mergeLoop p q carry cs).2 % 2 ^ q = 0 := by
  induction cs generalizing carry with
  | nil => exact ⟨hc, hz⟩
  | cons c rest ih =>
    simp only [mergeLoop]
    exact ih (shl 8 c q) (shl8_lt c q) (shl_low_zero c q)

theorem mergeLoop_length (p q : Nat) (carry : Nat) (cs : List Nat) :
    (mergeLoop p q carry cs).1.length = cs.length := by
  induction cs generalizing carry with
  | nil => rfl
  | cons c rest ih => simp only [mergeLoop, List.length_cons, ih]

/-- The merge loop turns the pending bits followed by the fetched bytes into
the output bytes followed by the new pending bits. -/
theorem mergeLoop_spec (p : Nat) (carry : Nat) (cs : List Nat) (hp : p ≤ 8)
    (hz : carry % 2 ^ (8 - p) = 0) (hcs : ∀ c ∈ cs, c < 256) :
    (mergeLoop p (8 - p) carry cs).1.flatMap byteBits
        ++ (byteBits (mergeLoop p (8 - p) carry cs).2).take p
      = (byteBits carry).take p ++ cs.flatMap byteBits ∧
    (carry < 256 → ∀ y ∈ (mergeLoop p (8 - p) carry cs).1, y < 256) := by
  induction cs generalizing carry with
  | nil => simp [mergeLoop]
  | cons c rest ih =>
    have hc : c < 256 := hcs c (by simp)
    obtain ⟨i1, i3⟩ := ih (shl 8 c (8 - p)) (shl_low_zero c (8 - p))
      (fun y hy => hcs y (by simp [hy]))
    simp only [mergeLoop, List.flatMap_cons, List.append_assoc]
    refine ⟨?_, ?_⟩
    · rw [i1, byteBits_rmerge hp hc hz, byteBits_rrest hp, List.append_assoc,
        ← List.append_assoc ((byteBits c).take (8 - p)), List.take_append_drop]
    · intro hcarry y hy
      rcases List.mem_cons.1 hy with h | h
      · rw [h]
        exact lor_byte_lt hcarry
          (lt_of_le_of_lt (by rw [Nat.shiftRight_eq_div_pow]; exact Nat.div_le_self _ _) hc)
      · exact i3 (shl8_lt c (8 - p)) y h

/-! ## `ReadBytes` -/

/-- For a non-empty buffer, the first `Read` of `ReadBytes` and its loop are
one run of the loop from an empty count. -/
theorem ReadBytes_eq (r : Reader) (buf : List Nat) (hm : 1 ≤ buf.length) :
    ReadBytes r buf =
      if (readLoop (r.r.script.length + 3) r.r buf 0).2.2.2 ≠ none then
        ({ r with r := (readLoop (r.r.script.length + 3) r.r buf 0).1 },
          (readLoop (r.r.script.length + 3) r.r buf 0).2.1,
          (readLoop (r.r.script.length + 3) r.r buf 0).2.2.2)
      else if r.p = 0 then
        ({ r with r := (readLoop (r.r.script.length + 3) r.r buf 0).1 },
          (readLoop (r.r.script.length + 3) r.r buf 0).2.1, none)
      else
        ({ r with
            r := (readLoop (r.r.script.length + 3) r.r buf 0).1,
            b := (mergeLoop r.p ((2 ^ 32 + 8 - r.p) % 2 ^ 32) r.b
              (readLoop (r.r.script.length + 3) r.r buf 0).2.1).2 },
          (mergeLoop r.p ((2 ^ 32 + 8 - r.p) % 2 ^ 32) r.b
            (readLoop (r.r.script.length + 3) r.r buf 0).2.1).1, none) := by
  have h0 : 0 < buf.length := hm
  have hloop : readLoop (r.r.script.length + 3) r.r buf 0 =
      if (r.r.Read buf.length).2.2 ≠ none then
        ((r.r.Read buf.length).1,
          (r.r.Read buf.length).2.1 ++ buf.drop (r.r.Read buf.length).2.1.length, 0,
          (r.r.Read buf.length).2.2)
      else readLoop (r.r.script.length + 2) (r.r.Read buf.length).1
        ((r.r.Read buf.length).2.1 ++ buf.drop (r.r.Read buf.length).2.1.length)
        (r.r.Read buf.length).2.1.length := by
    rw [readLoop, if_pos h0]
    simp
  rw [hloop]
  unfold ReadBytes
  simp only []
  by_cases herr : (r.r.Read buf.length).2.2 ≠ none
  · rw [if_pos herr, if_pos herr, if_pos herr]
  · rw [if_neg herr, if_neg herr]
    by_cases hlt : (r.r.Read buf.length).2.1.length < buf.length
    · rw [if_pos hlt]
    · rw [if_neg hlt]
      have hd : ¬ (r.r.Read buf.length).2.1.length
          < ((r.r.Read buf.length).2.1 ++ buf.drop (r.r.Read buf.length).2.1.length).length := by
        simp only [List.length_append, List.length_drop]
        omega
      rw [readLoop_done _ _ _ _ hd]

/-- Whatever happens, `ReadBytes` moves the source on and either leaves the
pending byte alone or sets it to the carry of the merge loop. -/
theorem ReadBytes_shape (r : Reader) (buf : List Nat) :
    ∃ s1 cs, Source.Later r.r s1 ∧
      ((ReadBytes r buf).1 = { r with r := s1 } ∨
        (r.p ≠ 0 ∧ (ReadBytes r buf).1 =
          { r with r := s1, b := (mergeLoop r.p ((2 ^ 32 + 8 - r.p) % 2 ^ 32) r.b cs).2 })) := by
  unfold ReadBytes
  simp only []
  by_cases h1 : (r.r.Read buf.length).2.2 ≠ none
  · rw [if_pos h1]
    exact ⟨_, [], Source.later_Read _ _, Or.inl rfl⟩
  · rw [if_neg h1]
    by_cases h2 : (r.r.Read buf.length).2.1.length < buf.length
    · simp only [if_pos h2]
      have hl := Source.later_trans (Source.later_Read r.r buf.length)
        (readLoop_later (r.r.script.length + 2) (r.r.Read buf.length).1
          ((r.r.Read buf.length).2.1 ++ buf.drop (r.r.Read buf.length).2.1.length)
          (r.r.Read buf.length).2.1.length)
      split_ifs with h3 h4
      · exact ⟨_, [], hl, Or.inl rfl⟩
      · exact ⟨_, [], hl, Or.inl rfl⟩
      · exact ⟨_, _, hl, Or.inr ⟨h4, rfl⟩⟩
    · simp only [if_neg h2]
      have hl := Source.later_Read r.r buf.length
      split_ifs with h3 h4
      · exact ⟨_, [], hl, Or.inl rfl⟩
      · exact ⟨_, [], hl, Or.inl rfl⟩
      · exact ⟨_, _, hl, Or.inr ⟨h4, rfl⟩⟩

theorem ReadBytes_later (r : Reader) (buf : List Nat) :
    Source.Later r.r (ReadBytes r buf).1.r := by
  obtain ⟨s1, cs, hl, h | ⟨_, h⟩⟩ := ReadBytes_shape r buf <;> rw [h] <;> exact hl

theorem ReadBytes_inv {r : Reader} (h : r.Inv) (buf : List Nat) : (ReadBytes r buf).1.Inv := by
  obtain ⟨hp, hb, hz⟩ := h
  obtain ⟨s1, cs, hl, h | ⟨_, h⟩⟩ := ReadBytes_shape r buf <;> rw [h]
  · exact ⟨hp, hb, hz⟩
  · have hq : (2 ^ 32 + 8 - r.p) % 2 ^ 32 = 8 - r.p := by omega
    rw [hq]
    have hc := mergeLoop_carry r.p (8 - r.p) r.b cs hb hz
    exact ⟨hp, hc.1, hc.2⟩

/-- A non-empty buffer and a source that holds too few bytes: `io.EOF`. -/
theorem ReadBytes_eof (r : Reader) (buf : List Nat) (hs : r.r.NoFail) (hm : 1 ≤ buf.length)
    (hd : r.r.data.length < buf.length) : (ReadBytes r buf).2.2 = some .EOF := by
  have hsp := (readLoop_spec (r.r.script.length + 3) r.r buf 0 hs (by omega)
    (Or.inr (Or.inr (by omega)))).2 (by omega)
  rw [ReadBytes_eq r buf hm, if_pos (by rw [hsp]; simp)]
  exact hsp

/-- A non-empty buffer and a source that holds enough bytes: the buffer is
filled, merged with the pending bits, and exactly `len(buf)` bytes leave the
source. -/
theorem ReadBytes_ok {r : Reader} (buf : List Nat) (hi : r.Inv) (hs : r.r.NoFail)
    (hm : 1 ≤ buf.length) (hd : buf.length ≤ r.r.data.length) :
    (ReadBytes r buf).2.2 = none ∧ (ReadBytes r buf).1.p = r.p ∧
      (ReadBytes r buf).1.r.data = r.r.data.drop buf.length ∧
      (ReadBytes r buf).2.1.length = buf.length ∧
      (r.r.Bytes → (∀ y ∈ (ReadBytes r buf).2.1, y < 256) ∧
        r.stream = (ReadBytes r buf).2.1.flatMap byteBits ++ (ReadBytes r buf).1.stream) := by
  obtain ⟨hp, hb, hz⟩ := hi
  obtain ⟨a1, a2⟩ := (readLoop_spec (r.r.script.length + 3) r.r buf 0 hs (by omega)
    (Or.inr (Or.inr (by omega)))).1 (by omega)
  simp only [List.take_zero, List.nil_append, Nat.sub_zero] at a1 a2
  have a3 : (readLoop (r.r.script.length + 3) r.r buf 0).2.1 = r.r.data.take buf.length := by
    rw [a1]
  have a4 : (readLoop (r.r.script.length + 3) r.r buf 0).2.2.2 = none := by rw [a1]
  have hlen : (r.r.data.take buf.length).length = buf.length := by
    rw [List.length_take]; omega
  rw [ReadBytes_eq r buf hm, if_neg (by rw [a4]; simp), a3]
  by_cases hp0 : r.p = 0
  · rw [if_pos hp0]
    refine ⟨rfl, rfl, a2, hlen, fun hbytes => ⟨fun y hy => hbytes y (List.mem_of_mem_take hy), ?_⟩⟩
    simp only [rstream_eq, hp0, List.take_zero, List.nil_append, a2]
    rw [← List.flatMap_append, List.take_append_drop]
  · rw [if_neg hp0]
    have hq : (2 ^ 32 + 8 - r.p) % 2 ^ 32 = 8 - r.p := by omega
    rw [hq]
    refine ⟨rfl, rfl, a2, ?_, fun hbytes => ?_⟩
    · rw [mergeLoop_length, hlen]
    · obtain ⟨m1, m3⟩ := mergeLoop_spec r.p r.b (r.r.data.take buf.length) (by omega) hz
        (fun c hc => hbytes c (List.mem_of_mem_take hc))
      refine ⟨m3 hb, ?_⟩
      simp only [rstream_eq, a2]
      rw [← List.append_assoc, m1, List.append_assoc, ← List.flatMap_append,
        List.take_append_drop]

end Reader

end Bitstream


namespace Bitstream

/-! ## Accumulating a 64-bit value -/

theorem shl64_one_or (u : Nat) (bit : Bool) (hu : u < 2 ^ 63) :
    (if bit then shl 64 u 1 ||| 1 else shl 64 u 1) = 2 * u + bit.toNat := by
  have h1 : shl 64 u 1 = 2 * u := by
    rw [shl_eq, Nat.shiftLeft_eq, Nat.mod_eq_of_lt (by omega)]
    omega
  rw [h1]
  cases bit
  · simp
  · have := Nat.mul_add_lt_is_or (i := 1) (b := 1) (by decide) u
    simp only [pow_one] at this
    simp [← this]

theorem shl64_byte_or (u c : Nat) (hu : u < 2 ^ 56) (hc : c < 256) :
    shl 64 u 8 ||| c = 256 * u + c := by
  have h1 : shl 64 u 8 = 2 ^ 8 * u := by
    rw [shl_eq, Nat.shiftLeft_eq, Nat.mod_eq_of_lt (by omega)]
    omega
  rw [h1, ← Nat.mul_add_lt_is_or (i := 8) (b := c) (by omega) u]

theorem foldl_bytes_val (out : List Nat) (u j : Nat) (hu : u < 2 ^ j)
    (hj : j + 8 * out.length ≤ 64) (hout : ∀ c ∈ out, c < 256) :
    out.foldl (fun u c => shl 64 u 8 ||| c) u
      = u * 2 ^ (8 * out.length) + bitsVal (out.flatMap byteBits) := by
  induction out generalizing u j with
  | nil => simp [bitsVal_nil]
  | cons c rest ih =>
    have hc : c < 256 := hout c (by simp)
    simp only [List.length_cons] at hj
    have hu56 : u < 2 ^ 56 :=
      lt_of_lt_of_le hu (Nat.pow_le_pow_right (by decide) (by omega))
    have hu1 : 256 * u + c < 2 ^ (j + 8) := by
      rw [pow_add]
      norm_num
      omega
    rw [List.foldl_cons, shl64_byte_or u c hu56 hc,
      ih (256 * u + c) (j + 8) hu1 (by omega) (fun y hy => hout y (by simp [hy]))]
    rw [List.flatMap_cons, bitsVal_append, bitsVal_byteBits hc]
    have hlen : (rest.flatMap byteBits).length = 8 * rest.length := by
      rw [List.length_flatMap]
      clear ih hout hj
      induction rest with
      | nil => rfl
      | cons a l ih => simp [ih]; omega
    rw [hlen, List.length_cons]
    have : 2 ^ (8 * (rest.length + 1)) = 256 * 2 ^ (8 * rest.length) := by
      rw [Nat.mul_add, pow_add]
      norm_num
      ring
    rw [this]
    ring

namespace Reader

/-! ## The bit loop of `ReadBits` -/

theorem readBitsTail_inv (k : Nat) (r : Reader) (u : Nat) (h : r.Inv) :
    (readBitsTail k r u).1.Inv := by
  induction k generalizing r u with
  | zero => exact h
  | succ k ih =>
    unfold readBitsTail
    simp only []
    split
    · exact ReadBit_inv h
    · exact ih _ _ (ReadBit_inv h)

theorem readBitsTail_later (k : Nat) (r : Reader) (u : Nat) :
    Source.Later r.r (readBitsTail k r u).1.r := by
  induction k generalizing r u with
  | zero => exact Source.later_refl _
  | succ k ih =>
    unfold readBitsTail
    simp only []
    split
    · exact ReadBit_later r
    · exact Source.later_trans (ReadBit_later r) (ih _ _)

/-- With `k` bits left in the stream the bit loop reads them, most significant
first, onto the accumulator. -/
theorem readBitsTail_ok (k : Nat) (r : Reader) (u j : Nat) (s t : List Bool) (hi : r.Inv)
    (hs : r.r.Steady) (h : r.stream = s ++ t) (hk : s.length = k) (hu : u < 2 ^ j)
    (hj : j + k ≤ 64) :
    (readBitsTail k r u).2 = (u * 2 ^ k + bitsVal s, none) ∧ (readBitsTail k r u).1.stream = t := by
  induction k generalizing r u j s with
  | zero =>
    have hs0 : s = [] := List.length_eq_zero.1 hk
    subst hs0
    simp [readBitsTail, bitsVal_nil]
    exact h
  | succ k ih =>
    cases s with
    | nil => simp at hk
    | cons bit s1 =>
      simp only [List.length_cons, Nat.add_right_cancel_iff] at hk
      obtain ⟨e1, e2⟩ := ReadBit_cons hi hs (by rw [h]; rfl)
      have e3 : (ReadBit r).2.1 = bit := by rw [e1]
      have e4 : (ReadBit r).2.2 = none := by rw [e1]
      unfold readBitsTail
      simp only []
      rw [if_neg (by rw [e4]; simp), e3]
      have hu63 : u < 2 ^ 63 := lt_of_lt_of_le hu (Nat.pow_le_pow_right (by decide) (by omega))
      rw [shl64_one_or u bit hu63]
      have hu1 : 2 * u + bit.toNat < 2 ^ (j + 1) := by
        have := Bool.toNat_le bit
        rw [pow_succ]
        omega
      obtain ⟨i1, i2⟩ := ih (ReadBit r).1 (2 * u + bit.toNat) (j + 1) s1 (ReadBit_inv hi)
        (Source.Later.keepsSteady (ReadBit_later r) hs) e2 hk hu1 (by omega)
      refine ⟨?_, i2⟩
      rw [i1, bitsVal_cons, hk]
      simp only [Prod.mk.injEq, and_true]
      rw [pow_succ]
      ring

/-- With fewer than `k` bits left in the stream the bit loop reports `io.EOF`
and the value 0. -/
theorem readBitsTail_eof (k : Nat) (r : Reader) (u : Nat) (hi : r.Inv) (hs : r.r.Steady)
    (h : r.stream.length < k) : (readBitsTail k r u).2 = (0, some .EOF) := by
  induction k generalizing r u with
  | zero => omega
  | succ k ih =>
    unfold readBitsTail
    simp only []
    cases hst : r.stream with
    | nil =>
      obtain ⟨e1, e2⟩ := ReadBit_nil hi hs hst
      have e4 : (ReadBit r).2.2 = some .EOF := by rw [e1]
      rw [if_pos (by rw [e4]; simp), e4]
    | cons bit t =>
      obtain ⟨e1, e2⟩ := ReadBit_cons hi hs hst
      have e4 : (ReadBit r).2.2 = none := by rw [e1]
      rw [if_neg (by rw [e4]; simp)]
      rw [hst] at h
      simp only [List.length_cons] at h
      exact ih _ _ (ReadBit_inv hi) (Source.Later.keepsSteady (ReadBit_later r) hs)
        (by rw [e2]; omega)

end Reader

end Bitstream


namespace Bitstream

theorem length_flatMap_byteBits (l : List Nat) : (l.flatMap byteBits).length = 8 * l.length := by
  rw [List.length_flatMap]
  induction l with
  | nil => rfl
  | cons a l ih => simp [ih]; omega

namespace Reader

/-! ## `ReadBits` -/

theorem ReadBits_inv {r : Reader} (h : r.Inv) {n : Nat} {res : Reader × Nat × Option GoError}
    (hres : ReadBits r n = some res) : res.1.Inv := by
  unfold ReadBits at hres
  simp only [] at hres
  split_ifs at hres with h1 h2 h3
  · injection hres with hres
    subst hres
    exact ReadBytes_inv h _
  · injection hres with hres
    subst hres
    exact readBitsTail_inv _ _ _ (ReadBytes_inv h _)
  · injection hres with hres
    subst hres
    exact readBitsTail_inv _ _ _ h

theorem ReadBits_later {r : Reader} {n : Nat} {res : Reader × Nat × Option GoError}
    (hres : ReadBits r n = some res) : Source.Later r.r res.1.r := by
  unfold ReadBits at hres
  simp only [] at hres
  split_ifs at hres with h1 h2 h3
  · injection hres with hres
    subst hres
    exact ReadBytes_later r _
  · injection hres with hres
    subst hres
    exact Source.later_trans (ReadBytes_later r _) (readBitsTail_later _ _ _)
  · injection hres with hres
    subst hres
    exact readBitsTail_later _ _ _

/-- With `n ≤ 64` bits left in the stream, `ReadBits(n)` returns their value
without error and leaves the rest of the stream. -/
theorem ReadBits_ok {r : Reader} (hi : r.Inv) (hs : r.r.Steady) (hb : r.r.Bytes) {n : Nat}
    (hn : n ≤ 64) {s t : List Bool} (h : r.stream = s ++ t) (hlen : s.length = n) :
    ∃ r1, ReadBits r n = some (r1, bitsVal s, none) ∧ r1.stream = t := by
  have hstream := length_rstream hi
  rw [h, List.length_append, hlen] at hstream
  have hp := hi.1
  unfold ReadBits
  simp only []
  by_cases hl : n / 8 > 0
  · rw [if_pos hl, if_neg (by omega)]
    have hbuf : (List.replicate (n / 8) 0).length = n / 8 := List.length_replicate _ _
    obtain ⟨a1, a2, a3, a4, a5⟩ := ReadBytes_ok (List.replicate (n / 8) 0) hi hs.toNoFail
      (by rw [hbuf]; omega) (by rw [hbuf]; omega)
    obtain ⟨a6, a7⟩ := a5 hb
    rw [hbuf] at a3 a4
    rw [if_neg (by rw [a1]; simp)]
    -- split the requested bits into the whole bytes and the tail
    have hfl : ((ReadBytes r (List.replicate (n / 8) 0)).2.1.flatMap byteBits).length
        = 8 * (n / 8) := by rw [length_flatMap_byteBits, a4]
    rw [h] at a7
    have hs1 : s = s.take (8 * (n / 8)) ++ s.drop (8 * (n / 8)) :=
      (List.take_append_drop _ _).symm
    rw [hs1, List.append_assoc] at a7
    obtain ⟨b1, b2⟩ := List.append_inj a7 (by rw [hfl, List.length_take]; omega)
    have hu : (ReadBytes r (List.replicate (n / 8) 0)).2.1.foldl (fun u c => shl 64 u 8 ||| c) 0
        = bitsVal (s.take (8 * (n / 8))) := by
      rw [foldl_bytes_val _ 0 0 (by norm_num) (by rw [a4]; omega) a6, b1]
      simp
    obtain ⟨c1, c2⟩ := readBitsTail_ok (n - n / 8 * 8) (ReadBytes r (List.replicate (n / 8) 0)).1
      (bitsVal (s.take (8 * (n / 8)))) (8 * (n / 8)) (s.drop (8 * (n / 8))) t
      (ReadBytes_inv hi _) (Source.Later.keepsSteady (ReadBytes_later r _) hs) b2.symm
      (by rw [List.length_drop]; omega)
      (by
        have := bitsVal_lt (s.take (8 * (n / 8)))
        rw [List.length_take] at this
        have hmin : min (8 * (n / 8)) s.length = 8 * (n / 8) := by omega
        rw [hmin] at this
        exact this)
      (by omega)
    rw [hu]
    refine ⟨(readBitsTail (n - n / 8 * 8) (ReadBytes r (List.replicate (n / 8) 0)).1
      (bitsVal (s.take (8 * (n / 8))))).1, ?_, c2⟩
    have hval : bitsVal s = bitsVal (s.take (8 * (n / 8))) * 2 ^ (n - n / 8 * 8)
        + bitsVal (s.drop (8 * (n / 8))) := by
      conv_lhs => rw [hs1]
      rw [bitsVal_append, List.length_drop]
      congr 3
      omega
    rw [hval, ← c1]
  · rw [if_neg hl]
    obtain ⟨c1, c2⟩ := readBitsTail_ok n r 0 0 s t hi hs h hlen (by norm_num) (by omega)
    refine ⟨(readBitsTail n r 0).1, ?_, c2⟩
    have : (readBitsTail n r 0).2 = (bitsVal s, none) := by
      rw [c1]
      simp
    rw [← this]

/-- With fewer than `n` bits left in the stream, `ReadBits(n)` reports
`io.EOF` and the value 0. -/
theorem ReadBits_eof {r : Reader} (hi : r.Inv) (hs : r.r.Steady) {n : Nat}
    (hn : n ≤ 64) (h : r.stream.length < n) :
    ∃ r1, ReadBits r n = some (r1, 0, some .EOF) := by
  have hstream := length_rstream hi
  have hp := hi.1
  unfold ReadBits
  simp only []
  by_cases hl : n / 8 > 0
  · rw [if_pos hl, if_neg (by omega)]
    have hbuf : (List.replicate (n / 8) 0).length = n / 8 := List.length_replicate _ _
    by_cases hd : n / 8 ≤ r.r.data.length
    · obtain ⟨a1, a2, a3, a4, a5⟩ := ReadBytes_ok (List.replicate (n / 8) 0) hi hs.toNoFail
        (by rw [hbuf]; omega) (by rw [hbuf]; omega)
      rw [hbuf] at a3
      rw [if_neg (by rw [a1]; simp)]
      have hi1 := ReadBytes_inv hi (List.replicate (n / 8) 0)
      have hlen1 := length_rstream hi1
      rw [a2, a3, List.length_drop] at hlen1
      have c1 := readBitsTail_eof (n - n / 8 * 8) (ReadBytes r (List.replicate (n / 8) 0)).1
        ((ReadBytes r (List.replicate (n / 8) 0)).2.1.foldl (fun u c => shl 64 u 8 ||| c) 0)
        hi1 (Source.Later.keepsSteady (ReadBytes_later r _) hs) (by omega)
      exact ⟨_, by rw [← c1]⟩
    · have a1 := ReadBytes_eof r (List.replicate (n / 8) 0) hs.toNoFail
        (by rw [hbuf]; omega) (by rw [hbuf]; omega)
      rw [if_pos (by rw [a1]; simp), a1]
      exact ⟨_, rfl⟩
  · rw [if_neg hl]
    have c1 := readBitsTail_eof n r 0 hi hs h
    exact ⟨_, by rw [← c1]⟩

/-! ## `ReadByte` -/

theorem ReadByte_later (r : Reader) : Source.Later r.r (ReadByte r).1.r := by
  unfold ReadByte
  simp only []
  split_ifs <;> exact Source.later_Read _ _

theorem ReadByte_inv {r : Reader} (h : r.Inv) : (ReadByte r).1.Inv := by
  obtain ⟨hp, hb, hz⟩ := h
  unfold ReadByte
  simp only []
  split_ifs
  · exact ⟨hp, hb, hz⟩
  · exact ⟨hp, hb, hz⟩
  · have hq : (2 ^ 32 + 8 - r.p) % 2 ^ 32 = 8 - r.p := by omega
    rw [hq]
    exact ⟨hp, shl8_lt _ _, shl_low_zero _ _⟩

/-- On an empty source that never fails on its own, `ReadByte` reports
`io.EOF`. -/
theorem ReadByte_eof {r : Reader} (hs : r.r.NoFail) (hd : r.r.data = []) :
    (ReadByte r).2 = (0, some .EOF) := by
  obtain ⟨e1, e2⟩ := Source.Read_empty hs hd 1
  have e3 : (r.r.Read 1).2.1 = [] := by rw [e1]
  have e4 : (r.r.Read 1).2.2 = some .EOF := by rw [e1]
  unfold ReadByte
  simp only [e3, e4]
  simp

/-! ## Reachable states -/

theorem rstep_inv {r r1 : Reader} {op : ROp} (h : r.Inv) (hs : step r op = some r1) :
    r1.Inv ∧ Source.Later r.r r1.r := by
  cases op with
  | ReadBit =>
    injection hs with hs; subst hs
    exact ⟨ReadBit_inv h, ReadBit_later r⟩
  | ReadByte =>
    injection hs with hs; subst hs
    exact ⟨ReadByte_inv h, ReadByte_later r⟩
  | ReadBytes buf =>
    injection hs with hs; subst hs
    exact ⟨ReadBytes_inv h buf, ReadBytes_later r buf⟩
  | ReadBits n =>
    simp only [step, Option.map_eq_some'] at hs
    obtain ⟨res, hres, rfl⟩ := hs
    exact ⟨ReadBits_inv h hres, ReadBits_later hres⟩

theorem rrun_inv {r r1 : Reader} {ops : List ROp} (h : r.Inv) (hr : run r ops = some r1) :
    r1.Inv ∧ Source.Later r.r r1.r := by
  induction ops generalizing r with
  | nil =>
    injection hr with hr; subst hr
    exact ⟨h, Source.later_refl _⟩
  | cons op ops ih =>
    unfold run at hr
    split at hr
    · rename_i r2 h2
      obtain ⟨i2, l2⟩ := rstep_inv h h2
      obtain ⟨i3, l3⟩ := ih i2 hr
      exact ⟨i3, Source.later_trans l2 l3⟩
    · exact Option.noConfusion hr

theorem inv_NewReader (src : Source) : (NewReader src).Inv :=
  ⟨by simp [NewReader], by simp [NewReader], by simp [NewReader]⟩

/-- Every state reachable from `NewReader(src)` satisfies the invariant, and
its source is `src` after some reads. -/
theorem Reachable.readerInv {src : Source} {r : Reader} (h : Reachable (NewReader src) r) :
    r.Inv ∧ Source.Later src r.r := by
  obtain ⟨ops, hops⟩ := h
  exact rrun_inv (inv_NewReader src) hops

end Reader

end Bitstream


namespace Bitstream

theorem flatMap_byteBits_inj {a b : List Nat} (ha : ∀ x ∈ a, x < 256) (hb : ∀ x ∈ b, x < 256)
    (h : a.flatMap byteBits = b.flatMap byteBits) : a = b := by
  induction a generalizing b with
  | nil =>
    have hl := congrArg List.length h
    rw [length_flatMap_byteBits, length_flatMap_byteBits] at hl
    simp only [List.length_nil] at hl
    exact (List.length_eq_zero.1 (by omega)).symm
  | cons x a ih =>
    cases b with
    | nil =>
      have hl := congrArg List.length h
      rw [length_flatMap_byteBits, length_flatMap_byteBits] at hl
      simp only [List.length_cons, List.length_nil] at hl
      omega
    | cons y b =>
      simp only [List.flatMap_cons] at h
      obtain ⟨h1, h2⟩ := List.append_inj h (by simp)
      rw [byteBits_inj (ha x (by simp)) (hb y (by simp)) h1,
        ih (fun z hz => ha z (by simp [hz])) (fun z hz => hb z (by simp [hz])) h2]

namespace Reader

theorem ReadBytes_status (r : Reader) (buf : List Nat) (hm : 1 ≤ buf.length) :
    (ReadBytes r buf).2.2 = (readLoop (r.r.script.length + 3) r.r buf 0).2.2.2 ∧
      (ReadBytes r buf).1.r = (readLoop (r.r.script.length + 3) r.r buf 0).1 ∧
      ((ReadBytes r buf).2.2 = none →
        (ReadBytes r buf).2.1.length = (readLoop (r.r.script.length + 3) r.r buf 0).2.1.length) := by
  rw [ReadBytes_eq r buf hm]
  split_ifs with h1 h2
  · exact ⟨rfl, rfl, fun _ => rfl⟩
  · refine ⟨?_, rfl, fun _ => rfl⟩
    simp only [ne_eq, not_not] at h1
    exact h1.symm
  · refine ⟨?_, rfl, fun _ => mergeLoop_length _ _ _ _⟩
    simp only [ne_eq, not_not] at h1
    exact h1.symm

theorem readFields_ok (fields : List (Nat × Nat)) (r : Reader) (t : List Bool) (hi : r.Inv)
    (hs : r.r.Steady) (hb : r.r.Bytes) (hf : ∀ f ∈ fields, f.2 ≤ 64)
    (h : r.stream = fields.flatMap (fun f => msbBits f.1 f.2) ++ t) :
    readFields r (fields.map (fun f => f.2))
      = fields.map (fun f => some (f.1 &&& (2 ^ f.2 - 1), none)) := by
  induction fields generalizing r with
  | nil => rfl
  | cons f rest ih =>
    rw [List.flatMap_cons, List.append_assoc] at h
    obtain ⟨r1, e1, e2⟩ := ReadBits_ok hi hs hb (hf f (by simp)) h (msbBits_length _ _)
    have hl := ReadBits_later e1
    simp only [List.map_cons, readFields, e1]
    rw [ih r1 (ReadBits_inv hi e1) (hl.keepsSteady hs) (hl.keepsBytes hb)
      (fun f1 h1 => hf f1 (by simp [h1])) e2, bitsVal_msbBits, Nat.and_pow_two_sub_one_eq_mod]

end Reader

namespace Writer

theorem foldl_WriteBits_extends (g : Nat → Nat) (fields : List (Nat × Nat)) (w : Writer)
    (hw : w.Inv) (hf : ∀ f ∈ fields, f.2 ≤ 64) :
    Extends w (fields.foldl (fun w f => WriteBits g w f.1 f.2) w)
      (fields.flatMap (fun f => msbBits f.1 f.2)) := by
  induction fields generalizing w with
  | nil => exact Extends.refl hw
  | cons f rest ih =>
    have h1 : Extends w (WriteBits g w f.1 f.2) (msbBits f.1 f.2) := by
      rw [WriteBits_eq_foldl g w f.1 f.2 hw (hf f (by simp))]
      exact foldl_WriteBit_extends g _ w hw
    have h2 := ih (WriteBits g w f.1 f.2) h1.isInv (fun f1 hf1 => hf f1 (by simp [hf1]))
    simpa using Extends.trans h1 h2

/-- What `Flush` hands to the sink of a writer whose stream is `s`: bytes whose
bits are `s` followed by the zero padding. -/
theorem Flush_bits (g : Nat → Nat) (w : Writer) (hw : w.Inv) (hh : w.HeldBytes) :
    (∀ x ∈ (Flush g w).delivered, x < 256) ∧
      (Flush g w).delivered.flatMap byteBits = w.stream ++ List.replicate (w.p % 8) false := by
  obtain ⟨he, hp⟩ := padLoop_extends g false w hw
  have hd : (Flush g w).delivered = (padLoop g false (w.p + 1) w).held := delivered_flush _
  rw [hd]
  refine ⟨he.heldBytes hh, ?_⟩
  have h2 := he.2.1
  rw [stream_eq, hp] at h2
  simpa using h2

end Writer

open Writer Reader

/-- C9 (`ReadBytes` fills the buffer or fails): for every reader state over a
source that holds a finite byte sequence, hands it out in chunks of any size
and reports `io.EOF` once empty, and every buffer of length `m ≥ 1`,
`ReadBytes(buf)` returns no error exactly when the source holds at least `m`
bytes; on success exactly `m` bytes have left the source and the buffer still
has `m` bytes, and a failure is `io.EOF`. -/
theorem ReadBytes_fills_or_fails (r : Reader) (buf : List Nat) (hs : r.r.NoFail)
    (hm : 1 ≤ buf.length) :
    ((ReadBytes r buf).2.2 = none ↔ buf.length ≤ r.r.data.length) ∧
    ((ReadBytes r buf).2.2 = none →
      (ReadBytes r buf).1.r.data = r.r.data.drop buf.length ∧
      (ReadBytes r buf).2.1.length = buf.length) ∧
    ((ReadBytes r buf).2.2 ≠ none → (ReadBytes r buf).2.2 = some .EOF) := by
  obtain ⟨e1, e2, e3⟩ := ReadBytes_status r buf hm
  obtain ⟨sA, sB⟩ := readLoop_spec (r.r.script.length + 3) r.r buf 0 hs (by omega)
    (Or.inr (Or.inr (by omega)))
  simp only [Nat.sub_zero, List.take_zero, List.nil_append] at sA sB
  by_cases hd : buf.length ≤ r.r.data.length
  · obtain ⟨a1, a2⟩ := sA hd
    have a4 : (readLoop (r.r.script.length + 3) r.r buf 0).2.2.2 = none := by rw [a1]
    have a3 : (readLoop (r.r.script.length + 3) r.r buf 0).2.1 = r.r.data.take buf.length := by
      rw [a1]
    have hok : (ReadBytes r buf).2.2 = none := by rw [e1, a4]
    refine ⟨⟨fun _ => hd, fun _ => hok⟩, fun _ => ⟨by rw [e2, a2], ?_⟩, fun h => absurd hok h⟩
    rw [e3 hok, a3, List.length_take]
    omega
  · have a4 := sB (by omega)
    have herr : (ReadBytes r buf).2.2 = some .EOF := by rw [e1, a4]
    refine ⟨⟨fun h => ?_, fun h => absurd h hd⟩, fun h => ?_, fun _ => herr⟩
    · rw [herr] at h
      exact Option.noConfusion h
    · rw [herr] at h
      exact Option.noConfusion h

/-- C10 (`ReadBits` fails exactly when the stream is too short): in every
state `r` reachable from `NewReader(src)`, where `src` holds a finite sequence
of bytes, hands out at least one byte per call and reports `io.EOF` once
empty, with `p` pending bits and `k` bytes left in the source, `ReadBits(n)`
for `n ≤ 64` returns no error exactly when `n ≤ p + 8 * k`; otherwise it
returns `io.EOF` and the value 0. -/
theorem ReadBits_fails_iff_short (src : Source) (r : Reader) (n : Nat) (hs : src.Steady)
    (hb : src.Bytes) (hr : Reachable (NewReader src) r) (hn : n ≤ 64) :
    ∃ r1 v e, ReadBits r n = some (r1, v, e) ∧
      (e = none ↔ n ≤ r.p + 8 * r.r.data.length) ∧
      (e ≠ none → e = some .EOF ∧ v = 0) := by
  obtain ⟨hi, hl⟩ := Reachable.readerInv hr
  have hlen := length_rstream hi
  by_cases hd : n ≤ r.p + 8 * r.r.data.length
  · obtain ⟨r1, e1, _⟩ := ReadBits_ok hi (hl.keepsSteady hs) (hl.keepsBytes hb) hn
      (List.take_append_drop n r.stream).symm (by rw [List.length_take]; omega)
    exact ⟨r1, _, none, e1, ⟨fun _ => hd, fun _ => rfl⟩, fun h => absurd rfl h⟩
  · obtain ⟨r1, e1⟩ := ReadBits_eof hi (hl.keepsSteady hs) hn (by omega)
    refine ⟨r1, 0, some .EOF, e1, ⟨fun h => Option.noConfusion h, fun h => absurd h hd⟩,
      fun _ => ⟨rfl, rfl⟩⟩

/-- C1 (round trip of n-bit fields): the fields `(v, n)` with every `n ≤ 64`
are written in order with `WriteBits(v, n)` on `NewWriter` over a sink that
never fails, `Flush` is called once, and `ReadBits(n)` is called in the same
order on `NewReader` over the bytes the sink received: every call returns no
error and the value `v & (2 ^ n - 1)`. -/
theorem roundtrip_fields (g : Nat → Nat) (fields : List (Nat × Nat))
    (hf : ∀ f ∈ fields, f.2 ≤ 64) :
    readFields
        (NewReader (Source.ofBytes
          (Flush g (fields.foldl (fun w f => WriteBits g w f.1 f.2)
            (NewWriter Sink.fresh))).delivered))
        (fields.map (fun f => f.2))
      = fields.map (fun f => some (f.1 &&& (2 ^ f.2 - 1), none)) := by
  have h0 : (NewWriter Sink.fresh).Inv := inv_NewWriterBuffer _ _ _
  have he := foldl_WriteBits_extends g fields (NewWriter Sink.fresh) h0 hf
  obtain ⟨hbytes, hbits⟩ := Flush_bits g _ he.isInv
    (he.heldBytes (heldBytes_NewWriterSize defaultBufferSize))
  rw [he.2.1] at hbits
  have hsteady : (NewReader (Source.ofBytes
      (Flush g (fields.foldl (fun w f => WriteBits g w f.1 f.2)
        (NewWriter Sink.fresh))).delivered)).r.Steady := by
    intro x hx
    simp [NewReader, Source.ofBytes] at hx
  refine readFields_ok fields _ (List.replicate
    ((fields.foldl (fun w f => WriteBits g w f.1 f.2) (NewWriter Sink.fresh)).p % 8) false)
    (inv_NewReader _) hsteady hbytes hf ?_
  rw [rstream_eq]
  simp only [NewReader, Source.ofBytes, List.take_zero, List.nil_append]
  rw [hbits]
  rfl

end Bitstream


namespace Bitstream

open Writer Reader

/-- C8 (mixed bit and byte-run round trip): for a non-empty byte sequence
`bs`, on `NewWriter` over a sink that never fails the calls `WriteOne`,
`WriteZero`, `Write(bs)`, `Flush` hand the sink exactly `len(bs) + 1` bytes;
on `NewReader` over those bytes `ReadBit` returns true, the next `ReadBit`
returns false, `ReadBytes` into a buffer of length `len(bs)` succeeds and
fills it with `bs`, and a further `ReadByte` returns `io.EOF`. -/
theorem mixed_roundtrip (g : Nat → Nat) (bs buf : List Nat) (hne : bs ≠ [])
    (hb : ∀ x ∈ bs, x < 256) (hbuf : buf.length = bs.length) :
    ∃ w r1 r2 r3,
      Write g (WriteZero g (WriteOne g (NewWriter Sink.fresh))) bs = .ok w ∧
      (Flush g w).delivered.length = bs.length + 1 ∧
      ReadBit (NewReader (Source.ofBytes (Flush g w).delivered)) = (r1, true, none) ∧
      ReadBit r1 = (r2, false, none) ∧
      ReadBytes r2 buf = (r3, bs, none) ∧
      (ReadByte r3).2 = (0, some .EOF) := by
  -- the writer side
  have h0 : (NewWriter Sink.fresh).Inv := inv_NewWriterBuffer _ _ _
  have hh0 : (NewWriter Sink.fresh).HeldBytes := heldBytes_NewWriterSize defaultBufferSize
  have e1 := WriteOne_extends g (NewWriter Sink.fresh) h0
  have e2 := WriteZero_extends g _ e1.isInv
  have hp2 : (WriteZero g (WriteOne g (NewWriter Sink.fresh))).p = 6 := rfl
  have hw := Write_unaligned g (WriteZero g (WriteOne g (NewWriter Sink.fresh))) bs
    (by rw [hp2]; decide)
  have e3 := foldl_WriteByte_extends g bs _ e2.isInv hb
  have hp3 := foldl_WriteByte_p g bs (WriteZero g (WriteOne g (NewWriter Sink.fresh)))
  rw [hp2] at hp3
  have e123 := Extends.trans (Extends.trans e1 e2) e3
  obtain ⟨hbytes, hbits⟩ := Flush_bits g _ e123.isInv (e123.heldBytes hh0)
  rw [e123.2.1, hp3] at hbits
  have hs0 : (NewWriter Sink.fresh).stream = [] := rfl
  rw [hs0] at hbits
  simp only [List.nil_append, List.singleton_append, List.cons_append] at hbits
  have hlenD := congrArg List.length hbits
  simp only [length_flatMap_byteBits, List.length_cons, List.length_append,
    List.length_replicate] at hlenD
  -- the reader side
  have hi0 := inv_NewReader (Source.ofBytes
    (Flush g (bs.foldl (WriteByte g) (WriteZero g (WriteOne g (NewWriter Sink.fresh))))).delivered)
  have hst0 : (NewReader (Source.ofBytes (Flush g (bs.foldl (WriteByte g)
      (WriteZero g (WriteOne g (NewWriter Sink.fresh))))).delivered)).r.Steady := by
    intro x hx
    simp [NewReader, Source.ofBytes] at hx
  have hstream0 : (NewReader (Source.ofBytes (Flush g (bs.foldl (WriteByte g)
      (WriteZero g (WriteOne g (NewWriter Sink.fresh))))).delivered)).stream
      = true :: false :: (bs.flatMap byteBits ++ List.replicate 6 false) := by
    rw [rstream_eq]
    simp only [NewReader, Source.ofBytes, List.take_zero, List.nil_append]
    exact hbits
  obtain ⟨b1, s1⟩ := ReadBit_cons hi0 hst0 hstream0
  have hi1 := ReadBit_inv hi0
  have hl1 := ReadBit_later (NewReader (Source.ofBytes (Flush g (bs.foldl (WriteByte g)
      (WriteZero g (WriteOne g (NewWriter Sink.fresh))))).delivered))
  obtain ⟨b2, s2⟩ := ReadBit_cons hi1 (hl1.keepsSteady hst0) s1
  have hi2 := ReadBit_inv hi1
  have hl2 := Source.later_trans hl1 (ReadBit_later _)
  have hst2 := hl2.keepsSteady hst0
  have hby2 := hl2.keepsBytes hbytes
  have hlen2 := length_rstream hi2
  rw [s2, List.length_append, length_flatMap_byteBits, List.length_replicate] at hlen2
  have hp7 := hi2.1
  have hbl : 1 ≤ bs.length := by
    cases bs with
    | nil => exact absurd rfl hne
    | cons a l => simp
  obtain ⟨a1, a2, a3, a4, a5⟩ := ReadBytes_ok buf hi2 hst2.toNoFail
    (by omega) (by omega)
  obtain ⟨a6, a7⟩ := a5 hby2
  rw [s2] at a7
  obtain ⟨c1, c2⟩ := List.append_inj a7
    (by rw [length_flatMap_byteBits, length_flatMap_byteBits, a4, hbuf])
  have hout := flatMap_byteBits_inj hb a6 c1
  have hd3 : (ReadBytes (ReadBit (ReadBit (NewReader (Source.ofBytes (Flush g (bs.foldl
      (WriteByte g) (WriteZero g (WriteOne g (NewWriter Sink.fresh))))).delivered))).1).1
      buf).1.r.data = [] := by
    rw [a3]
    exact List.drop_eq_nil_of_le (by omega)
  have hl3 := Source.later_trans hl2 (ReadBytes_later _ buf)
  refine ⟨_, _, _, _, hw, by omega, Prod.ext rfl b1, Prod.ext rfl b2,
    Prod.ext rfl (Prod.ext hout.symm a1), ReadByte_eof (hl3.keepsSteady hst0).toNoFail hd3⟩

end Bitstream


namespace Bitstream

namespace Writer

/-! ## The recorded error -/

/-- A property of the sink side and the recorded error that `push`, `flush`
and the aligned branch of `Write` keep is kept by every method. -/
theorem step_keeps (g : Nat → Nat) (P : Writer → Prop)
    (hbp : ∀ w b p, P w → P { w with b := b, p := p })
    (hpush : ∀ w x, P w → P (push g w x))
    (hflush : ∀ w, P w → P (flush w))
    (hwrite : ∀ w bs w1, P w → w.p = 8 → Write g w bs = .ok w1 → P w1)
    (w w1 : Writer) (op : WOp) (hw : P w) (h : step g w op = .ok w1) : P w1 := by
  have hZero : ∀ w, P w → P (WriteZero g w) := by
    intro w hw
    unfold WriteZero
    split
    · exact hbp w w.b (w.p - 1) hw
    · exact hbp _ 0 8 (hpush w w.b hw)
  have hOne : ∀ w, P w → P (WriteOne g w) := by
    intro w hw
    unfold WriteOne
    split
    · exact hbp w _ (w.p - 1) hw
    · exact hbp _ 0 8 (hpush w _ hw)
  have hBit : ∀ w bit, P w → P (WriteBit g w bit) := by
    intro w bit hw
    unfold WriteBit
    split
    · exact hOne w hw
    · exact hZero w hw
  have hByte : ∀ w x, P w → P (WriteByte g w x) := by
    intro w x hw
    have h1 := hbp _ (shl 8 x w.p) w.p (hpush w (w.b ||| x >>> ((8 + 65536 - w.p) % 65536)) hw)
    have h2 : WriteByte g w x = { push g w (w.b ||| x >>> ((8 + 65536 - w.p) % 65536)) with
        b := shl 8 x w.p, p := w.p } := by
      simp [WriteByte]
    rw [h2]
    exact h1
  have hBytes : ∀ (bs : List Nat) w, P w → P (bs.foldl (WriteByte g) w) := by
    intro bs
    induction bs with
    | nil => exact fun w hw => hw
    | cons x rest ih => exact fun w hw => ih _ (hByte w x hw)
  have hLoop1 : ∀ fuel w u n, P w → P (writeBitsBytes g fuel w u n).1 := by
    intro fuel
    induction fuel with
    | zero => exact fun w u n hw => hw
    | succ fuel ih =>
      intro w u n hw
      unfold writeBitsBytes
      split
      · exact ih _ _ _ (hByte w _ hw)
      · exact hw
  have hLoop2 : ∀ fuel w u n, P w → P (writeBitsTail g fuel w u n).1 := by
    intro fuel
    induction fuel with
    | zero => exact fun w u n hw => hw
    | succ fuel ih =>
      intro w u n hw
      unfold writeBitsTail
      split
      · refine ih _ _ _ ?_
        split
        · exact hZero w hw
        · exact hOne w hw
      · exact hw
  have hPad : ∀ ones fuel w, P w → P (padLoop g ones fuel w) := by
    intro ones fuel
    induction fuel with
    | zero => exact fun w hw => hw
    | succ fuel ih =>
      intro w hw
      unfold padLoop
      split
      · exact ih _ (hBit w ones hw)
      · exact hw
  cases op with
  | WriteZero => injection h with h; subst h; exact hZero w hw
  | WriteOne => injection h with h; subst h; exact hOne w hw
  | WriteBit bit => injection h with h; subst h; exact hBit w bit hw
  | WriteByte b => injection h with h; subst h; exact hByte w b hw
  | Write bs =>
    by_cases hp : w.p = 8
    · exact hwrite w bs w1 hw hp h
    · simp only [step] at h
      rw [Write_unaligned g w bs hp] at h
      injection h with h
      subst h
      exact hBytes bs w hw
  | WriteBits u n =>
    injection h with h; subst h
    unfold WriteBits
    exact hLoop2 _ _ _ _ (hLoop1 _ _ _ _ hw)
  | Flush => injection h with h; subst h; exact hflush _ (hPad false _ w hw)
  | FlushOnes => injection h with h; subst h; exact hflush _ (hPad true _ w hw)

theorem orElse_ne_none (x : Option GoError) {v : Option GoError} (hv : v ≠ none) :
    (x <|> v) ≠ none := by
  cases x with
  | none => simpa using hv
  | some a => simp

theorem orElse_script {v : Option GoError} {script : List (Option GoError)}
    (h : ∀ x ∈ script, x = none ∨ x = v) : (script.head?.join <|> v) = v := by
  cases script with
  | nil => simp
  | cons a rest =>
    rcases h a (by simp) with ha | ha
    · simp [ha]
    · subst ha
      cases a <;> simp

theorem errorIs_Write {v : Option GoError} {s : Sink} (bs : List Nat)
    (h : ∀ x ∈ s.script, x = none ∨ x = v) :
    ((s.Write bs).2 <|> v) = v ∧ ∀ x ∈ (s.Write bs).1.script, x = none ∨ x = v :=
  ⟨orElse_script h, fun x hx => h x (List.mem_of_mem_tail hx)⟩

/-- A recorded error stays recorded through every call. -/
theorem step_err_ne_none (g : Nat → Nat) (w w1 : Writer) (op : WOp) (hw : w.err ≠ none)
    (h : step g w op = .ok w1) : w1.err ≠ none := by
  refine step_keeps g (fun w => w.err ≠ none) (fun w b p hw => hw) ?_ ?_ ?_ w w1 op hw h
  · intro w x hw
    unfold push
    split
    · exact orElse_ne_none _ hw
    · simp only []
      split_ifs
      · exact hw
      · exact orElse_ne_none _ hw
      · exact hw
      · exact orElse_ne_none _ hw
  · intro w hw
    unfold flush
    split
    · exact hw
    · split_ifs
      · exact orElse_ne_none _ hw
      · exact hw
  · intro w bs w1 hw hp h
    unfold Write at h
    rw [if_pos hp] at h
    split at h
    · exact Except.noConfusion h
    · injection h with h
      subst h
      exact orElse_ne_none _ (orElse_ne_none _ hw)

/-- While the sink reports no error other than `v`, the recorded error stays
`v` through every call. -/
theorem step_errorIs (g : Nat → Nat) (v : Option GoError) (w w1 : Writer) (op : WOp)
    (hw : ErrorIs v w) (h : step g w op = .ok w1) : ErrorIs v w1 := by
  refine step_keeps g (ErrorIs v) (fun w b p hw => hw) ?_ ?_ ?_ w w1 op hw h
  · intro w x hw
    obtain ⟨he, hs⟩ := hw
    unfold push
    split
    · rename_i bw ho
      simp only [sinkScript, ho] at hs
      obtain ⟨a1, a2⟩ := errorIs_Write [x] hs
      exact ⟨by rw [he]; exact a1, a2⟩
    · rename_i s buf cap ho
      simp only [sinkScript, ho] at hs
      simp only []
      split_ifs
      · exact ⟨he, by simpa [sinkScript] using hs⟩
      · obtain ⟨a1, a2⟩ := errorIs_Write (buf ++ [x]) hs
        exact ⟨by rw [he]; exact a1, a2⟩
      · exact ⟨he, by simpa [sinkScript] using hs⟩
      · obtain ⟨a1, a2⟩ := errorIs_Write (buf ++ [x]) hs
        exact ⟨by rw [he]; exact a1, a2⟩
  · intro w hw
    obtain ⟨he, hs⟩ := hw
    unfold flush
    split
    · exact ⟨he, hs⟩
    · rename_i s buf cap ho
      simp only [sinkScript, ho] at hs
      split_ifs
      · obtain ⟨a1, a2⟩ := errorIs_Write buf hs
        exact ⟨by rw [he]; exact a1, a2⟩
      · exact ⟨he, by simpa [sinkScript, ho] using hs⟩
  · intro w bs w1 hw hp h
    obtain ⟨he, hs⟩ := hw
    unfold Write at h
    rw [if_pos hp] at h
    split at h
    · exact Except.noConfusion h
    · rename_i s buf cap ho
      injection h with h
      subst h
      simp only [sinkScript, ho] at hs
      by_cases hb : buf.length > 0
      · simp only [if_pos hb]
        obtain ⟨a1, a2⟩ := errorIs_Write buf hs
        obtain ⟨b1, b2⟩ := errorIs_Write bs a2
        refine ⟨?_, b2⟩
        show (((s.Write buf).1.Write bs).2 <|> ((s.Write buf).2 <|> w.err)) = v
        rw [he, a1, b1]
      · simp only [if_neg hb]
        obtain ⟨b1, b2⟩ := errorIs_Write bs hs
        refine ⟨?_, b2⟩
        show ((s.Write bs).2 <|> (none <|> w.err)) = v
        rw [he]
        simpa using b1

end Writer

end Bitstream


namespace Bitstream

namespace Writer

theorem run_err_ne_none (g : Nat → Nat) (ops : List WOp) (w w1 : Writer) (hw : w.err ≠ none)
    (h : run g w ops = .ok w1) : w1.err ≠ none := by
  induction ops generalizing w with
  | nil =>
    injection h with h; subst h
    exact hw
  | cons op ops ih =>
    unfold run at h
    split at h
    · rename_i w2 hs
      exact ih w2 (step_err_ne_none g w w2 op hw hs) h
    · exact Except.noConfusion h

theorem run_errorIs (g : Nat → Nat) (v : Option GoError) (ops : List WOp) (w w1 : Writer)
    (hw : ErrorIs v w) (h : run g w ops = .ok w1) : ErrorIs v w1 := by
  induction ops generalizing w with
  | nil =>
    injection h with h; subst h
    exact hw
  | cons op ops ih =>
    unfold run at h
    split at h
    · rename_i w2 hs
      exact ih w2 (step_errorIs g v w w2 op hw hs) h
    · exact Except.noConfusion h

end Writer

open Writer Reader

/-- C5 (alignment fast path), evaluated on the code: on `NewWriter` over a
sink that never fails, after `WriteByte(1)` the writer is byte-aligned with
the byte 1 in its buffer; `Write([2])` followed by `Flush` hands the sink the
bytes 1, 2, 1, while `WriteByte(2)` followed by `Flush` hands it 1, 2. The
aligned branch of `Write` writes the buffer out and does not empty it. -/
theorem Write_aligned_resends_buffer (g : Nat → Nat) :
    (WriteByte g (NewWriter Sink.fresh) 1).p = 8 ∧
    (WriteByte g (NewWriter Sink.fresh) 1).out = .buffered Sink.fresh [1] 128 ∧
    (∃ w1, Write g (WriteByte g (NewWriter Sink.fresh) 1) [2] = .ok w1 ∧
      (Flush g w1).delivered = [1, 2, 1]) ∧
    (Flush g (WriteByte g (WriteByte g (NewWriter Sink.fresh) 1) 2)).delivered = [1, 2] := by
  refine ⟨rfl, rfl, ⟨_, rfl, rfl⟩, ?_⟩
  simp [Flush, flush, padLoop, WriteByte, push, NewWriter, NewWriterSize, NewWriterBuffer,
    defaultBufferSize, delivered, Sink.fresh, Sink.Write, Sink.bytes, shl]

/-- C6 (`Flush` twice), evaluated on the code: on `NewWriter` over a sink that
never fails, after `WriteByte(1)` one `Flush` hands the sink the byte 1, and a
second `Flush` right after it hands the sink the byte 1 again: `flush` writes
the buffer out and does not empty it. -/
theorem Flush_twice_resends_buffer (g : Nat → Nat) :
    (Flush g (WriteByte g (NewWriter Sink.fresh) 1)).delivered = [1] ∧
    (Flush g (Flush g (WriteByte g (NewWriter Sink.fresh) 1))).delivered = [1, 1] ∧
    (Flush g (Flush g (WriteByte g (NewWriter Sink.fresh) 1))).sinkCalls = [[1], [1]] :=
  ⟨rfl, rfl, rfl⟩

/-- C7 as stated fails: over a byte sink whose first two calls fail with the
errors 1 and 2, `WriteByte(7)` records and returns error 1; after that
`WriteOne` still changes the free-bit count and the pending byte, and
`WriteByte(9)` still calls the sink and returns error 2. -/
theorem sticky_error_counterexample :
    (WriteByte id (NewByteWriter ⟨[], [some (.other 1), some (.other 2)]⟩) 7).err
      = some (.other 1) ∧
    (WriteOne id (WriteByte id (NewByteWriter ⟨[], [some (.other 1), some (.other 2)]⟩) 7)).p
      ≠ (WriteByte id (NewByteWriter ⟨[], [some (.other 1), some (.other 2)]⟩) 7).p ∧
    (WriteOne id (WriteByte id (NewByteWriter ⟨[], [some (.other 1), some (.other 2)]⟩) 7)).b
      ≠ (WriteByte id (NewByteWriter ⟨[], [some (.other 1), some (.other 2)]⟩) 7).b ∧
    (WriteByte id (WriteByte id (NewByteWriter ⟨[], [some (.other 1), some (.other 2)]⟩) 7)
      9).sinkCalls = [[7], [9]] ∧
    (WriteByte id (WriteByte id (NewByteWriter ⟨[], [some (.other 1), some (.other 2)]⟩) 7)
      9).err = some (.other 2) := by
  decide

/-- C7 (amended): once the writer has recorded an error `e`, after every
further sequence of calls that returns, the recorded error, which is what the
last call returned, is non-nil; it is `e` again when every error the sink
reports from then on is `e`, in particular when the sink reports none. -/
theorem sticky_error (g : Nat → Nat) (w w1 : Writer) (ops : List WOp) (e : GoError)
    (he : w.err = some e) (h : run g w ops = .ok w1) :
    w1.err ≠ none ∧ ((∀ x ∈ w.sinkScript, x = none ∨ x = some e) → w1.err = some e) :=
  ⟨run_err_ne_none g ops w w1 (by rw [he]; simp) h,
    fun hs => (run_errorIs g (some e) ops w w1 ⟨he, hs⟩ h).1⟩

theorem sticky_error_witness :
    (WriteByte id (NewByteWriter ⟨[], [some (.other 1)]⟩) 7).err = some (.other 1) ∧
    run id (WriteByte id (NewByteWriter ⟨[], [some (.other 1)]⟩) 7) [.WriteOne, .Flush]
      = .ok (Flush id (WriteOne id (WriteByte id (NewByteWriter ⟨[], [some (.other 1)]⟩) 7))) ∧
    (Flush id (WriteOne id (WriteByte id (NewByteWriter ⟨[], [some (.other 1)]⟩) 7))).err
      ≠ none ∧
    ((∀ x ∈ (WriteByte id (NewByteWriter ⟨[], [some (.other 1)]⟩) 7).sinkScript,
        x = none ∨ x = some (.other 1)) →
      (Flush id (WriteOne id (WriteByte id (NewByteWriter ⟨[], [some (.other 1)]⟩) 7))).err
        = some (.other 1)) :=
  ⟨rfl, rfl,
    (sticky_error id (WriteByte id (NewByteWriter ⟨[], [some (.other 1)]⟩) 7) _
      [.WriteOne, .Flush] (.other 1) rfl rfl).1,
    (sticky_error id (WriteByte id (NewByteWriter ⟨[], [some (.other 1)]⟩) 7) _
      [.WriteOne, .Flush] (.other 1) rfl rfl).2⟩

theorem roundtrip_fields_witness :
    (∀ f ∈ [(47, 6), (4660, 13), (5, 0), (1023, 3)], f.2 ≤ 64) ∧
    readFields
        (NewReader (Source.ofBytes
          (Flush id (([(47, 6), (4660, 13), (5, 0), (1023, 3)] : List (Nat × Nat)).foldl
            (fun w f => WriteBits id w f.1 f.2) (NewWriter Sink.fresh))).delivered))
        (([(47, 6), (4660, 13), (5, 0), (1023, 3)] : List (Nat × Nat)).map (fun f => f.2))
      = ([(47, 6), (4660, 13), (5, 0), (1023, 3)] : List (Nat × Nat)).map
          (fun f => some (f.1 &&& (2 ^ f.2 - 1), none)) :=
  ⟨by decide, roundtrip_fields id [(47, 6), (4660, 13), (5, 0), (1023, 3)] (by decide)⟩

theorem mixed_roundtrip_witness :
    ([97, 98] : List Nat) ≠ [] ∧ (∀ x ∈ ([97, 98] : List Nat), x < 256) ∧
    ([0, 0] : List Nat).length = ([97, 98] : List Nat).length ∧
    ∃ w r1 r2 r3,
      Write id (WriteZero id (WriteOne id (NewWriter Sink.fresh))) [97, 98] = .ok w ∧
      (Flush id w).delivered.length = ([97, 98] : List Nat).length + 1 ∧
      ReadBit (NewReader (Source.ofBytes (Flush id w).delivered)) = (r1, true, none) ∧
      ReadBit r1 = (r2, false, none) ∧
      ReadBytes r2 [0, 0] = (r3, [97, 98], none) ∧
      (ReadByte r3).2 = (0, some .EOF) :=
  ⟨by decide, by decide, by decide,
    mixed_roundtrip id [97, 98] [0, 0] (by decide) (by decide) (by decide)⟩

theorem ReadBytes_fills_or_fails_witness :
    (NewReader ⟨[1, 2, 3], [.chunk 1, .chunk 0]⟩).r.NoFail ∧ 1 ≤ ([0, 0] : List Nat).length ∧
    (((ReadBytes (NewReader ⟨[1, 2, 3], [.chunk 1, .chunk 0]⟩) [0, 0]).2.2 = none ↔
        ([0, 0] : List Nat).length
          ≤ (NewReader ⟨[1, 2, 3], [.chunk 1, .chunk 0]⟩).r.data.length) ∧
      ((ReadBytes (NewReader ⟨[1, 2, 3], [.chunk 1, .chunk 0]⟩) [0, 0]).2.2 = none →
        (ReadBytes (NewReader ⟨[1, 2, 3], [.chunk 1, .chunk 0]⟩) [0, 0]).1.r.data
            = (NewReader ⟨[1, 2, 3], [.chunk 1, .chunk 0]⟩).r.data.drop
              ([0, 0] : List Nat).length ∧
          (ReadBytes (NewReader ⟨[1, 2, 3], [.chunk 1, .chunk 0]⟩) [0, 0]).2.1.length
            = ([0, 0] : List Nat).length) ∧
      ((ReadBytes (NewReader ⟨[1, 2, 3], [.chunk 1, .chunk 0]⟩) [0, 0]).2.2 ≠ none →
        (ReadBytes (NewReader ⟨[1, 2, 3], [.chunk 1, .chunk 0]⟩) [0, 0]).2.2 = some .EOF)) :=
  ⟨by
      intro x hx
      simp only [NewReader, List.mem_cons, List.mem_singleton, List.not_mem_nil, or_false] at hx
      rcases hx with rfl | rfl
      · exact ⟨1, rfl⟩
      · exact ⟨0, rfl⟩,
    by decide,
    ReadBytes_fills_or_fails (NewReader ⟨[1, 2, 3], [.chunk 1, .chunk 0]⟩) [0, 0]
      (by
        intro x hx
        simp only [NewReader, List.mem_cons, List.mem_singleton, List.not_mem_nil, or_false] at hx
        rcases hx with rfl | rfl
        · exact ⟨1, rfl⟩
        · exact ⟨0, rfl⟩)
      (by decide)⟩

theorem ReadBits_fails_iff_short_witness :
    (Source.ofBytes [165, 90]).Steady ∧ (Source.ofBytes [165, 90]).Bytes ∧
    Reachable (NewReader (Source.ofBytes [165, 90]))
      (ReadBit (NewReader (Source.ofBytes [165, 90]))).1 ∧
    12 ≤ 64 ∧
    ∃ r1 v e, ReadBits (ReadBit (NewReader (Source.ofBytes [165, 90]))).1 12 = some (r1, v, e) ∧
      (e = none ↔ 12 ≤ (ReadBit (NewReader (Source.ofBytes [165, 90]))).1.p
        + 8 * (ReadBit (NewReader (Source.ofBytes [165, 90]))).1.r.data.length) ∧
      (e ≠ none → e = some .EOF ∧ v = 0) :=
  ⟨by intro x hx; simp [Source.ofBytes] at hx,
    by unfold Source.Bytes; decide,
    ⟨[.ReadBit], rfl⟩,
    by decide,
    ReadBits_fails_iff_short (Source.ofBytes [165, 90]) _ 12
      (by intro x hx; simp [Source.ofBytes] at hx) (by unfold Source.Bytes; decide)
      ⟨[.ReadBit], rfl⟩ (by decide)⟩

end Bitstream


namespace Bitstream

/-! ## The fuel of the loops is never used up

Each loop of the source is a recursion on a fuel argument. These lemmas show,
for every input, that the loop stops because its own exit condition holds. -/

namespace Writer

theorem padLoop_exits (g : Nat → Nat) (ones : Bool) (fuel : Nat) (w : Writer)
    (hf : w.p = 8 ∨ (w.p < 8 ∧ w.p ≤ fuel ∧ 1 ≤ fuel) ∨ (8 < w.p ∧ w.p - 8 ≤ fuel)) :
    (padLoop g ones fuel w).p = 8 := by
  induction fuel generalizing w with
  | zero =>
    have h8 : w.p = 8 := by omega
    simpa [padLoop] using h8
  | succ fuel ih =>
    unfold padLoop
    split
    · rename_i hp
      apply ih
      rw [WriteBit_p]
      split <;> omega
    · rename_i hp
      simpa using hp

/-- `Flush` and `FlushOnes` leave every writer byte-aligned. -/
theorem padLoop_aligned (g : Nat → Nat) (ones : Bool) (w : Writer) :
    (padLoop g ones (w.p + 1) w).p = 8 :=
  padLoop_exits g ones (w.p + 1) w (by omega)

theorem writeBitsBytes_exits (g : Nat → Nat) (fuel : Nat) (w : Writer) (u n : Nat)
    (hf : n / 8 ≤ fuel) : (writeBitsBytes g fuel w u n).2.2 < 8 := by
  induction fuel generalizing w u n with
  | zero =>
    simp only [writeBitsBytes]
    omega
  | succ fuel ih =>
    unfold writeBitsBytes
    split
    · exact ih _ _ _ (by omega)
    · simp only []
      omega

theorem writeBitsTail_exits (g : Nat → Nat) (fuel : Nat) (w : Writer) (u n : Nat)
    (hf : n ≤ fuel) : (writeBitsTail g fuel w u n).2.2 = 0 := by
  induction fuel generalizing w u n with
  | zero =>
    simp only [writeBitsTail]
    omega
  | succ fuel ih =>
    unfold writeBitsTail
    split
    · exact ih _ _ _ (by omega)
    · simp only []
      omega

/-- Both loops of `WriteBits(u, n)` run until their counter is exhausted, for
every `n`. -/
theorem WriteBits_loops_exit (g : Nat → Nat) (w : Writer) (u n : Nat) :
    (writeBitsBytes g n w (shl 64 u ((2 ^ 64 + 64 - n) % 2 ^ 64)) n).2.2 < 8 ∧
    (writeBitsTail g (writeBitsBytes g n w (shl 64 u ((2 ^ 64 + 64 - n) % 2 ^ 64)) n).2.2
      (writeBitsBytes g n w (shl 64 u ((2 ^ 64 + 64 - n) % 2 ^ 64)) n).1
      (writeBitsBytes g n w (shl 64 u ((2 ^ 64 + 64 - n) % 2 ^ 64)) n).2.1
      (writeBitsBytes g n w (shl 64 u ((2 ^ 64 + 64 - n) % 2 ^ 64)) n).2.2).2.2 = 0 :=
  ⟨writeBitsBytes_exits g n w _ n (Nat.div_le_self n 8),
    writeBitsTail_exits g _ _ _ _ (le_refl _)⟩

end Writer

namespace Source

theorem length_data_Read (s : Source) (len : Nat) (h : (s.Read len).2.2 = none) :
    (s.Read len).2.1.length ≤ len ∧
      (s.Read len).1.data.length + (s.Read len).2.1.length = s.data.length ∧
      (s.script = [] → (s.Read len).2.1.length = min len s.data.length) := by
  unfold Read at h ⊢
  split at h
  · exact Option.noConfusion h
  · rename_i k rest hs
    split_ifs at h ⊢ with hd
    refine ⟨?_, ?_, ?_⟩
    · simp only [List.length_take]
      omega
    · simp only [List.length_take, List.length_drop]
      omega
    · intro hnil
      rw [hnil] at hs
      exact List.noConfusion hs
  · rename_i hs
    split_ifs at h ⊢ with hd
    refine ⟨?_, ?_, ?_⟩
    · simp only [List.length_take]
      omega
    · simp only [List.length_take, List.length_drop]
      omega
    · intro _
      simp only [List.length_take]

end Source

namespace Reader

theorem length_readLoop (fuel : Nat) (s : Source) (b : List Nat) (n : Nat) (hn : n ≤ b.length) :
    (readLoop fuel s b n).2.1.length = b.length := by
  induction fuel generalizing s b n with
  | zero => rfl
  | succ fuel ih =>
    unfold readLoop
    split
    · rename_i hlt
      simp only []
      split
      · rename_i herr
        cases hx : (s.Read (b.length - n)).2.2 with
        | some e =>
          have : (s.Read (b.length - n)).2.1 = [] := by
            unfold Source.Read at hx ⊢
            split at hx
            · rfl
            · split_ifs at hx ⊢
              rfl
            · split_ifs at hx ⊢
              rfl
          simp only [this, List.append_nil, List.length_nil, Nat.add_zero, List.take_append_drop]
        | none => exact absurd hx herr
      · rename_i herr
        have hnone : (s.Read (b.length - n)).2.2 = none := by simpa using herr
        obtain ⟨h1, _, _⟩ := Source.length_data_Read s (b.length - n) hnone
        have hlen : (b.take n ++ (s.Read (b.length - n)).2.1
            ++ b.drop (n + (s.Read (b.length - n)).2.1.length)).length = b.length := by
          simp only [List.length_append, List.length_take, List.length_drop]
          omega
        rw [ih _ _ _ (by rw [hlen]; omega), hlen]
    · rfl

/-- For every source, the fetch loop of `ReadBytes` stops with an error or with
the buffer full; a fuel of the script length plus two is enough. -/
theorem readLoop_exits (fuel : Nat) (s : Source) (b : List Nat) (n : Nat) (hn : n ≤ b.length)
    (hf : n = b.length ∨ (s.script = [] ∧ s.data = [] ∧ 1 ≤ fuel) ∨ s.script.length + 2 ≤ fuel) :
    (readLoop fuel s b n).2.2.2 ≠ none ∨ (readLoop fuel s b n).2.2.1 = b.length := by
  induction fuel generalizing s b n with
  | zero =>
    right
    simp only [readLoop]
    omega
  | succ fuel ih =>
    by_cases hlt : n < b.length
    · rw [readLoop, if_pos hlt]
      simp only []
      by_cases herr : (s.Read (b.length - n)).2.2 ≠ none
      · rw [if_pos herr]
        exact Or.inl herr
      · rw [if_neg herr]
        have hnone : (s.Read (b.length - n)).2.2 = none := by simpa using herr
        obtain ⟨h1, h2, h3⟩ := Source.length_data_Read s (b.length - n) hnone
        have hlen : (b.take n ++ (s.Read (b.length - n)).2.1
            ++ b.drop (n + (s.Read (b.length - n)).2.1.length)).length = b.length := by
          simp only [List.length_append, List.length_take, List.length_drop]
          omega
        have hstep := ih (s.Read (b.length - n)).1
          (b.take n ++ (s.Read (b.length - n)).2.1
            ++ b.drop (n + (s.Read (b.length - n)).2.1.length))
          (n + (s.Read (b.length - n)).2.1.length) (by rw [hlen]; omega) (by
            rw [hlen, Source.script_Read]
            rcases hf with h | ⟨hs, hd, _⟩ | h
            · omega
            · exfalso
              have := Source.Read_empty (s := s) (by intro x hx; rw [hs] at hx; simp at hx) hd
                (b.length - n)
              rw [this.1] at hnone
              exact Option.noConfusion hnone
            · cases hsc : s.script with
              | nil =>
                have hk := h3 hsc
                rw [hsc] at h
                simp only [List.length_nil] at h
                by_cases hle : b.length - n ≤ s.data.length
                · left; omega
                · right; left
                  refine ⟨rfl, List.length_eq_zero.1 (by omega), by omega⟩
              | cons x rest =>
                rw [hsc] at h
                simp only [List.length_cons] at h
                right; right
                simp only [List.tail_cons]
                omega)
        rw [hlen] at hstep
        exact hstep
    · right
      rw [readLoop_done _ _ _ _ hlt]
      simp only []
      omega

/-- The loop inside `ReadBytes` gets enough fuel, whatever the source does. -/
theorem ReadBytes_loop_exits (r : Reader) (buf : List Nat)
    (h1 : (r.r.Read buf.length).2.2 = none) :
    (readLoop (r.r.script.length + 2) (r.r.Read buf.length).1
        ((r.r.Read buf.length).2.1 ++ buf.drop (r.r.Read buf.length).2.1.length)
        (r.r.Read buf.length).2.1.length).2.2.2 ≠ none ∨
    (readLoop (r.r.script.length + 2) (r.r.Read buf.length).1
        ((r.r.Read buf.length).2.1 ++ buf.drop (r.r.Read buf.length).2.1.length)
        (r.r.Read buf.length).2.1.length).2.2.1
      = ((r.r.Read buf.length).2.1 ++ buf.drop (r.r.Read buf.length).2.1.length).length := by
  obtain ⟨a1, _, _⟩ := Source.length_data_Read r.r buf.length h1
  apply readLoop_exits
  · simp only [List.length_append, List.length_drop]
    omega
  · right; right
    rw [Source.script_Read, List.length_tail]
    omega

end Reader

end Bitstream


namespace Bitstream

/-! ## The aligned branch of `Write` on a direct writer -/

namespace Sink

/-- Handing the bytes of `bs` to a sink one call each logs them in order. -/
theorem bytes_foldl_Write (bs : List Nat) (acc : Sink × Option GoError) :
    (bs.foldl (fun (acc : Sink × Option GoError) n =>
        ((acc.1.Write [n]).1, (acc.1.Write [n]).2 <|> acc.2)) acc).1.bytes
      = acc.1.bytes ++ bs := by
  induction bs generalizing acc with
  | nil => simp
  | cons x rest ih =>
    rw [List.foldl_cons, ih]
    simp [bytes_Write]

end Sink

namespace Writer

/-- C11 (aligned `Write` on a direct byte sink), evaluated on the code: in every
byte-aligned state of a writer built by `NewByteWriter`, whatever the sink, the
pending byte and the recorded error, `Write(bs)` hands the bytes of `bs` to the
byte sink one by one and then calls `w.w.Write(b)` on the nil `w.w`: the call
ends in a panic, for every `bs`, the empty one included. On the fresh writer
`Write([]byte{1, 2})` panics after the byte sink has received 1 and 2. -/
theorem Write_aligned_direct_panics (g : Nat → Nat) (bw : Sink) (b : Nat)
    (err : Option GoError) (bs : List Nat) :
    (∃ w1, Write g { out := .direct bw, b := b, p := 8, err := err } bs = .error w1 ∧
      w1.delivered = bw.bytes ++ bs ∧ w1.p = 8 ∧ w1.b = b) ∧
    Write g (NewByteWriter Sink.fresh) [1, 2]
      = .error { out := .direct ⟨[[1], [2]], []⟩, b := 0, p := 8, err := none } :=
  ⟨⟨_, rfl, Sink.bytes_foldl_Write bs (bw, err), rfl, rfl⟩, rfl⟩

/-- C12 (reuse after `Flush`), evaluated on the code: on `NewWriter` over a
sink that never fails, writing eight one bits, `Flush`, writing eight zero
bits and `Flush` again leaves the bytes 255, 255, 0 in the sink, while the
packing of the first sequence followed by the packing of the second is 255, 0:
the second group of writes appends to the buffer that `flush` wrote out and
left as it was. -/
theorem Flush_then_write_resends_buffer (g : Nat → Nat) :
    (Flush g ((List.replicate 8 false).foldl (WriteBit g)
        (Flush g ((List.replicate 8 true).foldl (WriteBit g) (NewWriter Sink.fresh))))).delivered
      = [255, 255, 0] ∧
    pack false (List.replicate 8 true) ++ pack false (List.replicate 8 false) = [255, 0] := by
  refine ⟨?_, by decide⟩
  simp [Flush, flush, padLoop, WriteBit, WriteOne, WriteZero, push, NewWriter, NewWriterSize,
    NewWriterBuffer, defaultBufferSize, delivered, Sink.fresh, Sink.Write, Sink.bytes, shl,
    List.replicate]

/-- C15 (the unaligned path of `Write`): in every state whose free-bit count is
not 8, over any sink and for every byte sequence `bs`, `Write(bs)` returns
without a panic and leaves the writer in exactly the state that one
`WriteByte` call per element of `bs`, in order, leaves it in: the same pending
byte, free-bit count, buffer, sink log and error, hence the same sink bytes. -/
theorem Write_unaligned_eq_WriteByte_each (g : Nat → Nat) (w : Writer) (bs : List Nat)
    (hp : w.p ≠ 8) :
    Write g w bs = .ok (bs.foldl (WriteByte g) w) :=
  Write_unaligned g w bs hp

theorem Write_unaligned_eq_WriteByte_each_witness :
    (WriteBit id (NewWriter Sink.fresh) true).p ≠ 8 ∧
    Write id (WriteBit id (NewWriter Sink.fresh) true) [165, 90]
      = .ok ([165, 90].foldl (WriteByte id) (WriteBit id (NewWriter Sink.fresh) true)) :=
  ⟨by decide,
    Write_unaligned_eq_WriteByte_each id (WriteBit id (NewWriter Sink.fresh) true) [165, 90]
      (by decide)⟩

/-- C17 (writer state invariant): in every state reachable without a panic
from a writer built by `NewByteWriter`, `NewWriter`, `NewWriterSize` or
`NewWriterBuffer` through any sequence of calls of the eight writing methods,
the free-bit count is between 1 and 8, the pending byte is a multiple of
`2 ^ p` (its `p` low bits are zero), and a free-bit count of 8 comes with the
pending byte 0. -/
theorem writer_state_invariant (g : Nat → Nat) (w0 w : Writer) (h0 : Fresh w0)
    (h : Reachable g w0 w) :
    1 ≤ w.p ∧ w.p ≤ 8 ∧ w.b % 2 ^ w.p = 0 ∧ (w.p = 8 → w.b = 0) := by
  obtain ⟨h1, h8, hb, hz⟩ := Reachable.stateInv h0 h
  refine ⟨h1, h8, hz, fun hp => ?_⟩
  rw [hp] at hz
  omega

theorem writer_state_invariant_witness :
    Fresh (NewByteWriter Sink.fresh) ∧
    Reachable id (NewByteWriter Sink.fresh)
      (WriteByte id (WriteOne id (NewByteWriter Sink.fresh)) 165) ∧
    1 ≤ (WriteByte id (WriteOne id (NewByteWriter Sink.fresh)) 165).p ∧
    (WriteByte id (WriteOne id (NewByteWriter Sink.fresh)) 165).p ≤ 8 ∧
    (WriteByte id (WriteOne id (NewByteWriter Sink.fresh)) 165).b
      % 2 ^ (WriteByte id (WriteOne id (NewByteWriter Sink.fresh)) 165).p = 0 ∧
    ((WriteByte id (WriteOne id (NewByteWriter Sink.fresh)) 165).p = 8 →
      (WriteByte id (WriteOne id (NewByteWriter Sink.fresh)) 165).b = 0) :=
  ⟨Or.inl ⟨_, rfl⟩,
    ⟨[.WriteOne, .WriteByte 165], by simp [WOp.WellTyped], rfl⟩,
    writer_state_invariant id (NewByteWriter Sink.fresh) _ (Or.inl ⟨_, rfl⟩)
      ⟨[.WriteOne, .WriteByte 165], by simp [WOp.WellTyped], rfl⟩⟩

end Writer

namespace Reader

/-- C13 (a read that obtained no data), evaluated on the code: over a source
that holds the bytes 1, 2, 3 and answers its first `Read` call with 0 bytes
and a nil error, the first `ReadBit` on a fresh reader returns the bit 0 with a
nil error, and so does the first `ReadByte` with the byte 0: the test
`n != 1 || err != nil` is followed by `return ..., err` with `err == nil`. -/
theorem empty_read_returns_nil_error :
    (Source.Read ⟨[1, 2, 3], [.chunk 0]⟩ 1).2 = ([], none) ∧
    (ReadBit (NewReader ⟨[1, 2, 3], [.chunk 0]⟩)).2 = (false, none) ∧
    (ReadByte (NewReader ⟨[1, 2, 3], [.chunk 0]⟩)).2 = (0, none) :=
  ⟨rfl, rfl, rfl⟩

/-- C16 (`ReadBit` with no pending bits): when the one-byte fetch reports an
error `e` (a source error or `io.EOF`), `ReadBit` returns the bit 0 and that
same `e` and leaves the pending byte and the pending-bit count as they were;
when the fetch hands out the byte `x` without error, `ReadBit` returns bit 7 of
`x` without error and leaves the pending byte `x << 1` (in 8 bits) with 7
pending bits. In both cases the source is left as the fetch left it. -/
theorem ReadBit_fetch (r : Reader) (hp : r.p = 0) :
    (∀ e, (r.r.Read 1).2.2 = some e →
      (ReadBit r).2 = (false, some e) ∧ (ReadBit r).1.b = r.b ∧ (ReadBit r).1.p = r.p ∧
        (ReadBit r).1.r = (r.r.Read 1).1) ∧
    (∀ x, (r.r.Read 1).2 = ([x], none) →
      (ReadBit r).2 = (x.testBit 7, none) ∧ (ReadBit r).1.b = shl 8 x 1 ∧ (ReadBit r).1.p = 7 ∧
        (ReadBit r).1.r = (r.r.Read 1).1) := by
  constructor
  · intro e he
    unfold ReadBit
    rw [if_neg (by omega)]
    simp [he]
  · intro x hx
    have h1 : (r.r.Read 1).2.1 = [x] := by rw [hx]
    have h2 : (r.r.Read 1).2.2 = none := by rw [hx]
    unfold ReadBit
    rw [if_neg (by omega)]
    simp [h1, h2]
    rw [← and_0x80 x]
    simp

theorem ReadBit_fetch_witness :
    (NewReader (Source.ofBytes [165])).p = 0 ∧
    ((ReadBit (NewReader (Source.ofBytes [165]))).2 = (Nat.testBit 165 7, none) ∧
      (ReadBit (NewReader (Source.ofBytes [165]))).1.b = shl 8 165 1 ∧
      (ReadBit (NewReader (Source.ofBytes [165]))).1.p = 7 ∧
      (ReadBit (NewReader (Source.ofBytes [165]))).1.r
        = ((NewReader (Source.ofBytes [165])).r.Read 1).1) ∧
    ((ReadBit (NewReader (Source.ofBytes []))).2 = (false, some .EOF) ∧
      (ReadBit (NewReader (Source.ofBytes []))).1.b = (NewReader (Source.ofBytes [])).b ∧
      (ReadBit (NewReader (Source.ofBytes []))).1.p = (NewReader (Source.ofBytes [])).p ∧
      (ReadBit (NewReader (Source.ofBytes []))).1.r
        = ((NewReader (Source.ofBytes [])).r.Read 1).1) :=
  ⟨rfl, (ReadBit_fetch (NewReader (Source.ofBytes [165])) rfl).2 165 rfl,
    (ReadBit_fetch (NewReader (Source.ofBytes [])) rfl).1 .EOF rfl⟩

/-- C18 (reader state invariant): in every state reachable without a panic
from `NewReader(src)`, over any source, through any sequence of `ReadBit`,
`ReadByte`, `ReadBytes` and `ReadBits` calls, successful or failing, the
pending-bit count `p` is at most 7, the pending byte is below 256 and its
`8 - p` low bits are zero. -/
theorem reader_state_invariant (src : Source) (r : Reader) (h : Reachable (NewReader src) r) :
    r.p ≤ 7 ∧ r.b < 256 ∧ r.b % 2 ^ (8 - r.p) = 0 ∧
      ∀ i, i < 8 - r.p → r.b.testBit i = false := by
  obtain ⟨⟨hp, hb, hz⟩, _⟩ := Reachable.readerInv h
  exact ⟨hp, hb, hz, fun i hi => testBit_low_zero hz i hi⟩

theorem reader_state_invariant_witness :
    Reachable (NewReader (Source.ofBytes [165, 90]))
      (ReadByte (ReadBit (NewReader (Source.ofBytes [165, 90]))).1).1 ∧
    (ReadByte (ReadBit (NewReader (Source.ofBytes [165, 90]))).1).1.p ≤ 7 ∧
    (ReadByte (ReadBit (NewReader (Source.ofBytes [165, 90]))).1).1.b < 256 ∧
    (ReadByte (ReadBit (NewReader (Source.ofBytes [165, 90]))).1).1.b
      % 2 ^ (8 - (ReadByte (ReadBit (NewReader (Source.ofBytes [165, 90]))).1).1.p) = 0 ∧
    ∀ i, i < 8 - (ReadByte (ReadBit (NewReader (Source.ofBytes [165, 90]))).1).1.p →
      (ReadByte (ReadBit (NewReader (Source.ofBytes [165, 90]))).1).1.b.testBit i = false :=
  ⟨⟨[.ReadBit, .ReadByte], rfl⟩,
    reader_state_invariant (Source.ofBytes [165, 90]) _ ⟨[.ReadBit, .ReadByte], rfl⟩⟩

end Reader

end Bitstream


namespace Bitstream

namespace Reader

/-! ## `ReadByte` and `ReadBit` when the fetch hands out a byte -/

/-- With the fetch handing out the byte `x`, `ReadByte` returns `x` merged
behind the pending bits and keeps the rest of `x` as the pending byte. -/
theorem ReadByte_got {r : Reader} {x : Nat} (h : (r.r.Read 1).2 = ([x], none)) :
    ReadByte r =
      ({ r with
          r := (r.r.Read 1).1,
          b := if r.p = 0 then r.b else shl 8 x ((2 ^ 32 + 8 - r.p) % 2 ^ 32) },
        if r.p = 0 then x else r.b ||| (x >>> r.p), none) := by
  have h1 : (r.r.Read 1).2.1 = [x] := by rw [h]
  have h2 : (r.r.Read 1).2.2 = none := by rw [h]
  unfold ReadByte
  simp only [h1, h2]
  by_cases hp : r.p = 0 <;> simp [hp]

/-- With no pending bits and the fetch handing out the byte `x`, `ReadBit`
returns the top bit of `x` and keeps the other seven. -/
theorem ReadBit_got {r : Reader} {x : Nat} (hp : r.p = 0) (h : (r.r.Read 1).2 = ([x], none)) :
    ReadBit r = ({ r := (r.r.Read 1).1, b := shl 8 x 1, p := 7 }, x.testBit 7, none) := by
  have h1 : (r.r.Read 1).2.1 = [x] := by rw [h]
  have h2 : (r.r.Read 1).2.2 = none := by rw [h]
  unfold ReadBit
  rw [if_neg (by omega)]
  simp only [h1, h2]
  simp
  rw [← and_0x80 x]
  simp

/-! ## Repeated `ReadByte` -/

theorem readByteN_succ (r : Reader) (n : Nat) :
    readByteN r (n + 1)
      = ((readByteN (ReadByte r).1 n).1, (ReadByte r).2 :: (readByteN (ReadByte r).1 n).2) := rfl

/-- On a byte-aligned reader, `ReadByte` called once per byte of a front part
`cs` of the source returns the bytes of `cs` and leaves the state as it was but
for the source. -/
theorem readByteN_aligned (cs : List Nat) : ∀ (r : Reader) (rest : List Nat),
    r.r.Steady → r.r.data = cs ++ rest → r.p = 0 →
    (readByteN r cs.length).2 = cs.map (fun c => (c, none)) ∧
      (readByteN r cs.length).1.b = r.b ∧ (readByteN r cs.length).1.p = 0 ∧
      (readByteN r cs.length).1.r.data = rest ∧ (readByteN r cs.length).1.r.Steady := by
  induction cs with
  | nil =>
    intro r rest hs hd hp
    exact ⟨rfl, rfl, hp, hd, hs⟩
  | cons c cs ih =>
    intro r rest hs hd hp
    obtain ⟨e1, e2⟩ := Source.Read_one hs hd
    have e3 := ReadByte_got e1
    rw [if_pos hp, if_pos hp] at e3
    obtain ⟨i1, i2, i3, i4, i5⟩ := ih (ReadByte r).1 rest
      (by rw [e3]; exact Source.steady_Read hs 1) (by rw [e3]; exact e2) (by rw [e3]; exact hp)
    rw [List.length_cons, readByteN_succ]
    refine ⟨?_, ?_, i3, i4, i5⟩
    · simp only []
      rw [i1, e3]
      rfl
    · simp only []
      rw [i2, e3]

/-- With pending bits, `ReadByte` called once per byte of a front part `cs` of
the source returns what the merge loop of `ReadBytes` computes from `cs`, and
ends with the carry of that loop as the pending byte. -/
theorem readByteN_merge (cs : List Nat) : ∀ (r : Reader) (rest : List Nat),
    r.r.Steady → r.r.data = cs ++ rest → r.p ≠ 0 →
    (readByteN r cs.length).2
        = (mergeLoop r.p ((2 ^ 32 + 8 - r.p) % 2 ^ 32) r.b cs).1.map (fun c => (c, none)) ∧
      (readByteN r cs.length).1.b = (mergeLoop r.p ((2 ^ 32 + 8 - r.p) % 2 ^ 32) r.b cs).2 ∧
      (readByteN r cs.length).1.p = r.p ∧
      (readByteN r cs.length).1.r.data = rest := by
  induction cs with
  | nil =>
    intro r rest hs hd hp
    exact ⟨rfl, rfl, rfl, hd⟩
  | cons c cs ih =>
    intro r rest hs hd hp
    obtain ⟨e1, e2⟩ := Source.Read_one hs hd
    have e3 := ReadByte_got e1
    rw [if_neg hp, if_neg hp] at e3
    obtain ⟨i1, i2, i3, i4⟩ := ih (ReadByte r).1 rest
      (by rw [e3]; exact Source.steady_Read hs 1) (by rw [e3]; exact e2) (by rw [e3]; exact hp)
    rw [List.length_cons, readByteN_succ]
    refine ⟨?_, ?_, ?_, i4⟩
    · simp only []
      rw [i1, e3]
      rfl
    · simp only []
      rw [i2, e3]
      rfl
    · simp only []
      rw [i3, e3]

/-! ## Repeated `ReadBit` -/

theorem readBitN_succ (r : Reader) (n : Nat) :
    readBitN r (n + 1)
      = ((readBitN (ReadBit r).1 n).1, (ReadBit r).2 :: (readBitN (ReadBit r).1 n).2) := rfl

theorem readBitN_add (m n : Nat) : ∀ r : Reader,
    readBitN r (m + n)
      = ((readBitN (readBitN r m).1 n).1, (readBitN r m).2 ++ (readBitN (readBitN r m).1 n).2) := by
  induction m with
  | zero =>
    intro r
    rw [Nat.zero_add]
    rfl
  | succ m ih =>
    intro r
    rw [Nat.succ_add, readBitN_succ, ih, readBitN_succ]
    rfl

/-- While bits are pending, `n` calls of `ReadBit` return the first `n` of
them, shift the pending byte by `n` and leave the source alone. -/
theorem readBitN_pending (n : Nat) : ∀ r : Reader, n ≤ r.p → r.p ≤ 8 → r.b < 256 →
    readBitN r n
      = ({ r with b := shl 8 r.b n, p := r.p - n },
          ((byteBits r.b).take n).map (fun c => (c, none))) := by
  induction n with
  | zero =>
    intro r _ _ hb
    obtain ⟨s, b, p⟩ := r
    simp [readBitN, shl_zero_of_lt (w := 8) (x := b) (by simpa using hb)]
  | succ n ih =>
    intro r hn hp hb
    have e1 : ReadBit r = ({ r with p := r.p - 1, b := shl 8 r.b 1 }, r.b.testBit 7, none) := by
      unfold ReadBit
      rw [if_pos (by omega)]
      simp only []
      rw [and_0x80]
    have e2 := ih (ReadBit r).1 (by rw [e1]; simp only []; omega) (by rw [e1]; simp only []; omega)
      (by rw [e1]; exact shl8_lt r.b 1)
    rw [readBitN_succ, e2, e1]
    simp only [shl_shl, Nat.add_comm 1 n]
    rw [byteBits_shift (b := r.b) (p := n + 1) (by omega) (by omega)]
    simp only [Nat.add_sub_cancel, List.map_cons, Prod.mk.injEq, and_true]
    congr 1
    omega

end Reader

end Bitstream


namespace Bitstream

namespace Reader

theorem readBitN_one (r : Reader) : readBitN r 1 = ((ReadBit r).1, [(ReadBit r).2]) := rfl

/-- With the fetch handing out a byte, eight calls of `ReadBit` end in the
state one call of `ReadByte` ends in, and return the bits of the byte it
returns. -/
theorem readBitN_eight {r : Reader} {x : Nat} (hi : r.Inv) (hx : x < 256)
    (h : (r.r.Read 1).2 = ([x], none)) :
    (ReadByte r).2.2 = none ∧
      readBitN r 8 = ((ReadByte r).1, (byteBits (ReadByte r).2.1).map (fun c => (c, none))) := by
  obtain ⟨hp, hb, hz⟩ := hi
  have e0 := ReadByte_got h
  have a1 := readBitN_pending r.p r (le_refl _) (by omega) hb
  have a2 : ReadBit (readBitN r r.p).1
      = ({ r := (r.r.Read 1).1, b := shl 8 x 1, p := 7 }, x.testBit 7, none) := by
    rw [a1]
    exact ReadBit_got (by simp) h
  have a3 := readBitN_pending (7 - r.p) (ReadBit (readBitN r r.p).1).1
    (by rw [a2]; simp only []; omega) (by rw [a2]; simp only []; omega)
    (by rw [a2]; exact shl8_lt x 1)
  have hsplit : readBitN r 8 = readBitN r (r.p + (1 + (7 - r.p))) := by
    congr 1
    omega
  refine ⟨by rw [e0], ?_⟩
  rw [hsplit, readBitN_add, readBitN_add, readBitN_one, a3, a2, a1, e0]
  simp only [shl_shl]
  have hbits : (byteBits x).take (8 - r.p)
      = x.testBit 7 :: (byteBits (shl 8 x 1)).take (7 - r.p) := by
    rw [byteBits_shift (b := x) (p := 8 - r.p) (by omega) (by omega)]
    congr 2
    omega
  by_cases hp0 : r.p = 0
  · have hb0 : r.b = 0 := by
      rw [hp0] at hz
      omega
    have hs8 : shl 8 x (1 + (7 - r.p)) = 0 := by
      rw [hp0]
      rfl
    rw [if_pos hp0, if_pos hp0, hs8]
    rw [hp0] at hbits
    simp only [hp0, hb0, List.take_zero, List.map_nil, List.nil_append, Nat.sub_zero,
      Nat.sub_self, List.singleton_append]
    have h8 : byteBits x = (byteBits x).take 8 := by
      rw [List.take_of_length_le]
      rw [byteBits_length]
    rw [h8, hbits]
    rfl
  · have hq : (2 ^ 32 + 8 - r.p) % 2 ^ 32 = 8 - r.p := by omega
    have hk : 1 + (7 - r.p) = 8 - r.p := by omega
    have hk2 : 7 - (7 - r.p) = r.p := by omega
    rw [if_neg hp0, if_neg hp0, hq, hk, byteBits_rmerge (by omega) hx hz, hbits]
    simp only [hk2, List.map_append, List.map_cons, List.singleton_append]

/-! ## Repeated reads over a steady source -/

/-- Aligned `ReadByte` over a steady source: on `NewReader(src)`, where `src`
hands out at least one byte per call and reports `io.EOF` once empty, one
`ReadByte` call per byte held returns the bytes in order, each with a nil
error, leaves the reader with no pending bits, and the call after them returns
the byte 0 and `io.EOF`. -/
theorem ReadByte_aligned_then_eof (src : Source) (hs : src.Steady) :
    (readByteN (NewReader src) src.data.length).2 = src.data.map (fun c => (c, none)) ∧
      (readByteN (NewReader src) src.data.length).1.p = 0 ∧
      (readByteN (NewReader src) src.data.length).1.b = 0 ∧
      (ReadByte (readByteN (NewReader src) src.data.length).1).2 = (0, some .EOF) := by
  obtain ⟨i1, i2, i3, i4, i5⟩ := readByteN_aligned src.data (NewReader src) [] hs
    (by simp [NewReader]) rfl
  exact ⟨i1, i3, i2, ReadByte_eof i5.toNoFail i4⟩

theorem ReadByte_aligned_then_eof_witness :
    (Source.ofBytes [49]).Steady ∧
    (readByteN (NewReader (Source.ofBytes [49])) (Source.ofBytes [49]).data.length).2
      = (Source.ofBytes [49]).data.map (fun c => (c, none)) ∧
    (readByteN (NewReader (Source.ofBytes [49])) (Source.ofBytes [49]).data.length).1.p = 0 ∧
    (readByteN (NewReader (Source.ofBytes [49])) (Source.ofBytes [49]).data.length).1.b = 0 ∧
    (ReadByte (readByteN (NewReader (Source.ofBytes [49]))
      (Source.ofBytes [49]).data.length).1).2 = (0, some .EOF) :=
  ⟨by intro x hx; simp [Source.ofBytes] at hx,
    ReadByte_aligned_then_eof (Source.ofBytes [49])
      (by intro x hx; simp [Source.ofBytes] at hx)⟩

/-- `ReadBytes` against repeated `ReadByte` over a steady source: in every
reader state, with or without pending bits, over a source that hands out at
least one byte per call and holds at least `m = len(buf) ≥ 1` bytes,
`ReadBytes(buf)` returns a nil error and fills the buffer with the `m` values
that `m` successive `ReadByte` calls return from the same state, each of them
with a nil error, and both end with the same pending byte, the same
pending-bit count and the same bytes left in the source. -/
theorem ReadBytes_eq_ReadByte_each (r : Reader) (buf : List Nat) (hs : r.r.Steady)
    (hm : 1 ≤ buf.length) (hd : buf.length ≤ r.r.data.length) :
    (ReadBytes r buf).2.2 = none ∧
      (ReadBytes r buf).2.1.length = buf.length ∧
      (readByteN r buf.length).2 = (ReadBytes r buf).2.1.map (fun c => (c, none)) ∧
      (ReadBytes r buf).1.b = (readByteN r buf.length).1.b ∧
      (ReadBytes r buf).1.p = (readByteN r buf.length).1.p ∧
      (ReadBytes r buf).1.r.data = (readByteN r buf.length).1.r.data := by
  obtain ⟨a1, a2⟩ := (readLoop_spec (r.r.script.length + 3) r.r buf 0 hs.toNoFail (by omega)
    (Or.inr (Or.inr (by omega)))).1 (by omega)
  simp only [List.take_zero, List.nil_append, Nat.sub_zero] at a1 a2
  have a3 : (readLoop (r.r.script.length + 3) r.r buf 0).2.1 = r.r.data.take buf.length := by
    rw [a1]
  have a4 : (readLoop (r.r.script.length + 3) r.r buf 0).2.2.2 = none := by rw [a1]
  have hlen : (r.r.data.take buf.length).length = buf.length := by
    rw [List.length_take]; omega
  have hdata : r.r.data = r.r.data.take buf.length ++ r.r.data.drop buf.length :=
    (List.take_append_drop _ _).symm
  rw [ReadBytes_eq r buf hm, if_neg (by rw [a4]; simp), a3]
  by_cases hp0 : r.p = 0
  · obtain ⟨i1, i2, i3, i4, _⟩ := readByteN_aligned (r.r.data.take buf.length) r _ hs hdata hp0
    rw [hlen] at i1 i2 i3 i4
    rw [if_pos hp0]
    exact ⟨rfl, hlen, i1, i2.symm, by rw [i3]; exact hp0, by rw [i4]; exact a2⟩
  · obtain ⟨i1, i2, i3, i4⟩ := readByteN_merge (r.r.data.take buf.length) r _ hs hdata hp0
    rw [hlen] at i1 i2 i3 i4
    rw [if_neg hp0]
    exact ⟨rfl, by rw [mergeLoop_length, hlen], i1, i2.symm, i3.symm, by rw [i4]; exact a2⟩

theorem ReadBytes_eq_ReadByte_each_witness :
    (ReadBit (NewReader (Source.ofBytes [165, 90, 60]))).1.r.Steady ∧
    1 ≤ [0, 0].length ∧
    [0, 0].length ≤ (ReadBit (NewReader (Source.ofBytes [165, 90, 60]))).1.r.data.length ∧
    (ReadBytes (ReadBit (NewReader (Source.ofBytes [165, 90, 60]))).1 [0, 0]).2.2 = none ∧
    (ReadBytes (ReadBit (NewReader (Source.ofBytes [165, 90, 60]))).1 [0, 0]).2.1.length
      = [0, 0].length ∧
    (readByteN (ReadBit (NewReader (Source.ofBytes [165, 90, 60]))).1 [0, 0].length).2
      = (ReadBytes (ReadBit (NewReader (Source.ofBytes [165, 90, 60]))).1 [0, 0]).2.1.map
          (fun c => (c, none)) ∧
    (ReadBytes (ReadBit (NewReader (Source.ofBytes [165, 90, 60]))).1 [0, 0]).1.b
      = (readByteN (ReadBit (NewReader (Source.ofBytes [165, 90, 60]))).1 [0, 0].length).1.b ∧
    (ReadBytes (ReadBit (NewReader (Source.ofBytes [165, 90, 60]))).1 [0, 0]).1.p
      = (readByteN (ReadBit (NewReader (Source.ofBytes [165, 90, 60]))).1 [0, 0].length).1.p ∧
    (ReadBytes (ReadBit (NewReader (Source.ofBytes [165, 90, 60]))).1 [0, 0]).1.r.data
      = (readByteN (ReadBit (NewReader (Source.ofBytes [165, 90, 60]))).1
          [0, 0].length).1.r.data :=
  ⟨by intro x hx; simp [Source.ofBytes, ReadBit, NewReader, Source.Read] at hx,
    by decide, by decide,
    ReadBytes_eq_ReadByte_each (ReadBit (NewReader (Source.ofBytes [165, 90, 60]))).1 [0, 0]
      (by intro x hx; simp [Source.ofBytes, ReadBit, NewReader, Source.Read] at hx)
      (by decide) (by decide)⟩

/-- `ReadByte` against eight `ReadBit` calls over a steady source: in every
state reachable from `NewReader(src)`, where `src` holds bytes, hands out at
least one byte per call and still holds a byte, `ReadByte` returns a byte `y`
with a nil error, eight successive `ReadBit` calls from the same state return
the eight bits of `y`, most significant first, each with a nil error, both end
in the same reader state (pending byte, pending-bit count and source), and the
source has lost its first byte. -/
theorem ReadByte_eq_eight_ReadBit (src : Source) (r : Reader) (hs : src.Steady)
    (hb : src.Bytes) (hr : Reachable (NewReader src) r) (hd : r.r.data ≠ []) :
    (ReadByte r).2.2 = none ∧
      (readBitN r 8).2 = (byteBits (ReadByte r).2.1).map (fun c => (c, none)) ∧
      (readBitN r 8).1 = (ReadByte r).1 ∧
      (ReadByte r).1.r.data = r.r.data.tail := by
  obtain ⟨hi, hl⟩ := Reachable.readerInv hr
  obtain ⟨x, rest, hx⟩ := List.exists_cons_of_ne_nil hd
  obtain ⟨e1, e2⟩ := Source.Read_one (hl.keepsSteady hs) hx
  obtain ⟨c1, c2⟩ := readBitN_eight hi (hl.keepsBytes hb x (by rw [hx]; simp)) e1
  refine ⟨c1, by rw [c2], by rw [c2], ?_⟩
  rw [ReadByte_got e1, hx]
  exact e2

theorem ReadByte_eq_eight_ReadBit_witness :
    (Source.ofBytes [165, 90]).Steady ∧ (Source.ofBytes [165, 90]).Bytes ∧
    Reachable (NewReader (Source.ofBytes [165, 90]))
      (readBitN (NewReader (Source.ofBytes [165, 90])) 3).1 ∧
    (readBitN (NewReader (Source.ofBytes [165, 90])) 3).1.r.data ≠ [] ∧
    (ReadByte (readBitN (NewReader (Source.ofBytes [165, 90])) 3).1).2.2 = none ∧
    (readBitN (readBitN (NewReader (Source.ofBytes [165, 90])) 3).1 8).2
      = (byteBits (ReadByte (readBitN (NewReader (Source.ofBytes [165, 90])) 3).1).2.1).map
          (fun c => (c, none)) ∧
    (readBitN (readBitN (NewReader (Source.ofBytes [165, 90])) 3).1 8).1
      = (ReadByte (readBitN (NewReader (Source.ofBytes [165, 90])) 3).1).1 ∧
    (ReadByte (readBitN (NewReader (Source.ofBytes [165, 90])) 3).1).1.r.data
      = (readBitN (NewReader (Source.ofBytes [165, 90])) 3).1.r.data.tail :=
  ⟨by intro x hx; simp [Source.ofBytes] at hx,
    by unfold Source.Bytes; decide,
    ⟨[.ReadBit, .ReadBit, .ReadBit], rfl⟩,
    by decide,
    ReadByte_eq_eight_ReadBit (Source.ofBytes [165, 90]) _
      (by intro x hx; simp [Source.ofBytes] at hx) (by unfold Source.Bytes; decide)
      ⟨[.ReadBit, .ReadBit, .ReadBit], rfl⟩ (by decide)⟩

end Reader

end Bitstream


namespace Bitstream

namespace Reader

/-! ## Repeated reads over a source that answers a `Read` with no byte and no error -/

/-- C14 (aligned `ReadByte`), evaluated on the code: over a source that holds
exactly the bytes 1, 2, 3 and answers its first `Read` call with 0 bytes and a
nil error, three `ReadByte` calls on the fresh reader return 0, 1, 2, each with
a nil error, where the source holds 1, 2, 3; the fourth call returns 3 with a
nil error, not `io.EOF`. The first call returns the byte 0 it never read. -/
theorem ReadByte_sequence_after_empty_read :
    (Source.Read ⟨[1, 2, 3], [.chunk 0]⟩ 1).2 = ([], none) ∧
    (readByteN (NewReader ⟨[1, 2, 3], [.chunk 0]⟩) 3).2 = [(0, none), (1, none), (2, none)] ∧
    (readByteN (NewReader ⟨[1, 2, 3], [.chunk 0]⟩) 3).1 = ⟨⟨[3], []⟩, 0, 0⟩ ∧
    (ReadByte (readByteN (NewReader ⟨[1, 2, 3], [.chunk 0]⟩) 3).1).2 = (3, none) :=
  ⟨rfl, rfl, rfl, rfl⟩

/-- C19 (`ReadBytes` against repeated `ReadByte`), evaluated on the code: over
a source that holds the bytes 1, 2, 3 and answers its first `Read` call with 0
bytes and a nil error, `ReadBytes` into a buffer of length 2 on the fresh
reader asks again, fills the buffer with 1, 2 and leaves the byte 3 in the
source, while two `ReadByte` calls from the same state return 0 and 1, each
with a nil error, and leave the bytes 2, 3 in the source. -/
theorem ReadBytes_vs_ReadByte_after_empty_read :
    ReadBytes (NewReader ⟨[1, 2, 3], [.chunk 0]⟩) [0, 0]
      = (⟨⟨[3], []⟩, 0, 0⟩, [1, 2], none) ∧
    readByteN (NewReader ⟨[1, 2, 3], [.chunk 0]⟩) 2
      = (⟨⟨[2, 3], []⟩, 0, 0⟩, [(0, none), (1, none)]) :=
  ⟨rfl, rfl⟩

/-- C20 (`ReadByte` against eight `ReadBit` calls), evaluated on the code: over
a source that holds the bytes 255, 2, 3 and answers its first `Read` call with
0 bytes and a nil error, `ReadByte` on the fresh reader returns the byte 0 with
a nil error and consumes nothing, while eight `ReadBit` calls from the same
state return the bits 0, 1, 1, 1, 1, 1, 1, 1 (not the bits of 0), each with a
nil error, and end with the pending byte 128, one pending bit and the byte 255
consumed. -/
theorem ReadByte_vs_ReadBit_after_empty_read :
    ReadByte (NewReader ⟨[255, 2, 3], [.chunk 0]⟩)
      = (⟨⟨[255, 2, 3], []⟩, 0, 0⟩, 0, none) ∧
    readBitN (NewReader ⟨[255, 2, 3], [.chunk 0]⟩) 8
      = (⟨⟨[2, 3], []⟩, 128, 1⟩,
          [(false, none), (true, none), (true, none), (true, none), (true, none),
            (true, none), (true, none), (true, none)]) ∧
    byteBits 0 = [false, false, false, false, false, false, false, false] :=
  ⟨rfl, by decide, rfl⟩

end Reader

end Bitstream
